import Mathlib

/-! Linear hashing (`linearhash.go`): embedding and verification.

The table `LHash`, its bucket chains and entry slots are embedded as pure
values.  A `*bucket` is either `nil` or a node with its slots and its
successor; in-place mutation becomes returning the updated value.  Run-time
panics (indexing `lh.buckets` out of range) are `none`.  `uint64` fields are
natural numbers reduced modulo `2 ^ 64` at every arithmetic step; the `int`
counters are integers, and the `int` product of the load test wraps at 64
bits.
-/

set_option autoImplicit false

namespace linearhash

/-! ## Data model -/

/-- The interface `Hashable`: `Equals(Hashable) bool` and `Hash() uint64`
(the hash is reduced modulo `2 ^ 64` where it is used). -/
class Hashable (K : Type) where
  Equals : K → K → Bool
  Hash : K → Nat

/-- The constant `bucketCapacity`. -/
def bucketCapacity : Nat := 64

/-- The struct `entry`: a key (`none` is the nil interface, an empty slot)
and a value (`none` is the nil interface). -/
structure entry (K V : Type) where
  key : Option K
  value : Option V
deriving DecidableEq

/-- A `*bucket`: `nil`, or a node with its entry slots and its `next` link. -/
inductive bucket (K V : Type) where
  | nil : bucket K V
  | mk (entries : List (entry K V)) (next : bucket K V) : bucket K V
deriving DecidableEq

/-- The struct `LHash`. -/
structure LHash (K V : Type) where
  buckets : List (bucket K V)
  size : Int
  bucketCount : Int
  splitIndex : Nat
  maskHigh : Nat
  maskLow : Nat
deriving DecidableEq

variable {K V : Type}

/-- The test `b == nil` on a `*bucket`. -/
def bucket.isNil : bucket K V → Bool
  | .nil => true
  | .mk _ _ => false

/-- An empty slot. -/
def emptyEntry : entry K V := ⟨none, none⟩

/-- `newBucket()`: a node of `bucketCapacity` empty slots and no successor. -/
def newBucket : bucket K V :=
  .mk (List.replicate bucketCapacity emptyEntry) .nil

/-- `NewLHash()`. -/
def NewLHash : LHash K V :=
  { buckets := [newBucket, newBucket]
    size := 0
    bucketCount := 2
    splitIndex := 0
    maskHigh := 3
    maskLow := 1 }

/-! ## Chain operations -/

section ops
variable [Hashable K]

/-- The slot loop of `bucket.find`: `some v` when a live slot matched (the
function returns its value `v`, which may be nil), `none` when the loop ran
to its end. -/
def findEntries (key : K) : List (entry K V) → Option (Option V)
  | [] => none
  | e :: es =>
    match e.key with
    | none => findEntries key es
    | some k => if Hashable.Equals k key then some e.value else findEntries key es

/-- `(*bucket).find`. -/
def bucket.find (key : K) : bucket K V → Option V
  | .nil => none
  | .mk entries next =>
    match findEntries key entries with
    | some v => v
    | none => next.find key

/-- Outcome of the slot loop of `bucket.put`: the loop returned early after
overwriting a value in place (`updated`), or ran to its end with the
remembered hole `slot` (`none` is `-1`). -/
inductive scanResult (K V : Type) where
  | updated (entries : List (entry K V)) : scanResult K V
  | noMatch (slot : Option Nat) : scanResult K V

/-- Puts back the slot that the loop has already passed. -/
def scanResult.cons (e : entry K V) : scanResult K V → scanResult K V
  | .updated es => .updated (e :: es)
  | .noMatch s => .noMatch s

/-- The slot loop of `bucket.put`, from index `idx` on, with the current
value of `slot`. -/
def putScan (key : K) (value : Option V) :
    List (entry K V) → Nat → Option Nat → scanResult K V
  | [], _, slot => .noMatch slot
  | e :: es, idx, slot =>
    if e.key.isNone && slot.isNone then
      (putScan key value es (idx + 1) (some idx)).cons e
    else
      match e.key with
      | some k =>
        if Hashable.Equals k key then .updated ({ e with value := value } :: es)
        else (putScan key value es (idx + 1) slot).cons e
      | none => (putScan key value es (idx + 1) slot).cons e

/-- The slot loop of `bucket.remove` with the current `empty` and `removed`:
the slots after the loop, `empty` and `removed`.  The early
`return b, true, 0` (a match after a live slot) leaves the remaining slots
unscanned and is reported as `empty = false`, `removed = true`, for which
the `switch` after the loop returns the same `b, true, 0`. -/
def removeScan (key : K) :
    List (entry K V) → Bool → Bool → List (entry K V) × Bool × Bool
  | [], empty, removed => ([], empty, removed)
  | e :: es, empty, removed =>
    match e.key with
    | none =>
      let r := removeScan key es empty removed
      (e :: r.1, r.2.1, r.2.2)
    | some k =>
      if Hashable.Equals k key then
        if !empty then (emptyEntry :: es, false, true)
        else
          let r := removeScan key es empty true
          (emptyEntry :: r.1, r.2.1, r.2.2)
      else
        let r := removeScan key es false removed
        (e :: r.1, r.2.1, r.2.2)

/-- `(*bucket).remove`: the new chain, `removed` and `chainDelta`. -/
def bucket.remove (key : K) : bucket K V → bucket K V × Bool × Int
  | .nil => (.nil, false, 0)
  | .mk entries next =>
    let r := removeScan key entries true false
    if r.2.2 && r.2.1 then (next, true, -1)
    else if r.2.2 then (.mk r.1 next, true, 0)
    else
      let n := next.remove key
      (.mk r.1 n.1, n.2.1, n.2.2)

/-- `(*bucket).put`: the new chain, `added` and `chainDelta`. -/
def bucket.put (key : K) (value : Option V) : bucket K V → bucket K V × Bool × Int
  | .nil =>
    (.mk ((List.replicate bucketCapacity emptyEntry).set 0 ⟨some key, value⟩) .nil, true, 1)
  | .mk entries next =>
    match putScan key value entries 0 none with
    | .updated entries1 => (.mk entries1 next, false, 0)
    | .noMatch (some slot) =>
      let n := next.remove key
      (.mk (entries.set slot ⟨some key, value⟩) n.1, !n.2.1, n.2.2)
    | .noMatch none =>
      let n := next.put key value
      (.mk entries n.1, n.2.1, n.2.2)

/-! ## Table operations -/

/-- `(*LHash).bucketIndex`. -/
def LHash.bucketIndex (lh : LHash K V) (key : K) : Nat :=
  let h := Hashable.Hash key % 2 ^ 64
  let hl := h &&& lh.maskLow
  if hl ≥ lh.splitIndex then hl else h &&& lh.maskHigh

/-- The conversion `float32(n)` of a non-negative integer: round to nearest,
ties to even, on a 24-bit significand. -/
def float32Nat (n : Nat) : Nat :=
  if n < 2 ^ 24 then n
  else
    let e := Nat.log2 n - 23
    let q := n / 2 ^ e
    let r := n % 2 ^ e
    let q1 := if 2 * r > 2 ^ e ∨ (2 * r = 2 ^ e ∧ q % 2 = 1) then q + 1 else q
    q1 * 2 ^ e

/-- The conversion `float32(n)` of an `int`. -/
def float32 (n : Int) : Int :=
  if n < 0 then -(float32Nat n.natAbs : Int) else (float32Nat n.natAbs : Int)

/-- Whether the `float32` quotient `a / b` of two integer-valued floats
exceeds the constant `0.75`.  The quotient is rounded to nearest, ties to
even, with spacing `2 ^ (-24)` around `0.75`, so it exceeds `0.75` exactly
when the real quotient exceeds `0.75 + 2 ^ (-25)`; `a / 0` is `+Inf`, `NaN`
or `-Inf`. -/
def float32QuotGt (a b : Int) : Bool :=
  if b = 0 then decide (0 < a)
  else if 0 < b then decide (b * (3 * 2 ^ 23 + 1) < a * 2 ^ 25)
  else decide (a * 2 ^ 25 < b * (3 * 2 ^ 23 + 1))

/-- The value of an arithmetic expression of type `int` (64 bits): two's
complement wrap-around. -/
def wrapInt (x : Int) : Int := (x + 2 ^ 63) % 2 ^ 64 - 2 ^ 63

/-- `(*LHash).needsSplit`:
`float32(size) / float32(bucketCapacity*bucketCount) > utilizationFactor`. -/
def LHash.needsSplit (lh : LHash K V) : Bool :=
  float32QuotGt (float32 lh.size)
    (float32 (wrapInt ((bucketCapacity : Int) * lh.bucketCount)))

/-- The inner loop of `split` over the slots of one node of the old chain:
the slots after the loop, the chain of `bNew`, `lh.bucketCount` and
`emptied`. -/
def splitEntries (lh : LHash K V) (sOld : Nat) :
    List (entry K V) → bucket K V → Int → List (entry K V) × bucket K V × Int × Bool
  | [], bNew, bc => ([], bNew, bc, true)
  | e :: es, bNew, bc =>
    match e.key with
    | none =>
      let r := splitEntries lh sOld es bNew bc
      (e :: r.1, r.2.1, r.2.2.1, r.2.2.2)
    | some k =>
      if lh.bucketIndex k = sOld then
        let r := splitEntries lh sOld es bNew bc
        (e :: r.1, r.2.1, r.2.2.1, false)
      else
        let p := bNew.put k e.value
        let r := splitEntries lh sOld es p.1 (bc + p.2.2)
        (emptyEntry :: r.1, r.2.1, r.2.2.1, r.2.2.2)

/-- The outer loop of `split` over the nodes of the old chain, with
`bOldPrevNil` telling whether `bOldPrev == nil`: the chain left at index
`sOld`, the chain of `bNew` and `lh.bucketCount`. -/
def splitChain (lh : LHash K V) (sOld : Nat) :
    bucket K V → Bool → bucket K V → Int → bucket K V × bucket K V × Int
  | .nil, _, bNew, bc => (.nil, bNew, bc)
  | .mk entries next, bOldPrevNil, bNew, bc =>
    let r := splitEntries lh sOld entries bNew bc
    if r.2.2.2 then
      if bOldPrevNil && !next.isNil then
        splitChain lh sOld next bOldPrevNil r.2.1 (r.2.2.1 - 1)
      else if !bOldPrevNil then
        splitChain lh sOld next bOldPrevNil r.2.1 (r.2.2.1 - 1)
      else
        let s := splitChain lh sOld next bOldPrevNil r.2.1 r.2.2.1
        (.mk r.1 s.1, s.2.1, s.2.2)
    else
      let s := splitChain lh sOld next false r.2.1 r.2.2.1
      (.mk r.1 s.1, s.2.1, s.2.2)

/-- `(*LHash).split`; `none` is the panic of `lh.buckets[sOld]` out of range. -/
def LHash.split (lh : LHash K V) : Option (LHash K V) :=
  let sOld := lh.splitIndex
  match lh.buckets[sOld]? with
  | none => none
  | some bOld =>
    let lh1 : LHash K V :=
      { lh with
        buckets := lh.buckets ++ [newBucket]
        bucketCount := lh.bucketCount + 1
        splitIndex := (lh.splitIndex + 1) % 2 ^ 64 }
    let lh2 : LHash K V :=
      if (2 * lh1.splitIndex) % 2 ^ 64 = lh1.buckets.length % 2 ^ 64 then
        { lh1 with
          splitIndex := 0
          maskLow := lh1.maskHigh
          maskHigh := (lh1.maskHigh * 2 + 1) % 2 ^ 64 }
      else lh1
    let r := splitChain lh2 sOld bOld true newBucket lh2.bucketCount
    some { lh2 with
      buckets := (lh2.buckets.set sOld r.1).set (lh2.buckets.length - 1) r.2.1
      bucketCount := r.2.2 }

/-- `(*LHash).Find`; the outer `none` is the panic of an index out of range,
the inner `none` the nil result. -/
def LHash.Find (lh : LHash K V) (key : K) : Option (Option V) :=
  match lh.buckets[lh.bucketIndex key]? with
  | none => none
  | some b => some (b.find key)

/-- `(*LHash).Put`; `none` is the panic of an index out of range. -/
def LHash.Put (lh : LHash K V) (key : K) (value : Option V) : Option (LHash K V) :=
  let idx := lh.bucketIndex key
  match lh.buckets[idx]? with
  | none => none
  | some b =>
    let p := b.put key value
    let lh1 : LHash K V :=
      { lh with
        buckets := lh.buckets.set idx p.1
        size := if p.2.1 then lh.size + 1 else lh.size
        bucketCount := lh.bucketCount + p.2.2 }
    if lh1.needsSplit then lh1.split else some lh1

/-- The first part of `Put`, up to the split test: the chain mutation and the
update of the two counters. -/
def LHash.putMutate (lh : LHash K V) (key : K) (value : Option V) : Option (LHash K V) :=
  let idx := lh.bucketIndex key
  match lh.buckets[idx]? with
  | none => none
  | some b =>
    let p := b.put key value
    some { lh with
      buckets := lh.buckets.set idx p.1
      size := if p.2.1 then lh.size + 1 else lh.size
      bucketCount := lh.bucketCount + p.2.2 }

/-- `(*LHash).Remove`; `none` is the panic of an index out of range. -/
def LHash.Remove (lh : LHash K V) (key : K) : Option (LHash K V) :=
  let idx := lh.bucketIndex key
  match lh.buckets[idx]? with
  | none => none
  | some b =>
    let r := b.remove key
    some { lh with
      buckets := lh.buckets.set idx r.1
      size := if r.2.1 then lh.size - 1 else lh.size
      bucketCount := lh.bucketCount + r.2.2 }

/-- `(*LHash).Length`. -/
def LHash.Length (lh : LHash K V) : Int := lh.size

end ops

/-- The walk of `validate` down one chain, accumulating `bucketCount` and
`size`. -/
def validateChain : bucket K V → Int × Int → Int × Int
  | .nil, acc => acc
  | .mk entries next, acc =>
    validateChain next
      (acc.1 + 1, entries.foldl (fun s e => if e.key.isSome then s + 1 else s) acc.2)

/-- `(*LHash).validate`: `true` when neither `panic` is reached. -/
def LHash.validate (lh : LHash K V) : Bool :=
  let c := lh.buckets.foldl (fun acc b => validateChain b acc) (0, 0)
  if c.1 ≠ lh.bucketCount then false
  else if c.2 ≠ lh.size then false
  else true

/-! ## Keys used by the tests -/

/-- The test key type `HashableUInt` (a `uint64`): `Equals` is equality of
the numbers and `Hash` is the number itself. -/
instance instHashableUInt : Hashable Nat where
  Equals a b := decide (a = b)
  Hash a := a

/-! ## Specification vocabulary -/

/-- The contract of a key type: `Equals` is an equivalence relation and
equal keys have equal hashes. -/
structure LawfulHashable (K : Type) [Hashable K] : Prop where
  refl : ∀ a : K, Hashable.Equals a a = true
  symm : ∀ a b : K, Hashable.Equals a b = true → Hashable.Equals b a = true
  trans : ∀ a b c : K, Hashable.Equals a b = true → Hashable.Equals b c = true →
    Hashable.Equals a c = true
  hash_eq : ∀ a b : K, Hashable.Equals a b = true →
    Hashable.Hash a % 2 ^ 64 = Hashable.Hash b % 2 ^ 64

/-- The live (non-empty) slots of one node, in slot order. -/
def liveE (es : List (entry K V)) : List (K × Option V) :=
  es.filterMap (fun e => e.key.map (fun k => (k, e.value)))

/-- The live slots of a chain, node after node. -/
def bucket.live : bucket K V → List (K × Option V)
  | .nil => []
  | .mk entries next => liveE entries ++ next.live

/-- The number of nodes of a chain. -/
def bucket.nodes : bucket K V → Nat
  | .nil => 0
  | .mk _ next => next.nodes + 1

/-- Every node of the chain has `bucketCapacity` slots. -/
def bucket.capacityOk : bucket K V → Prop
  | .nil => True
  | .mk entries next => entries.length = bucketCapacity ∧ next.capacityOk

/-- Every node of the chain holds at least one live slot. -/
def bucket.noEmpty : bucket K V → Prop
  | .nil => True
  | .mk entries next => liveE entries ≠ [] ∧ next.noEmpty

/-- The shape of a chain: full-size nodes, none of them empty unless it is a
head without successor. -/
def bucket.compact (c : bucket K V) : Prop :=
  c.capacityOk ∧ (c.noEmpty ∨ ∃ es, c = .mk es .nil)

/-- The live slots of the whole table, chain after chain. -/
def LHash.live (lh : LHash K V) : List (K × Option V) :=
  (lh.buckets.map bucket.live).flatten

/-- The number of nodes reachable from all bucket heads. -/
def LHash.nodes (lh : LHash K V) : Nat :=
  (lh.buckets.map bucket.nodes).sum

section spec
variable [Hashable K]

/-- The value of the first pair whose key `Equals` the queried key. -/
def alook (key : K) : List (K × Option V) → Option (Option V)
  | [] => none
  | p :: l => if Hashable.Equals p.1 key then some p.2 else alook key l

/-- No two pairs of the list have keys that compare equal. -/
def NoDupKeys (l : List (K × Option V)) : Prop :=
  l.Pairwise (fun p q => Hashable.Equals p.1 q.1 = false)

/-- The slot the table holds for a key, looked up in the chain the key
addresses: `none` when no live slot of that chain matches. -/
def LHash.look (lh : LHash K V) (key : K) : Option (Option V) :=
  alook key ((lh.buckets.getD (lh.bucketIndex key) .nil).live)

/-- The tables reachable from `NewLHash()` by `Put` and `Remove` calls. -/
inductive Reachable : LHash K V → Prop
  | new : Reachable NewLHash
  | put {t t1 : LHash K V} (k : K) (v : Option V) :
      Reachable t → t.Put k v = some t1 → Reachable t1
  | remove {t t1 : LHash K V} (k : K) :
      Reachable t → t.Remove k = some t1 → Reachable t1

/-- The structural invariant of a table: the addressing state, the placement
of every live key in the chain it addresses, the absence of duplicate keys
inside a chain, and the two cached counters. -/
structure Inv (lh : LHash K V) : Prop where
  addr : ∃ j : Nat, 1 ≤ j ∧ lh.maskLow = 2 ^ j - 1 ∧ lh.maskHigh = 2 ^ (j + 1) - 1 ∧
    lh.splitIndex < 2 ^ j ∧ lh.buckets.length = 2 ^ j + lh.splitIndex
  small : lh.buckets.length ≤ 2 ^ 63
  place : ∀ (i : Nat) (b : bucket K V), lh.buckets[i]? = some b →
    ∀ p ∈ b.live, lh.bucketIndex p.1 = i
  nodup : ∀ b ∈ lh.buckets, NoDupKeys b.live
  size_eq : lh.size = ((lh.buckets.map (fun b => b.live.length)).sum : Nat)
  count_eq : lh.bucketCount = ((lh.buckets.map bucket.nodes).sum : Nat)

/-- The part of the invariant that does not depend on the key contract: the
addressing state and the placement of every live key. -/
structure Shape (lh : LHash K V) : Prop where
  addr : ∃ j : Nat, 1 ≤ j ∧ lh.maskLow = 2 ^ j - 1 ∧ lh.maskHigh = 2 ^ (j + 1) - 1 ∧
    lh.splitIndex < 2 ^ j ∧ lh.buckets.length = 2 ^ j + lh.splitIndex
  small : lh.buckets.length ≤ 2 ^ 63
  place : ∀ (i : Nat) (b : bucket K V), lh.buckets[i]? = some b →
    ∀ p ∈ b.live, lh.bucketIndex p.1 = i

/-- A call of the public interface that changes the table. -/
inductive Op (K V : Type) where
  | put (key : K) (value : V) : Op K V
  | remove (key : K) : Op K V

/-- Applies one call; a `Put` stores a non-nil value. -/
def applyOp : Op K V → LHash K V → Option (LHash K V)
  | .put k v, lh => lh.Put k (some v)
  | .remove k, lh => lh.Remove k

/-- Applies a sequence of calls, first to last. -/
def runOps : List (Op K V) → LHash K V → Option (LHash K V)
  | [], lh => some lh
  | op :: ops, lh => (applyOp op lh).bind (runOps ops)

/-- The length of the bucket array after each call of a sequence. -/
def bucketLengths : List (Op K V) → LHash K V → List Nat
  | [], _ => []
  | op :: ops, lh =>
    match applyOp op lh with
    | none => []
    | some lh1 => lh1.buckets.length :: bucketLengths ops lh1

/-- The reference finite map: insert-or-overwrite. -/
def refInsert (m : K → Option V) (k : K) (v : V) : K → Option V :=
  fun q => if Hashable.Equals k q then some v else m q

/-- The reference finite map: delete. -/
def refDelete (m : K → Option V) (k : K) : K → Option V :=
  fun q => if Hashable.Equals k q then none else m q

/-- The reference finite map after the same sequence of calls. -/
def refRun : List (Op K V) → (K → Option V) → (K → Option V)
  | [], m => m
  | .put k v :: ops, m => refRun ops (refInsert m k v)
  | .remove k :: ops, m => refRun ops (refDelete m k)

end spec

/-! ## Test scenarios -/

/-- The value the tests store under key `i` (`fmt.Sprintf("hello%v", i)`). -/
def hello (i : Nat) : String := "hello" ++ toString i

/-- `TestFillBuckets01Split`: the table after `Put(i, hello i)` for
`i = 0, 1, ..., n - 1`, in this order, on `NewLHash()`. -/
def putRange (n : Nat) : Option (LHash Nat String) :=
  runOps ((List.range n).map (fun i => Op.put i (hello i))) NewLHash

/-- `TestPutGetBucket0Overflow`: the calls `Put(i, hello i)` for the first
`n` even numbers `i = 0, 2, 4, ...`. -/
def evenOps (n : Nat) : List (Op Nat String) :=
  (List.range n).map (fun i => Op.put (2 * i) (hello (2 * i)))

/-- The calls `Put(k, v)` for the pairs of a list, first to last. -/
def putAll (kvs : List (K × V)) : List (Op K V) :=
  kvs.map (fun kv => Op.put kv.1 kv.2)

/-- The slot that holds a pair. -/
def entryOf (kv : K × V) : entry K V := ⟨some kv.1, some kv.2⟩

/-- The table whose bucket 0 is one head node holding the given pairs in its
first slots, with the addressing state of a new table. -/
def headTable (kvs : List (K × V)) : LHash K V :=
  { buckets := [.mk (kvs.map entryOf ++
        List.replicate (bucketCapacity - kvs.length) emptyEntry) .nil, newBucket]
    size := kvs.length
    bucketCount := 2
    splitIndex := 0
    maskHigh := 3
    maskLow := 1 }

/-- A chain of two nodes: the head holds key 2 in its slot 1 and holes
elsewhere, its successor holds key 4. -/
def holeChain : bucket Nat Nat :=
  .mk ((List.replicate bucketCapacity emptyEntry).set 1 ⟨some 2, some 0⟩)
    (.mk ((List.replicate bucketCapacity emptyEntry).set 0 ⟨some 4, some 1⟩) .nil)

/-- Sixty-five pairs whose keys are the even numbers 0, 2, ..., 128, which all
address bucket 0 of a new table. -/
def evenPairs : List (Nat × Nat) := (List.range 65).map (fun i => (2 * i, i))

/-- The key `i * 2 ^ 32` (a `HashableUInt`).  Its hash is a multiple of
`2 ^ 32`, so it addresses bucket 0 as long as the masks are below `2 ^ 32`. -/
def farKey (i : Nat) : Nat := i * 2 ^ 32

/-- The pairs of the keys `farKey s, ..., farKey (s + len - 1)`, each with the
value 0. -/
def farPairs (s len : Nat) : List (Nat × Nat) :=
  (List.range len).map (fun i => (farKey (s + i), 0))

/-- The slots of a node that holds the given pairs in its first slots and
holes after them. -/
def fillNode (kvs : List (K × V)) : List (entry K V) :=
  kvs.map entryOf ++ List.replicate (bucketCapacity - kvs.length) emptyEntry

/-- The chain of `q` full nodes followed by a last node with `r` live slots,
holding the keys `farKey s, farKey (s + 1), ...` in this order. -/
def packedChain : Nat → Nat → Nat → bucket Nat Nat
  | 0, s, r => .mk (fillNode (farPairs s r)) .nil
  | q + 1, s, r => .mk (fillNode (farPairs s 64)) (packedChain q (s + 64) r)

/-- The table of `2 ^ j + s` buckets whose bucket 0 holds the keys
`farKey 0, ..., farKey (n - 1)` packed node after node, and whose other
buckets are empty heads. -/
def packedTable (n j s : Nat) : LHash Nat Nat :=
  { buckets := packedChain ((n - 1) / 64) 0 (n - 64 * ((n - 1) / 64)) ::
      List.replicate (2 ^ j + s - 1) newBucket
    size := (n : Nat)
    bucketCount := ((n - 1) / 64 + 2 ^ j + s : Nat)
    splitIndex := s
    maskHigh := 2 ^ (j + 1) - 1
    maskLow := 2 ^ j - 1 }

/-- The calls `Put(farKey i, 0)` for `i = a, a + 1, ..., a + k - 1`. -/
def farOps (a k : Nat) : List (Op Nat Nat) :=
  (List.range k).map (fun i => Op.put (farKey (a + i)) 0)

/-- The live keys of each chain of the bucket array. -/
def LHash.keys (lh : LHash K V) : List (List K) :=
  lh.buckets.map (fun b => b.live.map Prod.fst)

/-- A run that ends in a `Put` and leaves the load factor far above the
threshold: 64 keys that stay in bucket 0 at the next split, 34 keys that
leave it, one key put into bucket 1 and removed again (which unlinks the
head of bucket 1), and a last `Put` of a key that is already there. -/
def loadOps : List (Op Nat Nat) :=
  (List.range 64).map (fun i => Op.put (4 * i) i) ++
    (List.range 34).map (fun i => Op.put (4 * i + 2) i) ++
    [Op.put 1 1, Op.remove 1, Op.put 0 7]

/-- A table whose bucket 0 is a single head node with one live slot. -/
def soleHeadTable : LHash Nat Nat :=
  { buckets := [.mk ((List.replicate bucketCapacity emptyEntry).set 0 ⟨some 0, some 5⟩) .nil,
      newBucket]
    size := 1
    bucketCount := 2
    splitIndex := 0
    maskHigh := 3
    maskLow := 1 }

section
/-! ## Association lists of live slots -/

@[simp] theorem liveE_nil : liveE ([] : List (entry K V)) = [] := rfl

theorem liveE_cons_none (e : entry K V) (es : List (entry K V)) (h : e.key = none) :
    liveE (e :: es) = liveE es := by
  simp [liveE, List.filterMap_cons, h]

theorem liveE_cons_some (e : entry K V) (es : List (entry K V)) (k : K) (h : e.key = some k) :
    liveE (e :: es) = (k, e.value) :: liveE es := by
  simp [liveE, List.filterMap_cons, h]

@[simp] theorem liveE_emptyEntry_cons (es : List (entry K V)) :
    liveE (emptyEntry :: es) = liveE es :=
  liveE_cons_none _ _ rfl

theorem liveE_replicate_empty (n : Nat) :
    liveE (List.replicate n (emptyEntry : entry K V)) = [] := by
  induction n with
  | zero => rfl
  | succ n ih => simp [List.replicate_succ, ih]

@[simp] theorem live_nil : (bucket.nil : bucket K V).live = [] := rfl

@[simp] theorem live_mk (es : List (entry K V)) (next : bucket K V) :
    (bucket.mk es next).live = liveE es ++ next.live := rfl

@[simp] theorem nodes_nil : (bucket.nil : bucket K V).nodes = 0 := rfl

@[simp] theorem nodes_mk (es : List (entry K V)) (next : bucket K V) :
    (bucket.mk es next).nodes = next.nodes + 1 := rfl

@[simp] theorem live_newBucket : (newBucket : bucket K V).live = [] := by
  simp [newBucket, liveE_replicate_empty]

@[simp] theorem nodes_newBucket : (newBucket : bucket K V).nodes = 1 := rfl

section lawful
variable [Hashable K]

@[simp] theorem alook_nil (key : K) : alook key ([] : List (K × Option V)) = none := rfl

theorem alook_cons (key : K) (p : K × Option V) (l : List (K × Option V)) :
    alook key (p :: l) = if Hashable.Equals p.1 key then some p.2 else alook key l := rfl

theorem alook_eq_none_iff (key : K) (l : List (K × Option V)) :
    alook key l = none ↔ ∀ p ∈ l, Hashable.Equals p.1 key = false := by
  induction l with
  | nil => simp
  | cons p l ih =>
    rw [alook_cons]
    by_cases h : Hashable.Equals p.1 key = true
    · simp [h]
    · simp [h, ih]

theorem alook_append (key : K) (l1 l2 : List (K × Option V)) :
    alook key (l1 ++ l2) =
      match alook key l1 with
      | some v => some v
      | none => alook key l2 := by
  induction l1 with
  | nil => simp
  | cons p l ih =>
    rw [List.cons_append, alook_cons, alook_cons]
    by_cases h : Hashable.Equals p.1 key = true
    · simp [h]
    · simp [h, ih]

theorem alook_append_none_left (key : K) (l1 l2 : List (K × Option V))
    (h : alook key l1 = none) : alook key (l1 ++ l2) = alook key l2 := by
  rw [alook_append, h]

theorem alook_append_none_right (key : K) (l1 l2 : List (K × Option V))
    (h : alook key l2 = none) : alook key (l1 ++ l2) = alook key l1 := by
  rw [alook_append, h]; cases alook key l1 <;> rfl

theorem findEntries_eq (key : K) (es : List (entry K V)) :
    findEntries key es = alook key (liveE es) := by
  induction es with
  | nil => rfl
  | cons e es ih =>
    cases hk : e.key with
    | none => simp [findEntries, hk, liveE_cons_none _ _ hk, ih]
    | some k => simp [findEntries, hk, liveE_cons_some _ _ k hk, alook_cons, ih]

theorem find_eq (key : K) (c : bucket K V) : c.find key = (alook key c.live).join := by
  induction c with
  | nil => rfl
  | mk es next ih =>
    simp only [bucket.find, live_mk, findEntries_eq, alook_append]
    cases alook key (liveE es) with
    | none => simpa using ih
    | some v => simp

/-! ## Consequences of the key contract -/

theorem equals_congr_right (hK : LawfulHashable K) {a b : K} (x : K)
    (h : Hashable.Equals a b = true) : Hashable.Equals x a = Hashable.Equals x b := by
  apply Bool.eq_iff_iff.2
  exact ⟨fun h1 => hK.trans _ _ _ h1 h, fun h1 => hK.trans _ _ _ h1 (hK.symm _ _ h)⟩

theorem equals_congr_left (hK : LawfulHashable K) {a b : K} (x : K)
    (h : Hashable.Equals a b = true) : Hashable.Equals a x = Hashable.Equals b x := by
  apply Bool.eq_iff_iff.2
  exact ⟨fun h1 => hK.trans _ _ _ (hK.symm _ _ h) h1, fun h1 => hK.trans _ _ _ h h1⟩

theorem equals_comm (hK : LawfulHashable K) (a b : K) :
    Hashable.Equals a b = Hashable.Equals b a :=
  Bool.eq_iff_iff.2 ⟨hK.symm _ _, hK.symm _ _⟩

theorem alook_congr (hK : LawfulHashable K) {a b : K} (h : Hashable.Equals a b = true)
    (l : List (K × Option V)) : alook a l = alook b l := by
  induction l with
  | nil => rfl
  | cons p l ih => rw [alook_cons, alook_cons, ih, equals_congr_right hK p.1 h]

theorem NoDupKeys.perm (hK : LawfulHashable K) {l1 l2 : List (K × Option V)}
    (hp : l1.Perm l2) (h : NoDupKeys l1) : NoDupKeys l2 := by
  unfold NoDupKeys at *
  refine (hp.pairwise_iff ?_).1 h
  intro p q hpq
  rw [equals_comm hK]; exact hpq

theorem noDupKeys_cons (p : K × Option V) (l : List (K × Option V)) :
    NoDupKeys (p :: l) ↔ (∀ q ∈ l, Hashable.Equals p.1 q.1 = false) ∧ NoDupKeys l := by
  unfold NoDupKeys; exact List.pairwise_cons

theorem noDupKeys_append (l1 l2 : List (K × Option V)) :
    NoDupKeys (l1 ++ l2) ↔ NoDupKeys l1 ∧ NoDupKeys l2 ∧
      ∀ p ∈ l1, ∀ q ∈ l2, Hashable.Equals p.1 q.1 = false := by
  unfold NoDupKeys; exact List.pairwise_append

theorem NoDupKeys.filter {l : List (K × Option V)} (P : K × Option V → Bool)
    (h : NoDupKeys l) : NoDupKeys (l.filter P) := by
  unfold NoDupKeys at *; exact h.filter P

/-- With more than one matching slot excluded, a lookup is decided by
membership. -/
theorem alook_of_mem (hK : LawfulHashable K) (key : K) {l : List (K × Option V)}
    (hn : NoDupKeys l) {p : K × Option V} (hp : p ∈ l)
    (hm : Hashable.Equals p.1 key = true) : alook key l = some p.2 := by
  induction l with
  | nil => simp at hp
  | cons x l ih =>
    rw [noDupKeys_cons] at hn
    rw [alook_cons]
    rcases List.mem_cons.1 hp with rfl | hpl
    · simp [hm]
    · have hx : Hashable.Equals x.1 p.1 = false := hn.1 p hpl
      have : Hashable.Equals x.1 key = false := by
        rw [← equals_congr_right hK x.1 hm]; exact hx
      simp [this, ih hn.2 hpl]

theorem alook_perm (hK : LawfulHashable K) (key : K) {l1 l2 : List (K × Option V)}
    (hn : NoDupKeys l1) (hp : l1.Perm l2) : alook key l1 = alook key l2 := by
  cases h1 : alook key l1 with
  | none =>
    symm
    rw [alook_eq_none_iff] at h1 ⊢
    intro p hp2
    exact h1 p (hp.mem_iff.2 hp2)
  | some v =>
    have hex : ∃ p ∈ l1, Hashable.Equals p.1 key = true := by
      by_contra hne
      have : alook key l1 = none := by
        rw [alook_eq_none_iff]
        intro p hp1
        by_contra hq
        exact hne ⟨p, hp1, by simpa using hq⟩
      rw [this] at h1; cases h1
    obtain ⟨p, hp1, hm⟩ := hex
    rw [alook_of_mem hK key hn hp1 hm] at h1
    rw [alook_of_mem hK key (hn.perm hK hp) (hp.mem_iff.1 hp1) hm, h1]

theorem alook_filter (key : K) (P : K × Option V → Bool) (l : List (K × Option V))
    (h : ∀ p ∈ l, Hashable.Equals p.1 key = true → P p = true) :
    alook key (l.filter P) = alook key l := by
  induction l with
  | nil => rfl
  | cons x l ih =>
    have ih1 := ih (fun p hp => h p (List.mem_cons_of_mem _ hp))
    by_cases hx : Hashable.Equals x.1 key = true
    · have := h x (List.mem_cons_self _ _) hx
      simp [List.filter_cons, this, alook_cons, hx]
    · by_cases hP : P x = true
      · simp [List.filter_cons, hP, alook_cons, hx, ih1]
      · simp [List.filter_cons, hP, alook_cons, hx, ih1]

theorem alook_filter_none (key : K) (P : K × Option V → Bool) (l : List (K × Option V))
    (h : ∀ p ∈ l, Hashable.Equals p.1 key = true → P p = false) :
    alook key (l.filter P) = none := by
  rw [alook_eq_none_iff]
  intro p hp
  rw [List.mem_filter] at hp
  by_contra hq
  have := h p hp.1 (by simpa using hq)
  rw [this] at hp; exact absurd hp.2 (by simp)

/-- Dropping the slots that match `key` from a list without matches changes
nothing. -/
theorem filter_not_match_of_none (key : K) (l : List (K × Option V))
    (h : alook key l = none) : l.filter (fun p => !Hashable.Equals p.1 key) = l := by
  rw [alook_eq_none_iff] at h
  rw [List.filter_eq_self]
  intro p hp
  simp [h p hp]

/-- Without duplicate keys, dropping the slots that match `key` drops exactly
one slot when the key is present. -/
theorem length_filter_not_match (hK : LawfulHashable K) (key : K) (l : List (K × Option V))
    (hn : NoDupKeys l) :
    (l.filter (fun p => !Hashable.Equals p.1 key)).length +
      (if (alook key l).isSome then 1 else 0) = l.length := by
  induction l with
  | nil => simp
  | cons x l ih =>
    rw [noDupKeys_cons] at hn
    by_cases hx : Hashable.Equals x.1 key = true
    · have hnone : alook key l = none := by
        rw [alook_eq_none_iff]
        intro q hq
        rw [equals_comm hK, ← equals_congr_left hK q.1 hx]
        exact hn.1 q hq
      simp [List.filter_cons, hx, alook_cons, filter_not_match_of_none key l hnone]
    · have := ih hn.2
      simp only [Bool.not_eq_true] at hx
      simp [List.filter_cons, hx, alook_cons]
      omega

theorem countP_match_le_one (hK : LawfulHashable K) (key : K) (l : List (K × Option V))
    (hn : NoDupKeys l) : l.countP (fun p => Hashable.Equals p.1 key) ≤ 1 := by
  induction l with
  | nil => simp
  | cons x l ih =>
    rw [noDupKeys_cons] at hn
    by_cases hx : Hashable.Equals x.1 key = true
    · have h0 : l.countP (fun p => Hashable.Equals p.1 key) = 0 := by
        rw [List.countP_eq_zero]
        intro q hq
        have := hn.1 q hq
        rw [equals_comm hK, ← equals_congr_left hK q.1 hx]
        simp [this]
      simp [List.countP_cons, hx, h0]
    · have := ih hn.2
      simp [List.countP_cons, hx, this]

end lawful

end

section
variable [Hashable K]

/-! ## The slot loop and the chain walk of `remove` -/

/-- A node without a match is left as it is by the slot loop of `remove`. -/
theorem removeScan_absent (key : K) (es : List (entry K V)) (empty removed : Bool)
    (h : alook key (liveE es) = none) :
    removeScan key es empty removed = (es, empty && (liveE es).isEmpty, removed) := by
  induction es generalizing empty with
  | nil => simp [removeScan]
  | cons e es ih =>
    cases hk : e.key with
    | none =>
      rw [liveE_cons_none _ _ hk] at h ⊢
      simp [removeScan, hk, ih empty h]
    | some k =>
      rw [liveE_cons_some _ _ k hk, alook_cons] at h
      have hne : Hashable.Equals k key = false := by
        by_contra hq
        simp only [Bool.not_eq_false] at hq
        simp [hq] at h
      simp only [hne] at h
      rw [liveE_cons_some _ _ k hk]
      simp [removeScan, hk, hne, ih false (by simpa using h)]

theorem removeScan_spec (hK : LawfulHashable K) (key : K) (es : List (entry K V))
    (empty removed : Bool) (hn : NoDupKeys (liveE es)) :
    liveE (removeScan key es empty removed).1 =
        (liveE es).filter (fun p => !Hashable.Equals p.1 key) ∧
      (removeScan key es empty removed).2.2 = (removed || (alook key (liveE es)).isSome) ∧
      (removeScan key es empty removed).2.1 =
        (empty && (liveE (removeScan key es empty removed).1).isEmpty) := by
  induction es generalizing empty removed with
  | nil => simp [removeScan]
  | cons e es ih =>
    cases hk : e.key with
    | none =>
      rw [liveE_cons_none _ _ hk] at hn ⊢
      have := ih empty removed hn
      simp only [removeScan, hk]
      rw [liveE_cons_none _ _ hk]
      exact this
    | some k =>
      rw [liveE_cons_some _ _ k hk] at hn ⊢
      rw [noDupKeys_cons] at hn
      by_cases hm : Hashable.Equals k key = true
      · have hnone : alook key (liveE es) = none := by
          rw [alook_eq_none_iff]
          intro q hq
          rw [equals_comm hK, ← equals_congr_left hK q.1 hm]
          exact hn.1 q hq
        have hf := filter_not_match_of_none key _ hnone
        cases empty with
        | false =>
          simp [removeScan, hk, hm, List.filter_cons, alook_cons, hf]
        | true =>
          simp [removeScan, hk, hm, List.filter_cons, alook_cons, hf,
            removeScan_absent key es true true hnone]
      · simp only [Bool.not_eq_true] at hm
        have := ih false removed hn.2
        have h3 : (removeScan key es false removed).2.1 = false := by
          rw [this.2.2]; rfl
        simp [removeScan, hk, hm, List.filter_cons, alook_cons, liveE_cons_some _ _ k hk,
          this.1, this.2.1, h3]

/-- A chain without a match is returned as it is by `remove`. -/
theorem remove_absent (key : K) (c : bucket K V) (h : alook key c.live = none) :
    c.remove key = (c, false, 0) := by
  induction c with
  | nil => rfl
  | mk es next ih =>
    rw [live_mk, alook_eq_none_iff] at h
    have h1 : alook key (liveE es) = none := by
      rw [alook_eq_none_iff]; intro p hp; exact h p (List.mem_append_left _ hp)
    have h2 : alook key next.live = none := by
      rw [alook_eq_none_iff]; intro p hp; exact h p (List.mem_append_right _ hp)
    simp [bucket.remove, removeScan_absent key es true false h1, ih h2]

/-- The effect of `remove` on a chain without duplicate keys: the matching
slot is dropped, `removed` tells whether there was one, and `chainDelta` is
the change of the number of nodes. -/
theorem remove_spec (hK : LawfulHashable K) (key : K) (c : bucket K V)
    (hn : NoDupKeys c.live) :
    (c.remove key).1.live = c.live.filter (fun p => !Hashable.Equals p.1 key) ∧
      (c.remove key).2.1 = (alook key c.live).isSome ∧
      ((c.remove key).1.nodes : Int) = c.nodes + (c.remove key).2.2 := by
  induction c with
  | nil => simp [bucket.remove]
  | mk es next ih =>
    rw [live_mk, noDupKeys_append] at hn
    obtain ⟨hn1, hn2, hx⟩ := hn
    obtain ⟨hs1, hs2, hs3⟩ := removeScan_spec hK key es true false hn1
    have ih1 := ih hn2
    cases hp : alook key (liveE es) with
    | none =>
      have hr : (removeScan key es true false).2.2 = false := by rw [hs2, hp]; rfl
      have hf := filter_not_match_of_none key _ hp
      simp only [bucket.remove, hr, live_mk, List.filter_append, hf,
        alook_append_none_left key _ _ hp, nodes_mk]
      rw [removeScan_absent key es true false hp]
      simp only [Bool.false_and, Bool.false_eq_true, if_false, live_mk, nodes_mk]
      refine ⟨by rw [ih1.1], ih1.2.1, ?_⟩
      have := ih1.2.2
      push_cast
      omega
    | some v =>
      have hr : (removeScan key es true false).2.2 = true := by rw [hs2, hp]; rfl
      obtain ⟨p, hpm, hpe⟩ : ∃ p ∈ liveE es, Hashable.Equals p.1 key = true := by
        by_contra hne
        have : alook key (liveE es) = none := by
          rw [alook_eq_none_iff]
          intro q hq
          by_contra hq2
          exact hne ⟨q, hq, by simpa using hq2⟩
        rw [this] at hp; cases hp
      have hnext : alook key next.live = none := by
        rw [alook_eq_none_iff]
        intro q hq
        rw [equals_comm hK, ← equals_congr_left hK q.1 hpe]
        exact hx p hpm q hq
      have hf := filter_not_match_of_none key _ hnext
      have hl : (alook key (liveE es ++ next.live)).isSome = true := by
        rw [alook_append, hp]; rfl
      cases he : (removeScan key es true false).2.1 with
      | true =>
        have hempty : liveE (removeScan key es true false).1 = [] := by
          rw [hs3] at he
          simpa using he
        simp only [bucket.remove, hr, he, Bool.and_self, if_true, live_mk, List.filter_append,
          hf, nodes_mk, hl]
        rw [← hs1, hempty]
        refine ⟨by simp, trivial, ?_⟩
        push_cast
        omega
      | false =>
        simp only [bucket.remove, hr, he, Bool.and_false, Bool.false_eq_true, if_false, if_true,
          live_mk, List.filter_append, hf, nodes_mk, hl, hs1]
        refine ⟨trivial, trivial, ?_⟩
        push_cast
        omega

end

section
variable [Hashable K]

/-! ## The slot loop and the chain walk of `put` -/

theorem alook_isSome_iff (key : K) (l : List (K × Option V)) :
    (alook key l).isSome = true ↔ ∃ p ∈ l, Hashable.Equals p.1 key = true := by
  constructor
  · intro h
    by_contra hne
    have : alook key l = none := by
      rw [alook_eq_none_iff]
      intro q hq
      by_contra hq2
      exact hne ⟨q, hq, by simpa using hq2⟩
    rw [this] at h; cases h
  · rintro ⟨p, hp, hm⟩
    cases h : alook key l with
    | some v => rfl
    | none =>
      rw [alook_eq_none_iff] at h
      rw [h p hp] at hm; cases hm

/-- A node holding a match: the loop overwrites its value in place. -/
theorem putScan_present (hK : LawfulHashable K) (key : K) (value : Option V)
    (es : List (entry K V)) (idx : Nat) (slot : Option Nat) (hn : NoDupKeys (liveE es))
    (h : (alook key (liveE es)).isSome = true) :
    ∃ es1 k1, putScan key value es idx slot = .updated es1 ∧
      Hashable.Equals k1 key = true ∧
      (liveE es1).Perm ((k1, value) :: (liveE es).filter (fun p => !Hashable.Equals p.1 key)) := by
  induction es generalizing idx slot with
  | nil => simp at h
  | cons e es ih =>
    cases hk : e.key with
    | none =>
      rw [liveE_cons_none _ _ hk] at hn h
      have hstep : ∀ sl : Option Nat, ∃ es1 k1,
          (putScan key value es (idx + 1) sl).cons e = .updated es1 ∧
          Hashable.Equals k1 key = true ∧
          (liveE es1).Perm
            ((k1, value) :: (liveE es).filter (fun p => !Hashable.Equals p.1 key)) := by
        intro sl
        obtain ⟨es1, k1, h1, h2, h3⟩ := ih (idx + 1) sl hn h
        refine ⟨e :: es1, k1, by rw [h1]; rfl, h2, ?_⟩
        rw [liveE_cons_none _ _ hk]; exact h3
      rw [liveE_cons_none _ _ hk]
      cases slot with
      | none => simpa [putScan, hk] using hstep (some idx)
      | some s => simpa [putScan, hk] using hstep (some s)
    | some k =>
      rw [liveE_cons_some _ _ k hk] at hn h ⊢
      rw [noDupKeys_cons] at hn
      by_cases hm : Hashable.Equals k key = true
      · have hnone : alook key (liveE es) = none := by
          rw [alook_eq_none_iff]
          intro q hq
          rw [equals_comm hK, ← equals_congr_left hK q.1 hm]
          exact hn.1 q hq
        refine ⟨{ e with value := value } :: es, k, by simp [putScan, hk, hm], hm, ?_⟩
        rw [liveE_cons_some _ _ k (by simpa using hk)]
        simp [List.filter_cons, hm, filter_not_match_of_none key _ hnone]
      · simp only [Bool.not_eq_true] at hm
        have h1 : (alook key (liveE es)).isSome = true := by
          simpa [alook_cons, hm] using h
        obtain ⟨es1, k1, h1, h2, h3⟩ := ih (idx + 1) slot hn.2 h1
        refine ⟨e :: es1, k1, by simp [putScan, hk, hm, h1, scanResult.cons], h2, ?_⟩
        rw [liveE_cons_some _ _ k hk]
        simp only [List.filter_cons, hm, Bool.not_false, if_true]
        exact (List.Perm.cons _ h3).trans (List.Perm.swap _ _ _)

/-- A node without a match: the loop ends with the first hole, if any. -/
theorem putScan_absent (key : K) (value : Option V) (es : List (entry K V)) (idx : Nat)
    (slot : Option Nat) (h : alook key (liveE es) = none) :
    ∃ s1, putScan key value es idx slot = .noMatch s1 ∧
      (∀ s0, slot = some s0 → s1 = some s0) ∧
      (slot = none → ∀ s, s1 = some s →
        idx ≤ s ∧ ∃ e, es[s - idx]? = some e ∧ e.key = none) := by
  induction es generalizing idx slot with
  | nil =>
    refine ⟨slot, rfl, fun s0 h0 => h0, ?_⟩
    intro h0 s hs; rw [h0] at hs; cases hs
  | cons e es ih =>
    cases hk : e.key with
    | none =>
      rw [liveE_cons_none _ _ hk] at h
      cases slot with
      | none =>
        obtain ⟨s1, h1, h2, _⟩ := ih (idx + 1) (some idx) h
        have hs1 := h2 idx rfl
        refine ⟨s1, by simp [putScan, hk, h1, scanResult.cons], (fun s0 h0 => by cases h0), ?_⟩
        intro _ s hs
        rw [hs1] at hs
        cases hs
        exact ⟨le_refl _, e, by simp, hk⟩
      | some s0 =>
        obtain ⟨s1, h1, h2, _⟩ := ih (idx + 1) (some s0) h
        refine ⟨s1, by simp [putScan, hk, h1, scanResult.cons], ?_, (fun h0 => by cases h0)⟩
        intro s hs; cases hs; exact h2 s0 rfl
    | some k =>
      rw [liveE_cons_some _ _ k hk, alook_cons] at h
      have hne : Hashable.Equals k key = false := by
        by_contra hq
        simp only [Bool.not_eq_false] at hq
        simp [hq] at h
      simp only [hne] at h
      obtain ⟨s1, h1, h2, h3⟩ := ih (idx + 1) slot (by simpa using h)
      refine ⟨s1, by simp [putScan, hk, hne, h1, scanResult.cons], h2, ?_⟩
      intro h0 s hs
      obtain ⟨hle, e1, he1, hk1⟩ := h3 h0 s hs
      refine ⟨by omega, e1, ?_, hk1⟩
      have : s - idx = (s - (idx + 1)) + 1 := by omega
      rw [this]
      simpa using he1

omit [Hashable K] in
/-- Writing a pair into a hole adds it to the live slots of the node. -/
theorem liveE_set_hole (es : List (entry K V)) (s : Nat) (e : entry K V)
    (he : es[s]? = some e) (hk : e.key = none) (key : K) (value : Option V) :
    (liveE (es.set s ⟨some key, value⟩)).Perm ((key, value) :: liveE es) := by
  induction es generalizing s with
  | nil => simp at he
  | cons x es ih =>
    cases s with
    | zero =>
      simp only [List.getElem?_cons_zero, Option.some.injEq] at he
      subst he
      rw [List.set_cons_zero, liveE_cons_some _ _ key rfl, liveE_cons_none _ _ hk]
    | succ s =>
      simp only [List.getElem?_cons_succ] at he
      have := ih s he
      rw [List.set_cons_succ]
      cases hx : x.key with
      | none =>
        rw [liveE_cons_none _ _ hx, liveE_cons_none _ _ hx]; exact this
      | some k =>
        rw [liveE_cons_some _ _ k hx, liveE_cons_some _ _ k hx]
        exact (List.Perm.cons _ this).trans (List.Perm.swap _ _ _)

omit [Hashable K] in
theorem liveE_newBucket_set (key : K) (value : Option V) :
    liveE ((List.replicate bucketCapacity (emptyEntry : entry K V)).set 0 ⟨some key, value⟩) =
      [(key, value)] := by
  have h : bucketCapacity = 63 + 1 := rfl
  rw [h, List.replicate_succ, List.set_cons_zero, liveE_cons_some _ _ key rfl,
    liveE_replicate_empty]

/-- The effect of `put` on a chain without duplicate keys: the slots that
match are dropped and one slot with the new value is there, `added` tells
whether the key was absent, and `chainDelta` is the change of the number of
nodes. -/
theorem put_spec (hK : LawfulHashable K) (key : K) (value : Option V) (c : bucket K V)
    (hn : NoDupKeys c.live) :
    ∃ k1, Hashable.Equals k1 key = true ∧
      (alook key c.live = none → k1 = key) ∧
      (c.put key value).1.live.Perm
        ((k1, value) :: c.live.filter (fun p => !Hashable.Equals p.1 key)) ∧
      (c.put key value).2.1 = !(alook key c.live).isSome ∧
      ((c.put key value).1.nodes : Int) = c.nodes + (c.put key value).2.2 := by
  induction c with
  | nil =>
    refine ⟨key, hK.refl key, fun _ => rfl, ?_, rfl, rfl⟩
    simp [bucket.put, liveE_newBucket_set]
  | mk es next ih =>
    rw [live_mk, noDupKeys_append] at hn
    obtain ⟨hn1, hn2, hx⟩ := hn
    cases hp : alook key (liveE es) with
    | some v =>
      have hs : (alook key (liveE es)).isSome = true := by rw [hp]; rfl
      obtain ⟨es1, k1, h1, h2, h3⟩ := putScan_present hK key value es 0 none hn1 hs
      obtain ⟨p, hpm, hpe⟩ := (alook_isSome_iff key _).1 hs
      have hnext : alook key next.live = none := by
        rw [alook_eq_none_iff]
        intro q hq
        rw [equals_comm hK, ← equals_congr_left hK q.1 hpe]
        exact hx p hpm q hq
      refine ⟨k1, h2, ?_, ?_, ?_, ?_⟩
      · intro hnone
        rw [live_mk, alook_append, hp] at hnone; cases hnone
      · simp only [bucket.put, h1, live_mk, List.filter_append,
          filter_not_match_of_none key _ hnext]
        exact List.Perm.append_right _ h3
      · simp [bucket.put, h1, alook_append, hp]
      · simp [bucket.put, h1]
    | none =>
      obtain ⟨s1, h1, _, h3⟩ := putScan_absent key value es 0 none hp
      have hf := filter_not_match_of_none key _ hp
      cases s1 with
      | some s =>
        obtain ⟨_, e, he, hk⟩ := h3 rfl s rfl
        obtain ⟨r1, r2, r3⟩ := remove_spec hK key next hn2
        refine ⟨key, hK.refl key, fun _ => rfl, ?_, ?_, ?_⟩
        · simp only [bucket.put, h1, live_mk, List.filter_append, hf, r1]
          exact List.Perm.append_right _ (liveE_set_hole es s e (by simpa using he) hk key value)
        · simp [bucket.put, h1, alook_append, hp, r2]
        · simp only [bucket.put, h1, nodes_mk]
          push_cast
          omega
      | none =>
        obtain ⟨k1, i1, i2, i3, i4, i5⟩ := ih hn2
        refine ⟨k1, i1, ?_, ?_, ?_, ?_⟩
        · intro hnone
          rw [live_mk, alook_append, hp] at hnone
          exact i2 hnone
        · simp only [bucket.put, h1, live_mk, List.filter_append, hf]
          exact (List.Perm.append_left _ i3).trans List.perm_middle
        · simp [bucket.put, h1, alook_append, hp, i4]
        · simp only [bucket.put, h1, nodes_mk]
          push_cast
          omega

end

section
variable [Hashable K]

/-! ## The loops of `split` -/

/-- The inner loop of `split` on one node: the slots that still address
`sOld` stay, the others go to the chain of `bNew`. -/
theorem splitEntries_spec (hK : LawfulHashable K) (lh : LHash K V) (sOld : Nat)
    (es : List (entry K V)) (bNew : bucket K V) (bc : Int)
    (hn : NoDupKeys (liveE es ++ bNew.live)) :
    liveE (splitEntries lh sOld es bNew bc).1 =
        (liveE es).filter (fun p => decide (lh.bucketIndex p.1 = sOld)) ∧
      (splitEntries lh sOld es bNew bc).2.1.live.Perm
        ((liveE es).filter (fun p => !decide (lh.bucketIndex p.1 = sOld)) ++ bNew.live) ∧
      (splitEntries lh sOld es bNew bc).2.2.1 =
        bc + (((splitEntries lh sOld es bNew bc).2.1.nodes : Int) - bNew.nodes) ∧
      (splitEntries lh sOld es bNew bc).2.2.2 =
        (liveE (splitEntries lh sOld es bNew bc).1).isEmpty := by
  induction es generalizing bNew bc with
  | nil => simp [splitEntries]
  | cons e es ih =>
    cases hk : e.key with
    | none =>
      rw [liveE_cons_none _ _ hk] at hn ⊢
      have := ih bNew bc hn
      simp only [splitEntries, hk]
      rw [liveE_cons_none _ _ hk]
      exact this
    | some k =>
      rw [liveE_cons_some _ _ k hk] at hn ⊢
      rw [List.cons_append, noDupKeys_cons] at hn
      by_cases hs : lh.bucketIndex k = sOld
      · obtain ⟨i1, i2, i3, _⟩ := ih bNew bc hn.2
        simp only [splitEntries, hk, hs, if_true]
        rw [liveE_cons_some _ _ k hk]
        simp only [List.filter_cons, hs, decide_True, Bool.not_true, if_true, Bool.false_eq_true,
          if_false]
        exact ⟨by rw [i1], i2, i3, by simp⟩
      · have hb : alook k bNew.live = none := by
          rw [alook_eq_none_iff]
          intro q hq
          rw [equals_comm hK]
          exact hn.1 q (List.mem_append_right _ hq)
        have hnb : NoDupKeys bNew.live := ((noDupKeys_append _ _).1 hn.2).2.1
        obtain ⟨k1, _, p2, p3, _, p5⟩ := put_spec hK k e.value bNew hnb
        have hk1 := p2 hb
        subst hk1
        rw [filter_not_match_of_none k1 _ hb] at p3
        have hn1 : NoDupKeys (liveE es ++ (bNew.put k1 e.value).1.live) := by
          have hperm : ((k1, e.value) :: (liveE es ++ bNew.live)).Perm
              (liveE es ++ (bNew.put k1 e.value).1.live) :=
            (List.perm_middle.symm).trans (List.Perm.append_left _ p3.symm)
          exact NoDupKeys.perm hK hperm ((noDupKeys_cons _ _).2 hn)
        obtain ⟨i1, i2, i3, i4⟩ := ih (bNew.put k1 e.value).1 (bc + (bNew.put k1 e.value).2.2) hn1
        simp only [splitEntries, hk, hs, if_false, liveE_emptyEntry_cons]
        simp only [List.filter_cons, hs, decide_False, Bool.not_false, if_true,
          Bool.false_eq_true, if_false]
        refine ⟨i1, ?_, ?_, i4⟩
        · exact i2.trans ((List.Perm.append_left _ p3).trans List.perm_middle)
        · rw [i3]; omega

/-- The outer loop of `split` on the old chain. -/
theorem splitChain_spec (hK : LawfulHashable K) (lh : LHash K V) (sOld : Nat)
    (c : bucket K V) (bOldPrevNil : Bool) (bNew : bucket K V) (bc : Int)
    (hn : NoDupKeys (c.live ++ bNew.live)) :
    (splitChain lh sOld c bOldPrevNil bNew bc).1.live =
        c.live.filter (fun p => decide (lh.bucketIndex p.1 = sOld)) ∧
      (splitChain lh sOld c bOldPrevNil bNew bc).2.1.live.Perm
        (c.live.filter (fun p => !decide (lh.bucketIndex p.1 = sOld)) ++ bNew.live) ∧
      (splitChain lh sOld c bOldPrevNil bNew bc).2.2 =
        bc + (((splitChain lh sOld c bOldPrevNil bNew bc).2.1.nodes : Int) - bNew.nodes) +
          (((splitChain lh sOld c bOldPrevNil bNew bc).1.nodes : Int) - c.nodes) := by
  induction c generalizing bOldPrevNil bNew bc with
  | nil => simp [splitChain]
  | mk es next ih =>
    rw [live_mk, List.append_assoc] at hn
    have hn0 : NoDupKeys (liveE es ++ bNew.live) := by
      rw [noDupKeys_append] at hn ⊢
      obtain ⟨h1, h2, h3⟩ := hn
      rw [noDupKeys_append] at h2
      exact ⟨h1, h2.2.1, fun p hp q hq => h3 p hp q (List.mem_append_right _ hq)⟩
    obtain ⟨e1, e2, e3, e4⟩ := splitEntries_spec hK lh sOld es bNew bc hn0
    have hn1 : NoDupKeys (next.live ++ (splitEntries lh sOld es bNew bc).2.1.live) := by
      have hsub : NoDupKeys (next.live ++
          ((liveE es).filter (fun p => !decide (lh.bucketIndex p.1 = sOld)) ++ bNew.live)) := by
        rw [noDupKeys_append] at hn
        obtain ⟨h1, h2, h3⟩ := hn
        rw [noDupKeys_append] at h2
        obtain ⟨h21, h22, h23⟩ := h2
        rw [noDupKeys_append, noDupKeys_append]
        refine ⟨h21, ⟨h1.filter _, h22, ?_⟩, ?_⟩
        · intro p hp q hq
          exact h3 p (List.mem_filter.1 hp).1 q (List.mem_append_right _ hq)
        · intro p hp q hq
          rcases List.mem_append.1 hq with hq | hq
          · rw [equals_comm hK]
            exact h3 q (List.mem_filter.1 hq).1 p (List.mem_append_left _ hp)
          · exact h23 p hp q hq
      exact NoDupKeys.perm hK (List.Perm.append_left _ e2.symm) hsub
    have key : ∀ (pn : Bool) (d : Int),
        (splitChain lh sOld next pn (splitEntries lh sOld es bNew bc).2.1 d).1.live =
          next.live.filter (fun p => decide (lh.bucketIndex p.1 = sOld)) ∧
        (splitChain lh sOld next pn (splitEntries lh sOld es bNew bc).2.1 d).2.1.live.Perm
          ((liveE es ++ next.live).filter (fun p => !decide (lh.bucketIndex p.1 = sOld)) ++
            bNew.live) ∧
        (splitChain lh sOld next pn (splitEntries lh sOld es bNew bc).2.1 d).2.2 =
          d + (((splitChain lh sOld next pn (splitEntries lh sOld es bNew bc).2.1 d).2.1.nodes
                  : Int) - (splitEntries lh sOld es bNew bc).2.1.nodes) +
            (((splitChain lh sOld next pn (splitEntries lh sOld es bNew bc).2.1 d).1.nodes
                  : Int) - next.nodes) := by
      intro pn d
      obtain ⟨j1, j2, j3⟩ := ih pn (splitEntries lh sOld es bNew bc).2.1 d hn1
      refine ⟨j1, ?_, j3⟩
      rw [List.filter_append, List.append_assoc]
      exact j2.trans ((List.Perm.append_left _ e2).trans
        (by rw [← List.append_assoc, ← List.append_assoc]
            exact List.Perm.append_right _ List.perm_append_comm))
    cases hemp : (splitEntries lh sOld es bNew bc).2.2.2 with
    | true =>
      have hnil : (liveE es).filter (fun p => decide (lh.bucketIndex p.1 = sOld)) = [] := by
        rw [← e1]; rw [e4] at hemp; simpa using hemp
      cases bOldPrevNil with
      | false =>
        obtain ⟨j1, j2, j3⟩ := key false ((splitEntries lh sOld es bNew bc).2.2.1 - 1)
        simp only [splitChain, hemp, if_true, Bool.false_and, Bool.false_eq_true, if_false,
          Bool.not_false, live_mk, List.filter_append, hnil, List.nil_append, nodes_mk]
        refine ⟨j1, by simpa [List.filter_append] using j2, ?_⟩
        rw [j3, e3]; push_cast; omega
      | true =>
        cases hnx : next.isNil with
        | false =>
          obtain ⟨j1, j2, j3⟩ := key true ((splitEntries lh sOld es bNew bc).2.2.1 - 1)
          simp only [splitChain, hemp, if_true, hnx, Bool.not_false, Bool.and_self, live_mk,
            List.filter_append, hnil, List.nil_append, nodes_mk]
          refine ⟨j1, by simpa [List.filter_append] using j2, ?_⟩
          rw [j3, e3]; push_cast; omega
        | true =>
          obtain ⟨j1, j2, j3⟩ := key true ((splitEntries lh sOld es bNew bc).2.2.1)
          simp only [splitChain, hemp, if_true, hnx, Bool.not_true, Bool.and_false,
            Bool.false_eq_true, if_false, live_mk, List.filter_append, nodes_mk]
          refine ⟨by rw [e1, j1], by simpa [List.filter_append] using j2, ?_⟩
          rw [j3, e3]; push_cast; omega
    | false =>
      obtain ⟨j1, j2, j3⟩ := key false ((splitEntries lh sOld es bNew bc).2.2.1)
      simp only [splitChain, hemp, Bool.false_eq_true, if_false, live_mk, List.filter_append,
        nodes_mk]
      refine ⟨by rw [e1, j1], by simpa [List.filter_append] using j2, ?_⟩
      rw [j3, e3]; push_cast; omega

end

section
/-! ## Sums over the bucket array -/

theorem sum_map_set {α : Type} (f : α → Nat) (l : List α) (i : Nat) (a b : α)
    (h : l[i]? = some a) : ((l.set i b).map f).sum + f a = (l.map f).sum + f b := by
  induction l generalizing i with
  | nil => simp at h
  | cons x l ih =>
    cases i with
    | zero =>
      simp only [List.getElem?_cons_zero, Option.some.injEq] at h
      subst h
      simp only [List.set_cons_zero, List.map_cons, List.sum_cons]
      omega
    | succ i =>
      simp only [List.getElem?_cons_succ] at h
      have := ih i h
      simp only [List.set_cons_succ, List.map_cons, List.sum_cons]
      omega

theorem getElem?_lt_length {α : Type} {l : List α} {i : Nat} {a : α} (h : l[i]? = some a) :
    i < l.length := by
  obtain ⟨hlt, _⟩ := List.getElem?_eq_some.1 h
  exact hlt

theorem mem_of_getElem? {α : Type} {l : List α} {i : Nat} {a : α} (h : l[i]? = some a) :
    a ∈ l :=
  List.mem_iff_getElem?.2 ⟨i, h⟩

/-! ## Addressing -/

theorem mod_double (h P : Nat) : h % (2 * P) = h % P ∨ h % (2 * P) = h % P + P := by
  rw [Nat.mul_comm, Nat.mod_mul]
  rcases Nat.mod_two_eq_zero_or_one (h / P) with h0 | h1
  · left; simp [h0]
  · right; simp [h1]

section addressing
variable [Hashable K]

theorem bucketIndex_mod (lh : LHash K V) (j : Nat) (hj : j + 1 ≤ 64)
    (h1 : lh.maskLow = 2 ^ j - 1) (h2 : lh.maskHigh = 2 ^ (j + 1) - 1) (key : K) :
    lh.bucketIndex key =
      if lh.splitIndex ≤ Hashable.Hash key % 2 ^ j then Hashable.Hash key % 2 ^ j
      else Hashable.Hash key % 2 ^ (j + 1) := by
  have d1 : 2 ^ j ∣ 2 ^ 64 := pow_dvd_pow 2 (by omega)
  have d2 : 2 ^ (j + 1) ∣ 2 ^ 64 := pow_dvd_pow 2 hj
  simp only [LHash.bucketIndex, h1, h2, Nat.and_pow_two_sub_one_eq_mod,
    Nat.mod_mod_of_dvd _ d1, Nat.mod_mod_of_dvd _ d2, ge_iff_le]

/-- Keys that compare equal address the same chain. -/
theorem bucketIndex_congr (hK : LawfulHashable K) (lh : LHash K V) {a b : K}
    (h : Hashable.Equals a b = true) : lh.bucketIndex a = lh.bucketIndex b := by
  simp only [LHash.bucketIndex, hK.hash_eq a b h]

theorem bucketIndex_fields (t1 t2 : LHash K V) (h1 : t1.splitIndex = t2.splitIndex)
    (h2 : t1.maskLow = t2.maskLow) (h3 : t1.maskHigh = t2.maskHigh) (key : K) :
    t1.bucketIndex key = t2.bucketIndex key := by
  simp only [LHash.bucketIndex, h1, h2, h3]

theorem addr_j_le {j s len : Nat} (h : len = 2 ^ j + s) (hs : len ≤ 2 ^ 63) : j ≤ 63 := by
  have : 2 ^ j ≤ 2 ^ 63 := by omega
  exact (Nat.pow_le_pow_iff_right (by norm_num)).1 this

/-- The index computed by `bucketIndex` is inside the bucket array. -/
theorem Inv.index_lt {t : LHash K V} (hinv : Inv t) (key : K) :
    t.bucketIndex key < t.buckets.length := by
  obtain ⟨j, _, h1, h2, h3, h4⟩ := hinv.addr
  have hj := addr_j_le h4 hinv.small
  rw [bucketIndex_mod t j (by omega) h1 h2, h4]
  have hpos : 0 < 2 ^ j := Nat.two_pow_pos j
  have hlt := Nat.mod_lt (Hashable.Hash key) hpos
  have hd := mod_double (Hashable.Hash key) (2 ^ j)
  have hp : 2 ^ (j + 1) = 2 * 2 ^ j := by rw [pow_succ]; omega
  rw [hp]
  split <;> omega

theorem Inv.index_some {t : LHash K V} (hinv : Inv t) (key : K) :
    ∃ b, t.buckets[t.bucketIndex key]? = some b := by
  have := hinv.index_lt key
  exact ⟨t.buckets[t.bucketIndex key], by simp [this]⟩

/-! ## The invariant: initial table and chain replacement -/

theorem inv_new : Inv (NewLHash : LHash K V) where
  addr := ⟨1, le_refl _, rfl, rfl, by simp [NewLHash], by simp [NewLHash]⟩
  small := by simp [NewLHash]
  place := by
    intro i b hb p hp
    have hm := mem_of_getElem? hb
    simp only [NewLHash, List.mem_cons, List.mem_singleton, List.not_mem_nil, or_false,
      or_self] at hm
    subst hm
    simp at hp
  nodup := by
    intro b hb
    simp only [NewLHash, List.mem_cons, List.mem_singleton, List.not_mem_nil, or_false,
      or_self] at hb
    subst hb
    simp [NoDupKeys]
  size_eq := by simp [NewLHash]
  count_eq := by simp [NewLHash]

/-- Replacing one chain by a chain whose keys address it, without duplicate
keys, with the counters adjusted, keeps the invariant. -/
theorem Inv.set {t : LHash K V} (hinv : Inv t) (i : Nat) (c c1 : bucket K V)
    (hc : t.buckets[i]? = some c) (hplace : ∀ p ∈ c1.live, t.bucketIndex p.1 = i)
    (hnd : NoDupKeys c1.live) (size1 bc1 : Int)
    (hs : size1 + (c.live.length : Int) = t.size + c1.live.length)
    (hb : bc1 + (c.nodes : Int) = t.bucketCount + c1.nodes) :
    Inv { t with buckets := t.buckets.set i c1, size := size1, bucketCount := bc1 } where
  addr := by
    obtain ⟨j, h0, h1, h2, h3, h4⟩ := hinv.addr
    exact ⟨j, h0, h1, h2, h3, by simpa using h4⟩
  small := by simpa using hinv.small
  place := by
    intro n b hb1 p hp
    have hidx : ∀ key : K, LHash.bucketIndex
        { t with buckets := t.buckets.set i c1, size := size1, bucketCount := bc1 } key =
        t.bucketIndex key := fun key => rfl
    rw [hidx]
    simp only [List.getElem?_set] at hb1
    by_cases hin : i = n
    · subst hin
      simp only [if_true, getElem?_lt_length hc, Option.some.injEq] at hb1
      subst hb1
      exact hplace p hp
    · simp only [hin, if_false] at hb1
      exact hinv.place n b hb1 p hp
  nodup := by
    intro b hb1
    rcases List.mem_or_eq_of_mem_set hb1 with h | h
    · exact hinv.nodup b h
    · subst h; exact hnd
  size_eq := by
    have h1 := sum_map_set (fun b : bucket K V => b.live.length) t.buckets i c c1 hc
    have h2 := hinv.size_eq
    simp only at h1 ⊢
    omega
  count_eq := by
    have h1 := sum_map_set (bucket.nodes : bucket K V → Nat) t.buckets i c c1 hc
    have h2 := hinv.count_eq
    simp only at h1 ⊢
    omega

/-- The table after the chain mutation of `Put`, before the split test. -/
theorem inv_put_step (hK : LawfulHashable K) {t : LHash K V} (hinv : Inv t) (key : K)
    (value : Option V) (c : bucket K V) (hc : t.buckets[t.bucketIndex key]? = some c) :
    Inv { t with
      buckets := t.buckets.set (t.bucketIndex key) (c.put key value).1
      size := if (c.put key value).2.1 then t.size + 1 else t.size
      bucketCount := t.bucketCount + (c.put key value).2.2 } := by
  have hn := hinv.nodup c (mem_of_getElem? hc)
  obtain ⟨k1, p1, _, p3, p4, p5⟩ := put_spec hK key value c hn
  have hnd1 : NoDupKeys ((k1, value) :: c.live.filter (fun p => !Hashable.Equals p.1 key)) := by
    rw [noDupKeys_cons]
    refine ⟨?_, hn.filter _⟩
    intro q hq
    have hq2 := (List.mem_filter.1 hq).2
    rw [equals_congr_left hK q.1 p1, equals_comm hK]
    simpa using hq2
  apply hinv.set (t.bucketIndex key) c _ hc
  · intro p hp
    rcases List.mem_cons.1 (p3.mem_iff.1 hp) with h | h
    · subst h; exact bucketIndex_congr hK t p1
    · exact hinv.place _ c hc p (List.mem_filter.1 h).1
  · exact NoDupKeys.perm hK p3.symm hnd1
  · have hl := length_filter_not_match hK key c.live hn
    have hlen := p3.length_eq
    simp only [List.length_cons] at hlen
    rw [p4]
    cases hs : (alook key c.live).isSome
    · rw [hs] at hl
      simp only [Bool.false_eq_true, if_false] at hl
      simp
      omega
    · rw [hs] at hl
      simp only [if_true] at hl
      simp
      omega
  · omega

/-- `Remove` keeps the invariant. -/
theorem inv_remove (hK : LawfulHashable K) {t t1 : LHash K V} (hinv : Inv t) (key : K)
    (h : t.Remove key = some t1) : Inv t1 := by
  obtain ⟨c, hc⟩ := hinv.index_some key
  have hn := hinv.nodup c (mem_of_getElem? hc)
  obtain ⟨r1, r2, r3⟩ := remove_spec hK key c hn
  simp only [LHash.Remove, hc, Option.some.injEq] at h
  subst h
  apply hinv.set (t.bucketIndex key) c _ hc
  · intro p hp
    rw [r1] at hp
    exact hinv.place _ c hc p (List.mem_filter.1 hp).1
  · rw [r1]; exact hn.filter _
  · have hl := length_filter_not_match hK key c.live hn
    rw [r1, r2]
    cases hs : (alook key c.live).isSome
    · rw [hs] at hl
      simp only [Bool.false_eq_true, if_false] at hl
      simp
      omega
    · rw [hs] at hl
      simp only [if_true] at hl
      simp
      omega
  · omega

end addressing

end

section
variable [Hashable K]

/-! ## `split` -/

omit [Hashable K] in
theorem length_filter_add_not {α : Type} (P : α → Bool) (l : List α) :
    (l.filter P).length + (l.filter (fun x => !P x)).length = l.length := by
  induction l with
  | nil => rfl
  | cons x l ih =>
    cases h : P x <;> simp [List.filter_cons, h] <;> omega

/-- The addressing state after the first part of `split`, and the shape of
its result. -/
theorem split_eq (t : LHash K V) (j : Nat) (h3 : t.splitIndex < 2 ^ j)
    (h1 : t.maskLow = 2 ^ j - 1) (h2 : t.maskHigh = 2 ^ (j + 1) - 1)
    (h4 : t.buckets.length = 2 ^ j + t.splitIndex) (hlen : t.buckets.length < 2 ^ 63)
    (c : bucket K V) (hc : t.buckets[t.splitIndex]? = some c) :
    ∃ t2 : LHash K V, t2.buckets = t.buckets ++ [newBucket] ∧ t2.size = t.size ∧
      t2.bucketCount = t.bucketCount + 1 ∧
      ((t.splitIndex + 1 = 2 ^ j ∧ t2.splitIndex = 0 ∧ t2.maskLow = 2 ^ (j + 1) - 1 ∧
          t2.maskHigh = 2 ^ (j + 2) - 1) ∨
        (t.splitIndex + 1 < 2 ^ j ∧ t2.splitIndex = t.splitIndex + 1 ∧
          t2.maskLow = 2 ^ j - 1 ∧ t2.maskHigh = 2 ^ (j + 1) - 1)) ∧
      t.split = some { t2 with
        buckets := (t2.buckets.set t.splitIndex
            (splitChain t2 t.splitIndex c true newBucket t2.bucketCount).1).set
          (t2.buckets.length - 1)
          (splitChain t2 t.splitIndex c true newBucket t2.bucketCount).2.1
        bucketCount := (splitChain t2 t.splitIndex c true newBucket t2.bucketCount).2.2 } := by
  have hcond : ((2 * ((t.splitIndex + 1) % 2 ^ 64)) % 2 ^ 64 =
      (t.buckets.length + 1) % 2 ^ 64) ↔ t.splitIndex + 1 = 2 ^ j := by
    omega
  have hmod : (t.splitIndex + 1) % 2 ^ 64 = t.splitIndex + 1 := by omega
  have hp1 : 2 ^ (j + 1) = 2 * 2 ^ j := by rw [pow_succ]; omega
  have hp2 : 2 ^ (j + 2) = 4 * 2 ^ j := by rw [pow_succ, pow_succ]; omega
  by_cases hs : t.splitIndex + 1 = 2 ^ j
  · refine ⟨{ t with
        buckets := t.buckets ++ [newBucket]
        bucketCount := t.bucketCount + 1
        splitIndex := 0
        maskLow := t.maskHigh
        maskHigh := (t.maskHigh * 2 + 1) % 2 ^ 64 }, rfl, rfl, rfl, Or.inl ⟨hs, rfl, ?_, ?_⟩, ?_⟩
    · simp only [h2]
    · simp only [h2]; omega
    · simp only [LHash.split, hc, List.length_append, List.length_singleton, hcond.2 hs,
        if_true]
  · refine ⟨{ t with
        buckets := t.buckets ++ [newBucket]
        bucketCount := t.bucketCount + 1
        splitIndex := (t.splitIndex + 1) % 2 ^ 64 }, rfl, rfl, rfl,
        Or.inr ⟨by omega, hmod, h1, h2⟩, ?_⟩
    simp only [LHash.split, hc, List.length_append, List.length_singleton,
      (not_congr hcond).2 hs, if_false]

/-- How the index of a key moves when the table takes one split step: keys
outside the split chain keep their index, keys of the split chain stay or go
to the appended bucket. -/
theorem index_step (t t2 : LHash K V) (j : Nat)
    (h1 : t.maskLow = 2 ^ j - 1) (h2 : t.maskHigh = 2 ^ (j + 1) - 1)
    (h4 : t.buckets.length = 2 ^ j + t.splitIndex) (hlen : t.buckets.length < 2 ^ 63)
    (hstep : (t.splitIndex + 1 = 2 ^ j ∧ t2.splitIndex = 0 ∧ t2.maskLow = 2 ^ (j + 1) - 1 ∧
          t2.maskHigh = 2 ^ (j + 2) - 1) ∨
        (t.splitIndex + 1 < 2 ^ j ∧ t2.splitIndex = t.splitIndex + 1 ∧
          t2.maskLow = 2 ^ j - 1 ∧ t2.maskHigh = 2 ^ (j + 1) - 1))
    (key : K) :
    (t.bucketIndex key ≠ t.splitIndex → t2.bucketIndex key = t.bucketIndex key) ∧
      (t.bucketIndex key = t.splitIndex →
        t2.bucketIndex key = t.splitIndex ∨ t2.bucketIndex key = t.buckets.length) := by
  have hj : j ≤ 63 := addr_j_le h4 (by omega)
  have hp1 : 2 ^ (j + 1) = 2 * 2 ^ j := by rw [pow_succ]; omega
  have hpos : 0 < 2 ^ j := Nat.two_pow_pos j
  have hlt := Nat.mod_lt (Hashable.Hash key) hpos
  have hd := mod_double (Hashable.Hash key) (2 ^ j)
  rw [bucketIndex_mod t j (by omega) h1 h2, h4]
  rcases hstep with ⟨s1, s2, s3, s4⟩ | ⟨s1, s2, s3, s4⟩
  · have hj2 : j + 1 ≤ 63 := by
      have : 2 ^ (j + 1) ≤ 2 ^ 63 := by omega
      exact (Nat.pow_le_pow_iff_right (by norm_num)).1 this
    rw [bucketIndex_mod t2 (j + 1) (by omega) s3 s4, s2]
    rw [hp1] at *
    generalize Hashable.Hash key % 2 ^ j = a at *
    generalize Hashable.Hash key % (2 * 2 ^ j) = b at *
    simp only [Nat.zero_le, if_true]
    split <;> omega
  · rw [bucketIndex_mod t2 j (by omega) s3 s4, s2]
    rw [hp1] at *
    generalize Hashable.Hash key % 2 ^ j = a at *
    generalize Hashable.Hash key % (2 * 2 ^ j) = b at *
    split <;> split <;> omega

omit [Hashable K] in
theorem set_set_append {α : Type} (l : List α) (s : Nat) (hs : s < l.length) (x y nb : α) :
    ((l ++ [nb]).set s x).set ((l ++ [nb]).length - 1) y = l.set s x ++ [y] := by
  have h1 : (l ++ [nb]).set s x = l.set s x ++ [nb] := by
    rw [List.set_append, if_pos hs]
  have h2 : (l ++ [nb]).length - 1 = (l.set s x).length := by simp
  rw [h1, h2, List.set_append, if_neg (by omega)]
  simp

theorem look_eq (t : LHash K V) (q : K) (b : bucket K V)
    (h : t.buckets[t.bucketIndex q]? = some b) : t.look q = alook q b.live := by
  simp [LHash.look, List.getD_eq_getElem?_getD, h]

/-- One split of a table that satisfies the invariant: it succeeds, keeps the
invariant and the size, appends one bucket and changes no lookup. -/
theorem split_spec (hK : LawfulHashable K) {t : LHash K V} (hinv : Inv t)
    (hlen : t.buckets.length < 2 ^ 63) :
    ∃ t1, t.split = some t1 ∧ Inv t1 ∧ t1.size = t.size ∧
      t1.buckets.length = t.buckets.length + 1 ∧ ∀ q, t1.look q = t.look q := by
  obtain ⟨j, h0, h1, h2, h3, h4⟩ := hinv.addr
  have hslt : t.splitIndex < t.buckets.length := by omega
  have hc : t.buckets[t.splitIndex]? = some t.buckets[t.splitIndex] := by simp [hslt]
  generalize t.buckets[t.splitIndex] = c at hc
  obtain ⟨t2, e1, e2, e3, hstep, heq⟩ := split_eq t j h3 h1 h2 h4 hlen c hc
  have hn := hinv.nodup c (mem_of_getElem? hc)
  obtain ⟨r1, r2, r3⟩ := splitChain_spec hK t2 t.splitIndex c true newBucket t2.bucketCount
    (by simpa using hn)
  simp only [live_newBucket, List.append_nil, nodes_newBucket] at r2 r3
  have hB := set_set_append t.buckets t.splitIndex hslt
    (splitChain t2 t.splitIndex c true newBucket t2.bucketCount).1
    (splitChain t2 t.splitIndex c true newBucket t2.bucketCount).2.1 newBucket
  rw [e1] at heq
  rw [hB] at heq
  generalize splitChain t2 t.splitIndex c true newBucket t2.bucketCount = r at *
  have hst := index_step t t2 j h1 h2 h4 hlen hstep
  have hget : ∀ i, i < t.buckets.length →
      (t.buckets.set t.splitIndex r.1 ++ [r.2.1])[i]? =
        if t.splitIndex = i then some r.1 else t.buckets[i]? := by
    intro i hi
    rw [List.getElem?_append_left (by simpa using hi), List.getElem?_set]
    simp [hslt]
  have hlast : (t.buckets.set t.splitIndex r.1 ++ [r.2.1])[t.buckets.length]? =
      some r.2.1 := by
    rw [List.getElem?_append_right (by simp)]
    simp
  have hnd2 : NoDupKeys r.2.1.live := NoDupKeys.perm hK r2.symm (hn.filter _)
  refine ⟨_, heq, ?_, e2, by simp, ?_⟩
  · refine ⟨?_, by simp; omega, ?_, ?_, ?_, ?_⟩
    · rcases hstep with ⟨s1, s2, s3, s4⟩ | ⟨s1, s2, s3, s4⟩
      · refine ⟨j + 1, by omega, s3, s4, ?_, ?_⟩
        · simp only [s2]; exact Nat.two_pow_pos _
        · simp only [s2, List.length_append, List.length_set, List.length_singleton]
          rw [pow_succ]; omega
      · refine ⟨j, h0, s3, s4, ?_, ?_⟩
        · simp only [s2]; omega
        · simp only [s2, List.length_append, List.length_set, List.length_singleton]
          omega
    · intro i b hb p hp
      have hidx : ∀ key : K, LHash.bucketIndex
          { t2 with buckets := t.buckets.set t.splitIndex r.1 ++ [r.2.1],
                    bucketCount := r.2.2 } key = t2.bucketIndex key := fun key => rfl
      rw [hidx]
      simp only at hb
      by_cases hi : i < t.buckets.length
      · rw [hget i hi] at hb
        by_cases hsi : t.splitIndex = i
        · simp only [hsi, if_true, Option.some.injEq] at hb
          subst hb
          rw [r1] at hp
          have := (List.mem_filter.1 hp).2
          rw [← hsi]
          simpa using this
        · simp only [hsi, if_false] at hb
          have hold := hinv.place i b hb p hp
          rw [(hst p.1).1 (by rw [hold]; exact fun h => hsi h.symm), hold]
      · have hi2 : i = t.buckets.length := by
          have := getElem?_lt_length hb
          simp at this
          omega
        subst hi2
        rw [hlast] at hb
        simp only [Option.some.injEq] at hb
        subst hb
        have hp2 := List.mem_filter.1 (r2.mem_iff.1 hp)
        have hold := hinv.place _ c hc p hp2.1
        rcases (hst p.1).2 hold with h | h
        · have := hp2.2
          simp [h] at this
        · exact h
    · intro b hb
      simp only [List.mem_append, List.mem_singleton] at hb
      rcases hb with hb | hb
      · rcases List.mem_or_eq_of_mem_set hb with h | h
        · exact hinv.nodup b h
        · subst h; rw [r1]; exact hn.filter _
      · subst hb; exact hnd2
    · have s1 := sum_map_set (fun b : bucket K V => b.live.length) t.buckets t.splitIndex c
        r.1 hc
      have s2 := hinv.size_eq
      have s3 := length_filter_add_not (fun p : K × Option V =>
        decide (t2.bucketIndex p.1 = t.splitIndex)) c.live
      have s4 := r2.length_eq
      simp only [List.map_append, List.sum_append, List.map_cons, List.map_nil, List.sum_cons,
        List.sum_nil, e2]
      simp only at s1
      rw [r1] at s1
      omega
    · have s1 := sum_map_set (bucket.nodes : bucket K V → Nat) t.buckets t.splitIndex c
        r.1 hc
      have s2 := hinv.count_eq
      simp only [List.map_append, List.sum_append, List.map_cons, List.map_nil, List.sum_cons,
        List.sum_nil]
      rw [r3, e3]
      omega
  · intro q
    have hidx : LHash.bucketIndex
        { t2 with buckets := t.buckets.set t.splitIndex r.1 ++ [r.2.1],
                  bucketCount := r.2.2 } q = t2.bucketIndex q := rfl
    have hmatch : ∀ p : K × Option V, Hashable.Equals p.1 q = true →
        t2.bucketIndex p.1 = t2.bucketIndex q := fun p hp => bucketIndex_congr hK t2 hp
    by_cases hold : t.bucketIndex q = t.splitIndex
    · rw [look_eq t q c (by rw [hold]; exact hc)]
      rcases (hst q).2 hold with h | h
      · rw [look_eq _ q r.1 (by rw [hidx, h]; simp only; rw [hget _ hslt]; simp)]
        rw [r1]
        apply alook_filter
        intro p _ hm
        simp [hmatch p hm, h]
      · rw [look_eq _ q r.2.1 (by rw [hidx, h]; exact hlast)]
        rw [alook_perm hK q hnd2 r2]
        apply alook_filter
        intro p _ hm
        simp only [hmatch p hm, h, Bool.not_eq_true', decide_eq_false_iff_not]
        omega
    · have hnew := (hst q).1 hold
      have hlt := hinv.index_lt q
      have hb : t.buckets[t.bucketIndex q]? = some t.buckets[t.bucketIndex q] := by simp [hlt]
      rw [look_eq t q _ hb]
      refine look_eq _ q _ ?_
      rw [hidx, hnew]
      simp only
      rw [hget _ hlt, if_neg (fun h => hold h.symm)]
      exact hb

end

section
variable [Hashable K]

/-! ## `Find`, `Put` and `Remove` on a table that satisfies the invariant -/

theorem find_eq_look {t : LHash K V} (hinv : Inv t) (q : K) :
    t.Find q = some (t.look q).join := by
  obtain ⟨b, hb⟩ := hinv.index_some q
  rw [look_eq t q b hb]
  simp [LHash.Find, hb, find_eq]

theorem split_length {t t1 : LHash K V} (h : t.split = some t1) :
    t1.buckets.length = t.buckets.length + 1 := by
  cases hm : t.buckets[t.splitIndex]? with
  | none => simp [LHash.split, hm] at h
  | some c =>
    simp only [LHash.split, hm, Option.some.injEq] at h
    subst h
    simp only [List.length_set]
    split <;> simp

theorem put_eq (t : LHash K V) (key : K) (value : Option V) (c : bucket K V)
    (hc : t.buckets[t.bucketIndex key]? = some c) :
    t.Put key value =
      if LHash.needsSplit { t with
          buckets := t.buckets.set (t.bucketIndex key) (c.put key value).1
          size := if (c.put key value).2.1 then t.size + 1 else t.size
          bucketCount := t.bucketCount + (c.put key value).2.2 } = true
      then LHash.split { t with
          buckets := t.buckets.set (t.bucketIndex key) (c.put key value).1
          size := if (c.put key value).2.1 then t.size + 1 else t.size
          bucketCount := t.bucketCount + (c.put key value).2.2 }
      else some { t with
          buckets := t.buckets.set (t.bucketIndex key) (c.put key value).1
          size := if (c.put key value).2.1 then t.size + 1 else t.size
          bucketCount := t.bucketCount + (c.put key value).2.2 } := by
  simp only [LHash.Put, hc]

theorem put_length {t t1 : LHash K V} {key : K} {value : Option V}
    (h : t.Put key value = some t1) :
    t1.buckets.length = t.buckets.length ∨ t1.buckets.length = t.buckets.length + 1 := by
  cases hm : t.buckets[t.bucketIndex key]? with
  | none => simp [LHash.Put, hm] at h
  | some c =>
    rw [put_eq t key value c hm] at h
    by_cases hns : LHash.needsSplit { t with
          buckets := t.buckets.set (t.bucketIndex key) (c.put key value).1
          size := if (c.put key value).2.1 then t.size + 1 else t.size
          bucketCount := t.bucketCount + (c.put key value).2.2 } = true
    · rw [if_pos hns] at h
      right
      have := split_length h
      simpa using this
    · rw [if_neg hns] at h
      left
      simp only [Option.some.injEq] at h
      subst h
      simp

theorem remove_length {t t1 : LHash K V} {key : K} (h : t.Remove key = some t1) :
    t1.buckets.length = t.buckets.length := by
  cases hm : t.buckets[t.bucketIndex key]? with
  | none => simp [LHash.Remove, hm] at h
  | some c =>
    simp only [LHash.Remove, hm, Option.some.injEq] at h
    subst h
    simp

/-- The table after the chain mutation of `Put`: the lookups. -/
theorem look_put_step (hK : LawfulHashable K) {t : LHash K V} (hinv : Inv t) (key : K)
    (value : Option V) (c : bucket K V) (hc : t.buckets[t.bucketIndex key]? = some c) (q : K) :
    LHash.look { t with
      buckets := t.buckets.set (t.bucketIndex key) (c.put key value).1
      size := if (c.put key value).2.1 then t.size + 1 else t.size
      bucketCount := t.bucketCount + (c.put key value).2.2 } q =
    if Hashable.Equals key q then some value else t.look q := by
  have hinv1 := inv_put_step hK hinv key value c hc
  have hn := hinv.nodup c (mem_of_getElem? hc)
  obtain ⟨k1, p1, _, p3, _, _⟩ := put_spec hK key value c hn
  have hidx : ∀ x : K, LHash.bucketIndex { t with
      buckets := t.buckets.set (t.bucketIndex key) (c.put key value).1
      size := if (c.put key value).2.1 then t.size + 1 else t.size
      bucketCount := t.bucketCount + (c.put key value).2.2 } x = t.bucketIndex x := fun _ => rfl
  have hlt := getElem?_lt_length hc
  by_cases hq : t.bucketIndex q = t.bucketIndex key
  · have hnd1 : NoDupKeys (c.put key value).1.live :=
      hinv1.nodup _ (List.mem_iff_getElem?.2 ⟨t.bucketIndex key, by
        simp only [List.getElem?_set]; simp [hlt]⟩)
    rw [look_eq _ q (c.put key value).1 (by
      rw [hidx, hq]; simp only [List.getElem?_set]; simp [hlt])]
    rw [look_eq t q c (by rw [hq]; exact hc)]
    rw [alook_perm hK q hnd1 p3, alook_cons]
    simp only
    rw [equals_congr_left hK q p1]
    by_cases he : Hashable.Equals key q = true
    · simp [he]
    · simp only [he, Bool.false_eq_true, if_false]
      apply alook_filter
      intro p _ hm
      have : Hashable.Equals p.1 key = false := by
        by_contra hc2
        simp only [Bool.not_eq_false] at hc2
        exact he (hK.trans _ _ _ (hK.symm _ _ hc2) hm)
      simp [this]
  · have he : Hashable.Equals key q = false := by
      by_contra hc2
      simp only [Bool.not_eq_false] at hc2
      exact hq (bucketIndex_congr hK t hc2).symm
    obtain ⟨b, hb⟩ := hinv.index_some q
    rw [look_eq t q b hb]
    rw [look_eq _ q b (by
      rw [hidx]; simp only [List.getElem?_set]
      rw [if_neg (fun h => hq h.symm)]; exact hb)]
    simp [he]

/-- `Put` on a table that satisfies the invariant. -/
theorem put_spec_table (hK : LawfulHashable K) {t : LHash K V} (hinv : Inv t)
    (hlen : t.buckets.length < 2 ^ 63) (key : K) (value : Option V) :
    ∃ t1, t.Put key value = some t1 ∧ Inv t1 ∧
      (∀ q, t1.look q = if Hashable.Equals key q then some value else t.look q) ∧
      t1.size = (if (t.look key).isSome then t.size else t.size + 1) := by
  obtain ⟨c, hc⟩ := hinv.index_some key
  have hinv1 := inv_put_step hK hinv key value c hc
  have hlook := look_put_step hK hinv key value c hc
  have hn := hinv.nodup c (mem_of_getElem? hc)
  obtain ⟨_, _, _, _, p4, _⟩ := put_spec hK key value c hn
  have hsize : (if (c.put key value).2.1 then t.size + 1 else t.size) =
      (if (t.look key).isSome then t.size else t.size + 1) := by
    rw [look_eq t key c hc, p4]
    cases (alook key c.live).isSome <;> simp
  rw [put_eq t key value c hc]
  by_cases hns : LHash.needsSplit { t with
        buckets := t.buckets.set (t.bucketIndex key) (c.put key value).1
        size := if (c.put key value).2.1 then t.size + 1 else t.size
        bucketCount := t.bucketCount + (c.put key value).2.2 } = true
  · rw [if_pos hns]
    obtain ⟨t1, s1, s2, s3, _, s5⟩ := split_spec hK hinv1 (by simpa using hlen)
    refine ⟨t1, s1, s2, ?_, ?_⟩
    · intro q; rw [s5, hlook]
    · rw [s3]; exact hsize
  · rw [if_neg hns]
    exact ⟨_, rfl, hinv1, hlook, hsize⟩

/-- `Put` keeps the invariant as long as the bucket array stays below
`2 ^ 63` buckets. -/
theorem inv_put (hK : LawfulHashable K) {t t1 : LHash K V} (hinv : Inv t) (key : K)
    (value : Option V) (h : t.Put key value = some t1) (hlen : t1.buckets.length ≤ 2 ^ 63) :
    Inv t1 := by
  obtain ⟨c, hc⟩ := hinv.index_some key
  have hinv1 := inv_put_step hK hinv key value c hc
  rw [put_eq t key value c hc] at h
  by_cases hns : LHash.needsSplit { t with
        buckets := t.buckets.set (t.bucketIndex key) (c.put key value).1
        size := if (c.put key value).2.1 then t.size + 1 else t.size
        bucketCount := t.bucketCount + (c.put key value).2.2 } = true
  · rw [if_pos hns] at h
    have hl := split_length h
    simp only [List.length_set] at hl
    obtain ⟨t2, s1, s2, _⟩ := split_spec hK hinv1 (by simp only [List.length_set]; omega)
    rw [s1] at h
    cases h
    exact s2
  · rw [if_neg hns] at h
    cases h
    exact hinv1

/-- `Remove` on a table that satisfies the invariant. -/
theorem remove_spec_table (hK : LawfulHashable K) {t : LHash K V} (hinv : Inv t) (key : K) :
    ∃ t1, t.Remove key = some t1 ∧ Inv t1 ∧
      (∀ q, t1.look q = if Hashable.Equals key q then none else t.look q) ∧
      t1.size = (if (t.look key).isSome then t.size - 1 else t.size) ∧
      t1.buckets.length = t.buckets.length := by
  obtain ⟨c, hc⟩ := hinv.index_some key
  have hn := hinv.nodup c (mem_of_getElem? hc)
  obtain ⟨r1, r2, _⟩ := remove_spec hK key c hn
  have hlt := getElem?_lt_length hc
  have hrm : t.Remove key = some { t with
      buckets := t.buckets.set (t.bucketIndex key) (c.remove key).1
      size := if (c.remove key).2.1 then t.size - 1 else t.size
      bucketCount := t.bucketCount + (c.remove key).2.2 } := by
    simp only [LHash.Remove, hc]
  refine ⟨_, hrm, inv_remove hK hinv key hrm, ?_, ?_, by simp⟩
  · intro q
    have hidx : ∀ x : K, LHash.bucketIndex { t with
        buckets := t.buckets.set (t.bucketIndex key) (c.remove key).1
        size := if (c.remove key).2.1 then t.size - 1 else t.size
        bucketCount := t.bucketCount + (c.remove key).2.2 } x = t.bucketIndex x :=
      fun _ => rfl
    by_cases hq : t.bucketIndex q = t.bucketIndex key
    · rw [look_eq _ q (c.remove key).1 (by
        rw [hidx, hq]; simp only [List.getElem?_set]; simp [hlt])]
      rw [look_eq t q c (by rw [hq]; exact hc), r1]
      by_cases he : Hashable.Equals key q = true
      · simp only [he, if_true]
        apply alook_filter_none
        intro p _ hm
        have : Hashable.Equals p.1 key = true := by
          rw [equals_congr_right hK p.1 he]; exact hm
        simp [this]
      · simp only [he, Bool.false_eq_true, if_false]
        apply alook_filter
        intro p _ hm
        have : Hashable.Equals p.1 key = false := by
          by_contra hc2
          simp only [Bool.not_eq_false] at hc2
          exact he (hK.trans _ _ _ (hK.symm _ _ hc2) hm)
        simp [this]
    · have he : Hashable.Equals key q = false := by
        by_contra hc2
        simp only [Bool.not_eq_false] at hc2
        exact hq (bucketIndex_congr hK t hc2).symm
      obtain ⟨b, hb⟩ := hinv.index_some q
      rw [look_eq t q b hb]
      rw [look_eq _ q b (by
        rw [hidx]; simp only [List.getElem?_set]
        rw [if_neg (fun h => hq h.symm)]; exact hb)]
      simp [he]
  · simp only
    rw [look_eq t key c hc, r2]

/-! ## Reachable tables satisfy the invariant -/

theorem reachable_inv (hK : LawfulHashable K) {t : LHash K V} (hr : Reachable t)
    (hlen : t.buckets.length ≤ 2 ^ 63) : Inv t := by
  induction hr with
  | new => exact inv_new
  | put k v _ h ih =>
    have hl := put_length h
    exact inv_put hK (ih (by omega)) k v h hlen
  | remove k _ h ih =>
    have hl := remove_length h
    exact inv_remove hK (ih (by omega)) k h

theorem look_new (q : K) : (NewLHash : LHash K V).look q = none := by
  obtain ⟨b, hb⟩ := (inv_new : Inv (NewLHash : LHash K V)).index_some q
  rw [look_eq _ q b hb]
  have hm := mem_of_getElem? hb
  simp only [NewLHash, List.mem_cons, List.mem_singleton, List.not_mem_nil, or_false,
    or_self] at hm
  subst hm
  simp

/-- The key contract holds for the test keys. -/
theorem lawful_uint : LawfulHashable Nat where
  refl := by intro a; simp [Hashable.Equals]
  symm := by intro a b h; simp [Hashable.Equals] at h ⊢; exact h.symm
  trans := by intro a b c h1 h2; simp [Hashable.Equals] at h1 h2 ⊢; exact h1.trans h2
  hash_eq := by intro a b h; simp [Hashable.Equals] at h; rw [h]

end

section
variable [Hashable K]

/-! ## Auxiliary facts for the contract theorems -/

omit [Hashable K] in
theorem set_getElem?_self {α : Type} (l : List α) (i : Nat) (a : α) (h : l[i]? = some a) :
    l.set i a = l := by
  induction l generalizing i with
  | nil => rfl
  | cons x l ih =>
    cases i with
    | zero =>
      simp only [List.getElem?_cons_zero, Option.some.injEq] at h
      subst h; rfl
    | succ i =>
      simp only [List.getElem?_cons_succ] at h
      rw [List.set_cons_succ, ih i h]

/-- A run of calls from a table that satisfies the invariant follows the
reference map. -/
theorem runOps_refines (hK : LawfulHashable K) (ops : List (Op K V)) (t : LHash K V)
    (m : K → Option V) (hinv : Inv t) (hlen : t.buckets.length + ops.length ≤ 2 ^ 63)
    (hrel : ∀ q, t.look q = (m q).map some) :
    ∃ t1, runOps ops t = some t1 ∧ Inv t1 ∧ ∀ q, t1.look q = (refRun ops m q).map some := by
  induction ops generalizing t m with
  | nil => exact ⟨t, rfl, hinv, hrel⟩
  | cons op ops ih =>
    simp only [List.length_cons] at hlen
    cases op with
    | put k v =>
      obtain ⟨t1, h1, h2, h3, _⟩ := put_spec_table hK hinv (by omega) k (some v)
      have hl := put_length h1
      obtain ⟨t2, g1, g2, g3⟩ := ih t1 (refInsert m k v) h2 (by omega) (by
        intro q
        rw [h3 q, hrel q]
        simp only [refInsert]
        split <;> rfl)
      exact ⟨t2, by simp [runOps, applyOp, h1, g1], g2, g3⟩
    | remove k =>
      obtain ⟨t1, h1, h2, h3, _, h5⟩ := remove_spec_table hK hinv k
      obtain ⟨t2, g1, g2, g3⟩ := ih t1 (refDelete m k) h2 (by omega) (by
        intro q
        rw [h3 q, hrel q]
        simp only [refDelete]
        split <;> rfl)
      exact ⟨t2, by simp [runOps, applyOp, h1, g1], g2, g3⟩

/-- In a table that satisfies the invariant no two live slots have keys that
compare equal. -/
theorem noDupKeys_live (hK : LawfulHashable K) {t : LHash K V} (hinv : Inv t) :
    NoDupKeys t.live := by
  unfold NoDupKeys LHash.live
  rw [List.pairwise_flatten]
  constructor
  · intro l hl
    obtain ⟨b, hb, rfl⟩ := List.mem_map.1 hl
    exact hinv.nodup b hb
  · rw [List.pairwise_map, List.pairwise_iff_getElem]
    intro i j hi hj hij x hx y hy
    by_contra hne
    simp only [Bool.not_eq_false] at hne
    have h1 := hinv.place i t.buckets[i] (by simp [hi]) x hx
    have h2 := hinv.place j t.buckets[j] (by simp [hj]) y hy
    have := bucketIndex_congr hK t hne
    omega

omit [Hashable K] in
theorem foldl_count (l : List (entry K V)) (s : Int) :
    l.foldl (fun s e => if e.key.isSome then s + 1 else s) s = s + (liveE l).length := by
  induction l generalizing s with
  | nil => simp
  | cons e l ihl =>
    rw [List.foldl_cons, ihl]
    cases hk : e.key with
    | none => simp [liveE_cons_none _ _ hk]
    | some k =>
      rw [liveE_cons_some _ _ k hk, List.length_cons]
      simp only [Option.isSome_some, if_true, Nat.cast_add, Nat.cast_one]
      ring

omit [Hashable K] in
theorem validateChain_eq (b : bucket K V) (acc : Int × Int) :
    validateChain b acc = (acc.1 + b.nodes, acc.2 + b.live.length) := by
  induction b generalizing acc with
  | nil => simp [validateChain]
  | mk es next ih =>
    rw [validateChain, ih, foldl_count]
    simp only [nodes_mk, live_mk, List.length_append, Nat.cast_add, Nat.cast_one]
    ext
    · simp only; omega
    · simp only; omega

omit [Hashable K] in
theorem validate_fold (l : List (bucket K V)) (acc : Int × Int) :
    l.foldl (fun acc b => validateChain b acc) acc =
      (acc.1 + ((l.map bucket.nodes).sum : Nat),
        acc.2 + ((l.map (fun b => b.live.length)).sum : Nat)) := by
  induction l generalizing acc with
  | nil => simp
  | cons b l ih =>
    rw [List.foldl_cons, ih, validateChain_eq]
    simp only [List.map_cons, List.sum_cons, Nat.cast_add]
    ext
    · simp only; omega
    · simp only; omega

omit [Hashable K] in
theorem live_length (t : LHash K V) :
    t.live.length = (t.buckets.map (fun b => b.live.length)).sum := by
  simp [LHash.live, List.length_flatten, Function.comp_def]

end

section
variable [Hashable K]

/-! ## The split test in exact arithmetic -/

omit [Hashable K] in
theorem float32_small (n : Int) (h0 : 0 ≤ n) (h1 : n < 2 ^ 24) : float32 n = n := by
  have hn : n.natAbs < 2 ^ 24 := by omega
  simp only [float32, float32Nat, hn, if_true]
  rw [if_neg (by omega)]
  omega

omit [Hashable K] in
theorem wrapInt_small (x : Int) (h0 : -2 ^ 63 ≤ x) (h1 : x < 2 ^ 63) : wrapInt x = x := by
  unfold wrapInt
  omega

omit [Hashable K] in
/-- Below `2 ^ 24` entries and `2 ^ 18` nodes the `float32` test of
`needsSplit` is the exact comparison `size > 48 * bucketCount`. -/
theorem needsSplit_exact (t : LHash K V) (h0 : 0 ≤ t.size) (h1 : t.size < 2 ^ 24)
    (h2 : 0 ≤ t.bucketCount) (h3 : t.bucketCount < 2 ^ 18) :
    t.needsSplit = decide (48 * t.bucketCount < t.size) := by
  have hb : ((bucketCapacity : Nat) : Int) * t.bucketCount = 64 * t.bucketCount := by
    simp [bucketCapacity]
  rw [LHash.needsSplit, hb, wrapInt_small _ (by omega) (by omega), float32_small _ h0 h1,
    float32_small _ (by omega) (by omega)]
  unfold float32QuotGt
  by_cases hz : 64 * t.bucketCount = 0
  · rw [if_pos hz]
    congr 1
    apply propext
    constructor <;> intro h <;> omega
  · rw [if_neg hz, if_pos (by omega)]
    congr 1
    apply propext
    constructor <;> intro h <;> omega

/-! ## The split test above `2 ^ 24` entries -/

theorem log2_mid (n : Nat) (h0 : 2 ^ 24 ≤ n) (h1 : n < 2 ^ 25) : Nat.log2 n = 24 := by
  have hn : n ≠ 0 := by omega
  have a : n.log2 < 25 := (Nat.log2_lt hn).2 h1
  have b : ¬ n.log2 < 24 := fun h => by
    have := (Nat.log2_lt hn).1 h
    omega
  omega

theorem float32Nat_mid (n : Nat) (h0 : 2 ^ 24 ≤ n) (h1 : n < 2 ^ 25) :
    float32Nat n = if n % 4 = 3 then n + 1 else if n % 4 = 1 then n - 1 else n := by
  unfold float32Nat
  rw [if_neg (by omega), log2_mid n h0 h1]
  simp only [Nat.reduceSub, pow_one]
  split_ifs <;> omega

theorem float32_lt25 (n : Int) (h0 : 0 ≤ n) (h1 : n < 2 ^ 25) :
    float32 n ≤ n + n % 2 ∧ (n % 2 = 0 → float32 n = n) := by
  by_cases hs : n < 2 ^ 24
  · rw [float32_small n h0 hs]
    constructor <;> omega
  · have e0 : float32 n = (float32Nat n.natAbs : Int) := by
      unfold float32
      rw [if_neg (by omega)]
    have e := float32Nat_mid n.natAbs (by omega) (by omega)
    rw [e0, e]
    constructor
    · split
      · omega
      · split <;> omega
    · intro he
      rw [if_neg (by omega), if_neg (by omega)]
      omega

omit [Hashable K] in
/-- Below `2 ^ 25` entries and `2 ^ 19` nodes the split test fails when
`size ≤ 48 * bucketCount`. -/
theorem needsSplit_false (t : LHash K V) (h0 : 0 ≤ t.size) (h1 : t.size < 2 ^ 25)
    (h2 : 0 < t.bucketCount) (h3 : t.bucketCount < 2 ^ 19)
    (h : t.size ≤ 48 * t.bucketCount) : t.needsSplit = false := by
  have hb : ((bucketCapacity : Nat) : Int) * t.bucketCount = 64 * t.bucketCount := by
    simp [bucketCapacity]
  obtain ⟨a1, _⟩ := float32_lt25 t.size h0 h1
  obtain ⟨_, b2⟩ := float32_lt25 (64 * t.bucketCount) (by omega) (by omega)
  rw [LHash.needsSplit, hb, wrapInt_small _ (by omega) (by omega), b2 (by omega)]
  unfold float32QuotGt
  rw [if_neg (by omega), if_pos (by omega)]
  simp only [decide_eq_false_iff_not]
  omega

/-- The product `bucketCapacity*bucketCount` wraps: with `2 ^ 58` nodes it is
0, the quotient is `+Inf` and the test holds. -/
theorem needsSplit_wraps :
    ({ (NewLHash : LHash Nat Nat) with size := 1, bucketCount := 2 ^ 58 }).needsSplit =
      true := by
  decide

omit [Hashable K] in
/-- Below `2 ^ 24` entries and `2 ^ 19` nodes the split test holds when
`size > 48 * bucketCount`. -/
theorem needsSplit_true (t : LHash K V) (h1 : t.size < 2 ^ 24)
    (h2 : 0 < t.bucketCount) (h3 : t.bucketCount < 2 ^ 19)
    (h : 48 * t.bucketCount < t.size) : t.needsSplit = true := by
  have hb : ((bucketCapacity : Nat) : Int) * t.bucketCount = 64 * t.bucketCount := by
    simp [bucketCapacity]
  obtain ⟨_, b2⟩ := float32_lt25 (64 * t.bucketCount) (by omega) (by omega)
  rw [LHash.needsSplit, hb, wrapInt_small _ (by omega) (by omega), b2 (by omega),
    float32_small _ (by omega) h1]
  unfold float32QuotGt
  rw [if_neg (by omega), if_pos (by omega)]
  simp only [decide_eq_true_eq]
  omega

omit [Hashable K] in
/-- An odd `size = 48 * bucketCount + 1` from `2 ^ 24` on is rounded down to
`48 * bucketCount` by `float32(size)`, and the split test fails. -/
theorem needsSplit_rounded (t : LHash K V) (h0 : 2 ^ 24 ≤ t.size) (h1 : t.size < 2 ^ 25)
    (h3 : t.bucketCount < 2 ^ 19)
    (h : t.size = 48 * t.bucketCount + 1) : t.needsSplit = false := by
  have hb : ((bucketCapacity : Nat) : Int) * t.bucketCount = 64 * t.bucketCount := by
    simp [bucketCapacity]
  obtain ⟨_, b2⟩ := float32_lt25 (64 * t.bucketCount) (by omega) (by omega)
  have e0 : float32 t.size = (float32Nat t.size.natAbs : Int) := by
    unfold float32
    rw [if_neg (by omega)]
  have e := float32Nat_mid t.size.natAbs (by omega) (by omega)
  rw [LHash.needsSplit, hb, wrapInt_small _ (by omega) (by omega), b2 (by omega), e0, e,
    if_neg (by omega), if_pos (by omega)]
  unfold float32QuotGt
  rw [if_neg (by omega), if_pos (by omega)]
  simp only [decide_eq_false_iff_not]
  omega

omit [Hashable K] in
theorem needsSplit_false_nat (t : LHash K V) (n bc : Nat) (hs : t.size = (n : Int))
    (hb : t.bucketCount = (bc : Int)) (h1 : n < 2 ^ 25) (h2 : 0 < bc) (h3 : bc < 2 ^ 19)
    (h : n ≤ 48 * bc) : t.needsSplit = false := by
  apply needsSplit_false <;> omega

omit [Hashable K] in
theorem needsSplit_true_nat (t : LHash K V) (n bc : Nat) (hs : t.size = (n : Int))
    (hb : t.bucketCount = (bc : Int)) (h1 : n < 2 ^ 24) (h2 : 0 < bc) (h3 : bc < 2 ^ 19)
    (h : 48 * bc < n) : t.needsSplit = true := by
  apply needsSplit_true <;> omega

omit [Hashable K] in
/-- Below `2 ^ 24` entries and `2 ^ 19` nodes the `float32` test of
`needsSplit` is the exact comparison `size > 48 * bucketCount`. -/
theorem needsSplit_exact_wide (t : LHash K V) (h0 : 0 ≤ t.size) (h1 : t.size < 2 ^ 24)
    (h2 : 0 ≤ t.bucketCount) (h3 : t.bucketCount < 2 ^ 19) :
    t.needsSplit = decide (48 * t.bucketCount < t.size) := by
  by_cases hz : t.bucketCount = 0
  · exact needsSplit_exact t h0 h1 h2 (by omega)
  · by_cases h : 48 * t.bucketCount < t.size
    · rw [needsSplit_true t h1 (by omega) h3 h]
      exact (decide_eq_true h).symm
    · rw [needsSplit_false t h0 (by omega) (by omega) h3 (by omega)]
      exact (decide_eq_false h).symm

theorem inv_nonneg {t : LHash K V} (hinv : Inv t) : 0 ≤ t.size ∧ 0 ≤ t.bucketCount := by
  have h1 := hinv.size_eq
  have h2 := hinv.count_eq
  constructor <;> omega

/-! ## The contract -/

/-- C1. Map refinement: after any sequence of `Put` (non-nil values) and
`Remove` calls on `NewLHash()`, keys obeying the `Hashable` contract, the run
succeeds and `Find` of every key returns what the reference map returns after
the same sequence of insert-or-overwrite and delete operations.  The number
of calls is below `2 ^ 63 - 1`, so the bucket array stays within the range of
a Go slice length. -/
theorem find_refines_reference_map (hK : LawfulHashable K) (ops : List (Op K V))
    (hops : ops.length + 2 ≤ 2 ^ 63) :
    ∃ t : LHash K V, runOps ops NewLHash = some t ∧
      ∀ q, t.Find q = some (refRun ops (fun _ => none) q) := by
  obtain ⟨t, h1, h2, h3⟩ := runOps_refines hK ops (NewLHash : LHash K V) (fun _ => none)
    inv_new (by simp only [NewLHash, List.length_cons, List.length_nil]; omega)
    (fun q => by rw [look_new]; rfl)
  refine ⟨t, h1, fun q => ?_⟩
  rw [find_eq_look h2, h3]
  cases refRun ops (fun _ => none) q <;> rfl

theorem find_refines_reference_map_witness :
    LawfulHashable Nat ∧
      [Op.put 1 10, Op.remove 1, Op.put 2 20, Op.put 2 21].length + 2 ≤ 2 ^ 63 ∧
      ∃ t : LHash Nat Nat,
        runOps [Op.put 1 10, Op.remove 1, Op.put 2 20, Op.put 2 21] NewLHash = some t ∧
        ∀ q, t.Find q =
          some (refRun [Op.put 1 10, Op.remove 1, Op.put 2 20, Op.put 2 21]
            (fun _ => none) q) :=
  ⟨lawful_uint, by decide,
    find_refines_reference_map lawful_uint
      [Op.put 1 10, Op.remove 1, Op.put 2 20, Op.put 2 21] (by decide)⟩

/-- C2. Round trip: on every table reachable from `NewLHash()` (bucket array
below `2 ^ 63` buckets), `Put(k, v)` succeeds and `Find(k)` on the result
returns `v`, whether or not the `Put` split the table. -/
theorem put_find_round_trip (hK : LawfulHashable K) (t : LHash K V) (hr : Reachable t)
    (hlen : t.buckets.length < 2 ^ 63) (k : K) (v : Option V) :
    ∃ t1, t.Put k v = some t1 ∧ t1.Find k = some v := by
  have hinv := reachable_inv hK hr (by omega)
  obtain ⟨t1, h1, h2, h3, _⟩ := put_spec_table hK hinv hlen k v
  refine ⟨t1, h1, ?_⟩
  rw [find_eq_look h2, h3, hK.refl]
  rfl

theorem put_find_round_trip_witness :
    LawfulHashable Nat ∧ Reachable (NewLHash : LHash Nat Nat) ∧
      (NewLHash : LHash Nat Nat).buckets.length < 2 ^ 63 ∧
      ∃ t1, (NewLHash : LHash Nat Nat).Put 3 (some 7) = some t1 ∧ t1.Find 3 = some (some 7) :=
  ⟨lawful_uint, Reachable.new, by decide,
    put_find_round_trip lawful_uint NewLHash Reachable.new (by decide) 3 (some 7)⟩

/-- C3. Update semantics: on every reachable table, `Put(k, v1)` followed by
`Put(k, v2)` succeeds, `Find(k)` then returns `v2`, and `Length()` after the
second `Put` equals `Length()` after the first. -/
theorem put_put_update (hK : LawfulHashable K) (t : LHash K V) (hr : Reachable t)
    (hlen : t.buckets.length + 1 < 2 ^ 63) (k : K) (v1 v2 : Option V) :
    ∃ t1 t2, t.Put k v1 = some t1 ∧ t1.Put k v2 = some t2 ∧ t2.Find k = some v2 ∧
      t2.Length = t1.Length := by
  have hinv := reachable_inv hK hr (by omega)
  obtain ⟨t1, h1, h2, h3, _⟩ := put_spec_table hK hinv (by omega) k v1
  have hl := put_length h1
  obtain ⟨t2, g1, g2, g3, g4⟩ := put_spec_table hK h2 (by omega) k v2
  refine ⟨t1, t2, h1, g1, ?_, ?_⟩
  · rw [find_eq_look g2, g3, hK.refl]; rfl
  · rw [LHash.Length, LHash.Length, g4, h3, hK.refl]; rfl

theorem put_put_update_witness :
    LawfulHashable Nat ∧ Reachable (NewLHash : LHash Nat Nat) ∧
      (NewLHash : LHash Nat Nat).buckets.length + 1 < 2 ^ 63 ∧
      ∃ t1 t2, (NewLHash : LHash Nat Nat).Put 3 (some 7) = some t1 ∧
        t1.Put 3 (some 8) = some t2 ∧ t2.Find 3 = some (some 8) ∧ t2.Length = t1.Length :=
  ⟨lawful_uint, Reachable.new, by decide,
    put_put_update lawful_uint NewLHash Reachable.new (by decide) 3 (some 7) (some 8)⟩

/-- C4. Deletion: on every reachable table, `Put(k, v)` followed by
`Remove(k)` succeeds, `Find(k)` then returns nil, and `Length()` is one less
than right after the `Put`. -/
theorem put_remove_delete (hK : LawfulHashable K) (t : LHash K V) (hr : Reachable t)
    (hlen : t.buckets.length < 2 ^ 63) (k : K) (v : Option V) :
    ∃ t1 t2, t.Put k v = some t1 ∧ t1.Remove k = some t2 ∧ t2.Find k = some none ∧
      t2.Length = t1.Length - 1 := by
  have hinv := reachable_inv hK hr (by omega)
  obtain ⟨t1, h1, h2, h3, _⟩ := put_spec_table hK hinv hlen k v
  obtain ⟨t2, g1, g2, g3, g4, _⟩ := remove_spec_table hK h2 k
  refine ⟨t1, t2, h1, g1, ?_, ?_⟩
  · rw [find_eq_look g2, g3, hK.refl]; rfl
  · rw [LHash.Length, LHash.Length, g4, h3, hK.refl]; rfl

theorem put_remove_delete_witness :
    LawfulHashable Nat ∧ Reachable (NewLHash : LHash Nat Nat) ∧
      (NewLHash : LHash Nat Nat).buckets.length < 2 ^ 63 ∧
      ∃ t1 t2, (NewLHash : LHash Nat Nat).Put 3 (some 7) = some t1 ∧
        t1.Remove 3 = some t2 ∧ t2.Find 3 = some none ∧ t2.Length = t1.Length - 1 :=
  ⟨lawful_uint, Reachable.new, by decide,
    put_remove_delete lawful_uint NewLHash Reachable.new (by decide) 3 (some 7)⟩

/-- C5. No duplicate keys: in every reachable table, for every key `k`, at
most one live slot across all nodes of all chains holds a key equal to
`k`. -/
theorem no_duplicate_keys (hK : LawfulHashable K) (t : LHash K V) (hr : Reachable t)
    (hlen : t.buckets.length ≤ 2 ^ 63) (k : K) :
    t.live.countP (fun p => Hashable.Equals p.1 k) ≤ 1 :=
  countP_match_le_one hK k t.live (noDupKeys_live hK (reachable_inv hK hr hlen))

theorem no_duplicate_keys_witness :
    LawfulHashable Nat ∧ Reachable (NewLHash : LHash Nat Nat) ∧
      (NewLHash : LHash Nat Nat).buckets.length ≤ 2 ^ 63 ∧
      (NewLHash : LHash Nat Nat).live.countP (fun p => Hashable.Equals p.1 5) ≤ 1 :=
  ⟨lawful_uint, Reachable.new, by decide,
    no_duplicate_keys lawful_uint NewLHash Reachable.new (by decide) 5⟩

/-- C6. Counter consistency: in every reachable table the cached `size` is
the number of non-empty slots reachable from the bucket heads, the cached
`bucketCount` is the number of nodes reachable from them, and `validate`
reaches neither panic. -/
theorem counters_consistent (hK : LawfulHashable K) (t : LHash K V) (hr : Reachable t)
    (hlen : t.buckets.length ≤ 2 ^ 63) :
    t.size = (t.live.length : Int) ∧ t.bucketCount = (t.nodes : Int) ∧ t.validate = true := by
  have hinv := reachable_inv hK hr hlen
  have h1 := hinv.size_eq
  have h2 := hinv.count_eq
  refine ⟨by rw [live_length]; exact h1, h2, ?_⟩
  simp only [LHash.validate, validate_fold, h1, h2]
  simp

theorem counters_consistent_witness :
    LawfulHashable Nat ∧ Reachable (NewLHash : LHash Nat Nat) ∧
      (NewLHash : LHash Nat Nat).buckets.length ≤ 2 ^ 63 ∧
      ((NewLHash : LHash Nat Nat).size = ((NewLHash : LHash Nat Nat).live.length : Int) ∧
        (NewLHash : LHash Nat Nat).bucketCount = ((NewLHash : LHash Nat Nat).nodes : Int) ∧
        (NewLHash : LHash Nat Nat).validate = true) :=
  ⟨lawful_uint, Reachable.new, by decide,
    counters_consistent lawful_uint NewLHash Reachable.new (by decide)⟩

end

section
variable [Hashable K]

/-- C7, as stated, fails: after `Put(0, 0)` on `NewLHash()` bucket 0 is a
single head node and `bucketCount` is 2; after `Remove(0)` the head is gone,
`buckets[0]` is nil and `bucketCount` is 1. -/
theorem sole_head_counterexample :
    ((NewLHash : LHash Nat Nat).Put 0 (some 0)).map
        (fun t => (t.buckets.map bucket.nodes, t.bucketCount)) = some ([1, 1], 2) ∧
      (((NewLHash : LHash Nat Nat).Put 0 (some 0)).bind (fun t => t.Remove 0)).map
        (fun t => (t.buckets[0]?, t.buckets.map bucket.nodes, t.bucketCount)) =
          some (some bucket.nil, [0, 1], 1) := by
  constructor <;> decide!

/-- C7, amended: `Remove` of the only live entry of a chain that consists of
a single head node unlinks that node, so that the bucket index resolves to
nil, and decrements `bucketCount` and `size` by one; the bucket array keeps
its length. -/
theorem remove_sole_head (hK : LawfulHashable K) (t : LHash K V) (k k0 : K) (v0 : Option V)
    (es : List (entry K V))
    (hc : t.buckets[t.bucketIndex k]? = some (bucket.mk es bucket.nil))
    (hlive : liveE es = [(k0, v0)]) (heq : Hashable.Equals k0 k = true) :
    ∃ t1, t.Remove k = some t1 ∧ t1.buckets[t.bucketIndex k]? = some bucket.nil ∧
      t1.bucketCount = t.bucketCount - 1 ∧ t1.size = t.size - 1 ∧
      t1.buckets.length = t.buckets.length := by
  have hn : NoDupKeys (liveE es) := by rw [hlive]; simp [NoDupKeys]
  obtain ⟨s1, s2, s3⟩ := removeScan_spec hK k es true false hn
  rw [hlive] at s1 s2
  simp only [List.filter_cons, heq, Bool.not_true, Bool.false_eq_true, if_false,
    List.filter_nil] at s1
  simp only [alook_cons, heq, if_true, Option.isSome_some, Bool.or_true] at s2
  rw [s1] at s3
  simp only [List.isEmpty_nil, Bool.and_self] at s3
  have hrem : (bucket.mk es bucket.nil).remove k = (bucket.nil, true, -1) := by
    simp [bucket.remove, s2, s3]
  have hlt := getElem?_lt_length hc
  have hrm : t.Remove k = some { t with
      buckets := t.buckets.set (t.bucketIndex k) bucket.nil
      size := t.size - 1
      bucketCount := t.bucketCount + -1 } := by
    simp only [LHash.Remove, hc, hrem, if_true]
  refine ⟨_, hrm, ?_, ?_, ?_, ?_⟩
  · simp only [List.getElem?_set]; simp [hlt]
  · simp only; omega
  · rfl
  · simp

theorem remove_sole_head_witness :
    LawfulHashable Nat ∧
      soleHeadTable.buckets[soleHeadTable.bucketIndex 0]? =
        some (bucket.mk ((List.replicate bucketCapacity emptyEntry).set 0 ⟨some 0, some 5⟩)
          bucket.nil) ∧
      liveE ((List.replicate bucketCapacity (emptyEntry : entry Nat Nat)).set 0
        ⟨some 0, some 5⟩) = [(0, some 5)] ∧
      Hashable.Equals (0 : Nat) 0 = true ∧
      ∃ t1, soleHeadTable.Remove 0 = some t1 ∧
        t1.buckets[soleHeadTable.bucketIndex 0]? = some bucket.nil ∧
        t1.bucketCount = soleHeadTable.bucketCount - 1 ∧ t1.size = soleHeadTable.size - 1 ∧
        t1.buckets.length = soleHeadTable.buckets.length :=
  ⟨lawful_uint, by decide, by decide, by decide,
    remove_sole_head lawful_uint soleHeadTable 0 0 (some 5)
      ((List.replicate bucketCapacity emptyEntry).set 0 ⟨some 0, some 5⟩)
      (by decide) (by decide) (by decide)⟩

set_option maxRecDepth 1000000 in
/-- C8, as stated, fails: the run `loadOps` ends in a `Put`, after which the
table holds 98 entries in 2 nodes, and `98 - 1 > 48 * 2`. -/
theorem load_bound_counterexample :
    (runOps loadOps (NewLHash : LHash Nat Nat)).map
        (fun t => (t.size, t.bucketCount, decide (t.size - 1 ≤ 48 * t.bucketCount))) =
      some (98, 2, false) := by
  decide!

/-- C8, amended: on every reachable table a `Put` succeeds and grows the
bucket array by at most one bucket; when it does not split (the array keeps
its length) the load factor is at most 0.75, `size ≤ 48 * bucketCount`, for a
table below `2 ^ 24` entries and `2 ^ 18` nodes, where the `float32` test is
exact. -/
theorem put_load_bound (hK : LawfulHashable K) (t : LHash K V) (hr : Reachable t)
    (hlen : t.buckets.length < 2 ^ 63) (k : K) (v : Option V) :
    ∃ t1, t.Put k v = some t1 ∧
      (t1.buckets.length = t.buckets.length ∨ t1.buckets.length = t.buckets.length + 1) ∧
      (t1.buckets.length = t.buckets.length → t1.size < 2 ^ 24 → t1.bucketCount < 2 ^ 18 →
        t1.size ≤ 48 * t1.bucketCount) := by
  have hinv := reachable_inv hK hr (by omega)
  obtain ⟨t1, h1, h2, _⟩ := put_spec_table hK hinv hlen k v
  refine ⟨t1, h1, put_length h1, ?_⟩
  intro hsame hs hb
  obtain ⟨c, hc⟩ := hinv.index_some k
  rw [put_eq t k v c hc] at h1
  by_cases hns : LHash.needsSplit { t with
        buckets := t.buckets.set (t.bucketIndex k) (c.put k v).1
        size := if (c.put k v).2.1 then t.size + 1 else t.size
        bucketCount := t.bucketCount + (c.put k v).2.2 } = true
  · rw [if_pos hns] at h1
    have := split_length h1
    simp only [List.length_set] at this
    omega
  · rw [if_neg hns] at h1
    simp only [Option.some.injEq] at h1
    obtain ⟨n1, n2⟩ := inv_nonneg h2
    rw [h1] at hns
    rw [needsSplit_exact t1 n1 hs n2 hb] at hns
    simpa using hns

theorem put_load_bound_witness :
    LawfulHashable Nat ∧ Reachable (NewLHash : LHash Nat Nat) ∧
      (NewLHash : LHash Nat Nat).buckets.length < 2 ^ 63 ∧
      ∃ t1, (NewLHash : LHash Nat Nat).Put 3 (some 7) = some t1 ∧
        (t1.buckets.length = (NewLHash : LHash Nat Nat).buckets.length ∨
          t1.buckets.length = (NewLHash : LHash Nat Nat).buckets.length + 1) ∧
        (t1.buckets.length = (NewLHash : LHash Nat Nat).buckets.length →
          t1.size < 2 ^ 24 → t1.bucketCount < 2 ^ 18 → t1.size ≤ 48 * t1.bucketCount) :=
  ⟨lawful_uint, Reachable.new, by decide,
    put_load_bound lawful_uint NewLHash Reachable.new (by decide) 3 (some 7)⟩

/-- C9. Idempotent removal: on every reachable table, `Remove(k)` of a key
that no live slot of the table holds succeeds and returns the table as it
was: `size`, `bucketCount`, the bucket array and every chain are unchanged,
and with them the result of every `Find`. -/
theorem remove_absent_unchanged (hK : LawfulHashable K) (t : LHash K V) (hr : Reachable t)
    (hlen : t.buckets.length ≤ 2 ^ 63) (k : K)
    (habs : ∀ p ∈ t.live, Hashable.Equals p.1 k = false) :
    t.Remove k = some t ∧ ∀ q, (t.Remove k).bind (fun t1 => t1.Find q) = t.Find q := by
  have hinv := reachable_inv hK hr hlen
  obtain ⟨c, hc⟩ := hinv.index_some k
  have hnone : alook k c.live = none := by
    rw [alook_eq_none_iff]
    intro p hp
    apply habs p
    simp only [LHash.live, List.mem_flatten, List.mem_map]
    exact ⟨c.live, ⟨c, mem_of_getElem? hc, rfl⟩, hp⟩
  have hrm : t.Remove k = some t := by
    simp only [LHash.Remove, hc, remove_absent k c hnone, set_getElem?_self _ _ _ hc,
      Bool.false_eq_true, if_false, add_zero]
  exact ⟨hrm, fun q => by rw [hrm]; rfl⟩

theorem remove_absent_unchanged_witness :
    LawfulHashable Nat ∧ Reachable (NewLHash : LHash Nat Nat) ∧
      (NewLHash : LHash Nat Nat).buckets.length ≤ 2 ^ 63 ∧
      (∀ p ∈ (NewLHash : LHash Nat Nat).live, Hashable.Equals p.1 4 = false) ∧
      ((NewLHash : LHash Nat Nat).Remove 4 = some NewLHash ∧
        ∀ q, ((NewLHash : LHash Nat Nat).Remove 4).bind (fun t1 => t1.Find q) =
          (NewLHash : LHash Nat Nat).Find q) :=
  ⟨lawful_uint, Reachable.new, by decide, by decide,
    remove_absent_unchanged lawful_uint NewLHash Reachable.new (by decide) 4 (by decide)⟩

set_option maxRecDepth 1000000 in
/-- C10. Sequential-insert split scenario: putting the keys 0, 1, ..., 127 in
order into `NewLHash()` succeeds; the bucket array has 2 buckets after each of
the first 96 puts and 3 buckets after each of the others, so exactly one
split happens, at the 97th put when the occupancy passes 96, and it is the
split of bucket 0 (`splitIndex` goes from 0 to 1); in the end bucket 1 holds
the 64 odd keys, buckets 0 and 2 hold 32 distinct keys each, congruent to 0
and to 2 modulo 4, and `Find` returns the stored value for every key below
128. -/
theorem sequential_insert_split :
    bucketLengths ((List.range 128).map (fun i => Op.put i (hello i))) NewLHash =
        List.replicate 96 2 ++ List.replicate 32 3 ∧
      (putRange 96).map (fun t => (t.buckets.length, t.splitIndex, t.size)) = some (2, 0, 96) ∧
      (putRange 97).map (fun t => (t.buckets.length, t.splitIndex, t.size)) = some (3, 1, 97) ∧
      (putRange 128).map (fun t => (t.buckets.length, t.splitIndex, t.size)) =
        some (3, 1, 128) ∧
      (putRange 128).map (fun t => t.keys[1]?) =
        some (some ((List.range 64).map (fun i => 2 * i + 1))) ∧
      (putRange 128).map (fun t => t.keys[0]?.map (fun ks =>
          (ks.length, decide (ks.Nodup ∧ ∀ k ∈ ks, k % 4 = 0 ∧ k < 128)))) =
        some (some (32, true)) ∧
      (putRange 128).map (fun t => t.keys[2]?.map (fun ks =>
          (ks.length, decide (ks.Nodup ∧ ∀ k ∈ ks, k % 4 = 2 ∧ k < 128)))) =
        some (some (32, true)) ∧
      (putRange 128).map (fun t =>
          (List.range 128).all (fun k => decide (t.Find k = some (some (hello k))))) =
        some true := by
  refine ⟨?_, ?_, ?_, ?_, ?_, ?_, ?_, ?_⟩ <;> decide!

end

section
variable [Hashable K]

/-! ## Structure of the slot loops, independent of the key contract -/

omit [Hashable K] in
theorem mem_liveE (p : K × Option V) (es : List (entry K V)) :
    p ∈ liveE es ↔ ∃ e ∈ es, e.key = some p.1 ∧ e.value = p.2 := by
  induction es with
  | nil => simp
  | cons e es ih =>
    cases hk : e.key with
    | none =>
      rw [liveE_cons_none _ _ hk, ih]
      constructor
      · rintro ⟨e1, h1, h2⟩
        exact ⟨e1, List.mem_cons_of_mem _ h1, h2⟩
      · rintro ⟨e1, h1, h2⟩
        rcases List.mem_cons.1 h1 with h | h
        · subst h; rw [hk] at h2; cases h2.1
        · exact ⟨e1, h, h2⟩
    | some k =>
      rw [liveE_cons_some _ _ k hk, List.mem_cons, ih]
      constructor
      · rintro (h | ⟨e1, h1, h2⟩)
        · subst h
          exact ⟨e, List.mem_cons_self _ _, hk, rfl⟩
        · exact ⟨e1, List.mem_cons_of_mem _ h1, h2⟩
      · rintro ⟨e1, h1, h2⟩
        rcases List.mem_cons.1 h1 with h | h
        · subst h
          left
          rw [hk] at h2
          obtain ⟨h3, h4⟩ := h2
          cases h3
          exact Prod.ext rfl h4.symm
        · exact Or.inr ⟨e1, h, h2⟩

omit [Hashable K] in
theorem liveE_set_ne_nil (es : List (entry K V)) (s : Nat) (hs : s < es.length) (k : K)
    (v : Option V) : liveE (es.set s ⟨some k, v⟩) ≠ [] := by
  intro h
  have hm : (k, v) ∈ liveE (es.set s ⟨some k, v⟩) := by
    rw [mem_liveE]
    exact ⟨⟨some k, v⟩, List.mem_iff_getElem?.2 ⟨s, by rw [List.getElem?_set]; simp [hs]⟩,
      rfl, rfl⟩
  rw [h] at hm
  cases hm

omit [Hashable K] in
theorem mem_liveE_set (es : List (entry K V)) (s : Nat) (k : K) (v : Option V)
    (p : K × Option V) (hp : p ∈ liveE (es.set s ⟨some k, v⟩)) : p = (k, v) ∨ p ∈ liveE es := by
  rw [mem_liveE] at hp
  obtain ⟨e, he, h1, h2⟩ := hp
  rcases List.mem_or_eq_of_mem_set he with h | h
  · right
    rw [mem_liveE]
    exact ⟨e, h, h1, h2⟩
  · left
    subst h
    cases h1
    exact Prod.ext rfl h2.symm

/-- A remembered hole is never forgotten by the loop of `put`. -/
theorem putScan_keeps_slot (key : K) (value : Option V) (es : List (entry K V)) (idx s0 : Nat)
    (s1 : Option Nat) (h : putScan key value es idx (some s0) = .noMatch s1) :
    s1 = some s0 := by
  induction es generalizing idx with
  | nil => simp only [putScan, scanResult.noMatch.injEq] at h; exact h.symm
  | cons e es ih =>
    cases hk : e.key with
    | none =>
      simp only [putScan, hk, Option.isNone_none, Option.isNone_some, Bool.and_false,
        Bool.false_eq_true, if_false] at h
      cases hr : putScan key value es (idx + 1) (some s0) with
      | updated es1 => rw [hr] at h; simp [scanResult.cons] at h
      | noMatch s2 =>
        rw [hr] at h
        simp only [scanResult.cons, scanResult.noMatch.injEq] at h
        subst h
        exact ih (idx + 1) hr
    | some k =>
      simp only [putScan, hk, Option.isNone_some, Bool.false_and, Bool.false_eq_true,
        if_false] at h
      by_cases hm : Hashable.Equals k key = true
      · simp [hm] at h
      · simp only [hm, Bool.false_eq_true, if_false] at h
        cases hr : putScan key value es (idx + 1) (some s0) with
        | updated es1 => rw [hr] at h; simp [scanResult.cons] at h
        | noMatch s2 =>
          rw [hr] at h
          simp only [scanResult.cons, scanResult.noMatch.injEq] at h
          subst h
          exact ih (idx + 1) hr

/-- The loop of `put` that ends with a hole: the hole is the starting value
of `slot` or an index of the scanned slots. -/
theorem putScan_slot (key : K) (value : Option V) (es : List (entry K V)) (idx : Nat)
    (slot : Option Nat) (s : Nat) (h : putScan key value es idx slot = .noMatch (some s)) :
    slot = some s ∨ (idx ≤ s ∧ s - idx < es.length) := by
  induction es generalizing idx slot with
  | nil => simp only [putScan, scanResult.noMatch.injEq] at h; exact Or.inl h
  | cons e es ih =>
    have hstep : ∀ sl : Option Nat,
        (putScan key value es (idx + 1) sl).cons e = .noMatch (some s) →
        sl = some s ∨ (idx + 1 ≤ s ∧ s - (idx + 1) < es.length) := by
      intro sl h1
      cases hr : putScan key value es (idx + 1) sl with
      | updated es1 => rw [hr] at h1; simp [scanResult.cons] at h1
      | noMatch s2 =>
        rw [hr] at h1
        simp only [scanResult.cons, scanResult.noMatch.injEq] at h1
        subst h1
        exact ih (idx + 1) sl hr
    cases hk : e.key with
    | none =>
      cases slot with
      | none =>
        simp only [putScan, hk, Option.isNone_none, Bool.and_self, if_true] at h
        rcases hstep _ h with h1 | h1
        · right
          simp only [Option.some.injEq] at h1
          subst h1
          simp
        · right
          simp only [List.length_cons]
          omega
      | some s0 =>
        simp only [putScan, hk, Option.isNone_none, Option.isNone_some, Bool.and_false,
          Bool.false_eq_true, if_false] at h
        rcases hstep _ h with h1 | h1
        · exact Or.inl h1
        · right
          simp only [List.length_cons]
          omega
    | some k =>
      simp only [putScan, hk, Option.isNone_some, Bool.false_and, Bool.false_eq_true,
        if_false] at h
      by_cases hm : Hashable.Equals k key = true
      · simp [hm] at h
      · simp only [hm, Bool.false_eq_true, if_false] at h
        rcases hstep _ h with h1 | h1
        · exact Or.inl h1
        · right
          simp only [List.length_cons]
          omega

/-- The loop of `put` that ends without a hole has scanned live slots only. -/
theorem putScan_full (key : K) (value : Option V) (es : List (entry K V)) (idx : Nat)
    (slot : Option Nat) (h : putScan key value es idx slot = .noMatch none) :
    (liveE es).length = es.length := by
  induction es generalizing idx slot with
  | nil => rfl
  | cons e es ih =>
    have hstep : ∀ sl : Option Nat,
        (putScan key value es (idx + 1) sl).cons e = .noMatch none →
        putScan key value es (idx + 1) sl = .noMatch none := by
      intro sl h1
      cases hr : putScan key value es (idx + 1) sl with
      | updated es1 => rw [hr] at h1; simp [scanResult.cons] at h1
      | noMatch s2 =>
        rw [hr] at h1
        simp only [scanResult.cons, scanResult.noMatch.injEq] at h1
        rw [h1]
    cases hk : e.key with
    | none =>
      cases slot with
      | none =>
        simp only [putScan, hk, Option.isNone_none, Bool.and_self, if_true] at h
        have := putScan_keeps_slot key value es (idx + 1) idx none (hstep _ h)
        cases this
      | some s0 =>
        simp only [putScan, hk, Option.isNone_none, Option.isNone_some, Bool.and_false,
          Bool.false_eq_true, if_false] at h
        have := putScan_keeps_slot key value es (idx + 1) s0 none (hstep _ h)
        cases this
    | some k =>
      simp only [putScan, hk, Option.isNone_some, Bool.false_and, Bool.false_eq_true,
        if_false] at h
      by_cases hm : Hashable.Equals k key = true
      · simp [hm] at h
      · simp only [hm, Bool.false_eq_true, if_false] at h
        rw [liveE_cons_some _ _ k hk, List.length_cons, List.length_cons,
          ih (idx + 1) slot (hstep _ h)]

/-- The loop of `put` that overwrites a value: the node keeps its slots and
its keys, and is not empty. -/
theorem putScan_updated (key : K) (value : Option V) (es es1 : List (entry K V)) (idx : Nat)
    (slot : Option Nat) (h : putScan key value es idx slot = .updated es1) :
    es1.length = es.length ∧ liveE es1 ≠ [] ∧
      ∀ p ∈ liveE es1, ∃ p0 ∈ liveE es, p0.1 = p.1 := by
  induction es generalizing idx slot es1 with
  | nil => simp [putScan] at h
  | cons e es ih =>
    have hstep : ∀ sl : Option Nat,
        (putScan key value es (idx + 1) sl).cons e = .updated es1 →
        ∃ es2, es1 = e :: es2 ∧ putScan key value es (idx + 1) sl = .updated es2 := by
      intro sl h1
      cases hr : putScan key value es (idx + 1) sl with
      | noMatch s2 => rw [hr] at h1; simp [scanResult.cons] at h1
      | updated es2 =>
        rw [hr] at h1
        simp only [scanResult.cons, scanResult.updated.injEq] at h1
        exact ⟨es2, h1.symm, rfl⟩
    cases hk : e.key with
    | none =>
      have hrec : ∃ sl es2, es1 = e :: es2 ∧
          putScan key value es (idx + 1) sl = .updated es2 := by
        cases slot with
        | none =>
          simp only [putScan, hk, Option.isNone_none, Bool.and_self, if_true] at h
          exact ⟨_, hstep _ h⟩
        | some s0 =>
          simp only [putScan, hk, Option.isNone_none, Option.isNone_some, Bool.and_false,
            Bool.false_eq_true, if_false] at h
          exact ⟨_, hstep _ h⟩
      obtain ⟨sl, es2, rfl, h2⟩ := hrec
      obtain ⟨i1, i2, i3⟩ := ih es2 (idx + 1) sl h2
      rw [liveE_cons_none _ _ hk, liveE_cons_none _ _ hk]
      exact ⟨by simp [i1], i2, i3⟩
    | some k =>
      simp only [putScan, hk, Option.isNone_some, Bool.false_and, Bool.false_eq_true,
        if_false] at h
      by_cases hm : Hashable.Equals k key = true
      · simp only [hm, if_true, scanResult.updated.injEq] at h
        subst h
        rw [liveE_cons_some _ _ k rfl, liveE_cons_some _ _ k hk]
        refine ⟨by simp, by simp, ?_⟩
        intro p hp
        rcases List.mem_cons.1 hp with h1 | h1
        · exact ⟨(k, e.value), List.mem_cons_self _ _, by rw [h1]⟩
        · exact ⟨p, List.mem_cons_of_mem _ h1, rfl⟩
      · simp only [hm, Bool.false_eq_true, if_false] at h
        obtain ⟨es2, rfl, h2⟩ := hstep _ h
        obtain ⟨i1, i2, i3⟩ := ih es2 (idx + 1) slot h2
        rw [liveE_cons_some _ _ k hk, liveE_cons_some _ _ k hk]
        refine ⟨by simp [i1], by simp, ?_⟩
        intro p hp
        rcases List.mem_cons.1 hp with h1 | h1
        · exact ⟨(k, e.value), List.mem_cons_self _ _, by rw [h1]⟩
        · obtain ⟨p0, hp0, hp1⟩ := i3 p h1
          exact ⟨p0, List.mem_cons_of_mem _ hp0, hp1⟩

/-! ## Structure of the loop of `remove` -/

theorem removeScan_length (key : K) (es : List (entry K V)) (empty removed : Bool) :
    (removeScan key es empty removed).1.length = es.length := by
  induction es generalizing empty removed with
  | nil => rfl
  | cons e es ih =>
    cases hk : e.key with
    | none => simp [removeScan, hk, ih]
    | some k =>
      by_cases hm : Hashable.Equals k key = true
      · cases empty <;> simp [removeScan, hk, hm, ih]
      · simp [removeScan, hk, hm, ih]

theorem removeScan_mem (key : K) (es : List (entry K V)) (empty removed : Bool)
    (p : K × Option V) (hp : p ∈ liveE (removeScan key es empty removed).1) : p ∈ liveE es := by
  induction es generalizing empty removed with
  | nil => simp [removeScan] at hp
  | cons e es ih =>
    cases hk : e.key with
    | none =>
      simp only [removeScan, hk] at hp
      rw [liveE_cons_none _ _ hk] at hp ⊢
      exact ih _ _ hp
    | some k =>
      rw [liveE_cons_some _ _ k hk]
      by_cases hm : Hashable.Equals k key = true
      · cases empty with
        | false =>
          simp only [removeScan, hk, hm, if_true, Bool.not_false, liveE_emptyEntry_cons] at hp
          exact List.mem_cons_of_mem _ hp
        | true =>
          simp only [removeScan, hk, hm, if_true, Bool.not_true, Bool.false_eq_true, if_false,
            liveE_emptyEntry_cons] at hp
          exact List.mem_cons_of_mem _ (ih _ _ hp)
      · simp only [removeScan, hk, hm, Bool.false_eq_true, if_false] at hp
        rw [liveE_cons_some _ _ k hk] at hp
        rcases List.mem_cons.1 hp with h | h
        · rw [h]; exact List.mem_cons_self _ _
        · exact List.mem_cons_of_mem _ (ih _ _ h)

/-- A node that the loop of `remove` does not report as empty holds a live
slot after the loop. -/
theorem removeScan_nonempty (key : K) (es : List (entry K V)) (empty removed : Bool)
    (h : (removeScan key es empty removed).2.1 = false) :
    empty = false ∨ liveE (removeScan key es empty removed).1 ≠ [] := by
  induction es generalizing empty removed with
  | nil => left; simpa [removeScan] using h
  | cons e es ih =>
    cases hk : e.key with
    | none =>
      simp only [removeScan, hk] at h ⊢
      rw [liveE_cons_none _ _ hk]
      exact ih _ _ h
    | some k =>
      by_cases hm : Hashable.Equals k key = true
      · cases empty with
        | false => exact Or.inl rfl
        | true =>
          simp only [removeScan, hk, hm, if_true, Bool.not_true, Bool.false_eq_true,
            if_false, liveE_emptyEntry_cons] at h ⊢
          exact ih _ _ h
      · right
        simp only [removeScan, hk, hm, Bool.false_eq_true, if_false]
        rw [liveE_cons_some _ _ k hk]
        simp

theorem removeScan_removed (key : K) (es : List (entry K V)) (empty : Bool) :
    (removeScan key es empty true).2.2 = true := by
  induction es generalizing empty with
  | nil => rfl
  | cons e es ih =>
    cases hk : e.key with
    | none => simp [removeScan, hk, ih]
    | some k =>
      by_cases hm : Hashable.Equals k key = true
      · cases empty <;> simp [removeScan, hk, hm, ih]
      · simp [removeScan, hk, hm, ih]

/-- A loop of `remove` that removes nothing leaves the node as it is. -/
theorem removeScan_keep (key : K) (es : List (entry K V)) (empty : Bool)
    (h : (removeScan key es empty false).2.2 = false) :
    (removeScan key es empty false).1 = es := by
  induction es generalizing empty with
  | nil => rfl
  | cons e es ih =>
    cases hk : e.key with
    | none =>
      simp only [removeScan, hk] at h ⊢
      rw [ih _ h]
    | some k =>
      by_cases hm : Hashable.Equals k key = true
      · cases empty with
        | false => simp [removeScan, hk, hm] at h
        | true =>
          simp only [removeScan, hk, hm, if_true, Bool.not_true, Bool.false_eq_true,
            if_false, removeScan_removed] at h
          cases h
      · simp only [removeScan, hk, hm, Bool.false_eq_true, if_false] at h ⊢
        rw [ih _ h]

/-! ## Shape and keys of a chain after `remove` and `put` -/

theorem remove_mem (key : K) (c : bucket K V) (p : K × Option V)
    (hp : p ∈ (c.remove key).1.live) : p ∈ c.live := by
  induction c with
  | nil => simp [bucket.remove] at hp
  | mk es next ih =>
    simp only [bucket.remove] at hp
    rw [live_mk, List.mem_append]
    split at hp
    · exact Or.inr hp
    · split at hp
      · rw [live_mk, List.mem_append] at hp
        rcases hp with h | h
        · exact Or.inl (removeScan_mem key es _ _ p h)
        · exact Or.inr h
      · rw [live_mk, List.mem_append] at hp
        rcases hp with h | h
        · exact Or.inl (removeScan_mem key es _ _ p h)
        · exact Or.inr (ih h)

theorem remove_capacityOk (key : K) (c : bucket K V) (h : c.capacityOk) :
    (c.remove key).1.capacityOk := by
  induction c with
  | nil => simpa [bucket.remove] using h
  | mk es next ih =>
    obtain ⟨h1, h2⟩ := h
    simp only [bucket.remove]
    split
    · exact h2
    · split
      · exact ⟨by rw [removeScan_length]; exact h1, h2⟩
      · exact ⟨by rw [removeScan_length]; exact h1, ih h2⟩

theorem remove_noEmpty (key : K) (c : bucket K V) (h : c.noEmpty) :
    (c.remove key).1.noEmpty := by
  induction c with
  | nil => simpa [bucket.remove] using h
  | mk es next ih =>
    obtain ⟨h1, h2⟩ := h
    simp only [bucket.remove]
    by_cases hr : (removeScan key es true false).2.2 = true
    · by_cases he : (removeScan key es true false).2.1 = true
      · simp only [hr, he, Bool.and_self, if_true]
        exact h2
      · simp only [Bool.not_eq_true] at he
        simp only [hr, he, Bool.and_false, Bool.false_eq_true, if_false, if_true]
        refine ⟨?_, h2⟩
        rcases removeScan_nonempty key es true false he with h3 | h3
        · cases h3
        · exact h3
    · simp only [Bool.not_eq_true] at hr
      simp only [hr, Bool.false_and, Bool.false_eq_true, if_false]
      refine ⟨?_, ih h2⟩
      rw [removeScan_keep key es true hr]
      exact h1

/-- `remove` keeps the shape of a chain. -/
theorem remove_compact (key : K) (c : bucket K V) (h : c.compact) :
    (c.remove key).1.compact := by
  obtain ⟨h1, h2⟩ := h
  refine ⟨remove_capacityOk key c h1, ?_⟩
  rcases h2 with h2 | ⟨es, rfl⟩
  · exact Or.inl (remove_noEmpty key c h2)
  · simp only [bucket.remove]
    split
    · left; trivial
    · split
      · right; exact ⟨_, rfl⟩
      · right; exact ⟨_, rfl⟩

theorem put_mem (key : K) (value : Option V) (c : bucket K V) (p : K × Option V)
    (hp : p ∈ (c.put key value).1.live) : p.1 = key ∨ ∃ p0 ∈ c.live, p0.1 = p.1 := by
  induction c with
  | nil =>
    left
    simp only [bucket.put, live_mk, live_nil, List.append_nil, liveE_newBucket_set,
      List.mem_singleton] at hp
    rw [hp]
  | mk es next ih =>
    simp only [bucket.put] at hp
    split at hp
    · rename_i es1 h1
      rw [live_mk, List.mem_append] at hp
      rcases hp with h | h
      · obtain ⟨p0, hp0, hp1⟩ := (putScan_updated key value es es1 0 none h1).2.2 p h
        exact Or.inr ⟨p0, by rw [live_mk]; exact List.mem_append_left _ hp0, hp1⟩
      · exact Or.inr ⟨p, by rw [live_mk]; exact List.mem_append_right _ h, rfl⟩
    · rw [live_mk, List.mem_append] at hp
      rcases hp with h | h
      · rcases mem_liveE_set es _ key value p h with h2 | h2
        · left; rw [h2]
        · exact Or.inr ⟨p, by rw [live_mk]; exact List.mem_append_left _ h2, rfl⟩
      · exact Or.inr ⟨p, by rw [live_mk]; exact List.mem_append_right _ (remove_mem key next p h),
          rfl⟩
    · rw [live_mk, List.mem_append] at hp
      rcases hp with h | h
      · exact Or.inr ⟨p, by rw [live_mk]; exact List.mem_append_left _ h, rfl⟩
      · rcases ih h with h2 | ⟨p0, hp0, hp1⟩
        · exact Or.inl h2
        · exact Or.inr ⟨p0, by rw [live_mk]; exact List.mem_append_right _ hp0, hp1⟩

theorem put_capacityOk (key : K) (value : Option V) (c : bucket K V) (h : c.capacityOk) :
    (c.put key value).1.capacityOk := by
  induction c with
  | nil => exact ⟨by simp, trivial⟩
  | mk es next ih =>
    obtain ⟨h1, h2⟩ := h
    simp only [bucket.put]
    split
    · rename_i es1 hs
      exact ⟨by rw [(putScan_updated key value es es1 0 none hs).1]; exact h1, h2⟩
    · exact ⟨by rw [List.length_set]; exact h1, remove_capacityOk key next h2⟩
    · exact ⟨h1, ih h2⟩

/-- After `put` no node of a well-shaped chain is empty. -/
theorem put_noEmpty (key : K) (value : Option V) (c : bucket K V) (h : c.compact) :
    (c.put key value).1.noEmpty := by
  induction c with
  | nil =>
    refine ⟨?_, trivial⟩
    rw [liveE_newBucket_set]
    simp
  | mk es next ih =>
    obtain ⟨⟨h1, h2⟩, h3⟩ := h
    have hnext : next.noEmpty := by
      rcases h3 with h3 | ⟨es0, h3⟩
      · exact h3.2
      · cases h3; trivial
    simp only [bucket.put]
    split
    · rename_i es1 hs
      exact ⟨(putScan_updated key value es es1 0 none hs).2.1, hnext⟩
    · rename_i slot hs
      rcases putScan_slot key value es 0 none slot hs with h4 | h4
      · cases h4
      · exact ⟨liveE_set_ne_nil es slot (by omega) key value, remove_noEmpty key next hnext⟩
    · rename_i hs
      have hfull := putScan_full key value es 0 none hs
      refine ⟨?_, ih ⟨h2, Or.inl hnext⟩⟩
      intro hnil
      rw [hnil, h1] at hfull
      simp [bucketCapacity] at hfull

theorem put_compact (key : K) (value : Option V) (c : bucket K V) (h : c.compact) :
    (c.put key value).1.compact :=
  ⟨put_capacityOk key value c h.1, Or.inl (put_noEmpty key value c h)⟩

end

section
variable [Hashable K]

/-! ## Structure of the loops of `split`, independent of the key contract -/

theorem splitEntries_struct (lh : LHash K V) (sOld : Nat) (es : List (entry K V))
    (bNew : bucket K V) (bc : Int) :
    (splitEntries lh sOld es bNew bc).1.length = es.length ∧
      (splitEntries lh sOld es bNew bc).2.2.2 =
        (liveE (splitEntries lh sOld es bNew bc).1).isEmpty ∧
      (∀ p ∈ liveE (splitEntries lh sOld es bNew bc).1,
        p ∈ liveE es ∧ lh.bucketIndex p.1 = sOld) ∧
      (∀ p ∈ (splitEntries lh sOld es bNew bc).2.1.live,
        (∃ p0 ∈ bNew.live, p0.1 = p.1) ∨
          (∃ p0 ∈ liveE es, p0.1 = p.1 ∧ lh.bucketIndex p0.1 ≠ sOld)) ∧
      (bNew.compact → (splitEntries lh sOld es bNew bc).2.1.compact) := by
  induction es generalizing bNew bc with
  | nil =>
    refine ⟨rfl, rfl, ?_, ?_, fun h => h⟩
    · intro p hp; simp [splitEntries] at hp
    · intro p hp; exact Or.inl ⟨p, hp, rfl⟩
  | cons e es ih =>
    cases hk : e.key with
    | none =>
      obtain ⟨i1, i2, i3, i4, i5⟩ := ih bNew bc
      simp only [splitEntries, hk]
      rw [liveE_cons_none _ _ hk, liveE_cons_none _ _ hk]
      exact ⟨by simp [i1], i2, i3, i4, i5⟩
    | some k =>
      by_cases hs : lh.bucketIndex k = sOld
      · obtain ⟨i1, i2, i3, i4, i5⟩ := ih bNew bc
        simp only [splitEntries, hk, hs, if_true]
        rw [liveE_cons_some _ _ k hk, liveE_cons_some _ _ k hk]
        refine ⟨by simp [i1], by simp, ?_, ?_, i5⟩
        · intro p hp
          rcases List.mem_cons.1 hp with h | h
          · rw [h]; exact ⟨List.mem_cons_self _ _, hs⟩
          · exact ⟨List.mem_cons_of_mem _ (i3 p h).1, (i3 p h).2⟩
        · intro p hp
          rcases i4 p hp with h | ⟨p0, h1, h2⟩
          · exact Or.inl h
          · exact Or.inr ⟨p0, List.mem_cons_of_mem _ h1, h2⟩
      · obtain ⟨i1, i2, i3, i4, i5⟩ :=
          ih (bNew.put k e.value).1 (bc + (bNew.put k e.value).2.2)
        simp only [splitEntries, hk, hs, if_false, liveE_emptyEntry_cons]
        rw [liveE_cons_some _ _ k hk]
        refine ⟨by simp [i1], i2, ?_, ?_, fun h => i5 (put_compact k e.value bNew h)⟩
        · intro p hp
          exact ⟨List.mem_cons_of_mem _ (i3 p hp).1, (i3 p hp).2⟩
        · intro p hp
          rcases i4 p hp with ⟨p0, h1, h2⟩ | ⟨p0, h1, h2⟩
          · rcases put_mem k e.value bNew p0 h1 with h3 | ⟨p1, h3, h4⟩
            · right
              refine ⟨(k, e.value), List.mem_cons_self _ _, ?_, hs⟩
              rw [← h2, h3]
            · exact Or.inl ⟨p1, h3, by rw [h4, h2]⟩
          · exact Or.inr ⟨p0, List.mem_cons_of_mem _ h1, h2⟩

theorem splitChain_struct (lh : LHash K V) (sOld : Nat) (c : bucket K V) (bOldPrevNil : Bool)
    (bNew : bucket K V) (bc : Int) :
    (c.capacityOk → (splitChain lh sOld c bOldPrevNil bNew bc).1.capacityOk) ∧
      ((splitChain lh sOld c bOldPrevNil bNew bc).1.noEmpty ∨
        (bOldPrevNil = true ∧ ∃ es, (splitChain lh sOld c bOldPrevNil bNew bc).1 = .mk es .nil)) ∧
      (∀ p ∈ (splitChain lh sOld c bOldPrevNil bNew bc).1.live,
        p ∈ c.live ∧ lh.bucketIndex p.1 = sOld) ∧
      (∀ p ∈ (splitChain lh sOld c bOldPrevNil bNew bc).2.1.live,
        (∃ p0 ∈ bNew.live, p0.1 = p.1) ∨
          (∃ p0 ∈ c.live, p0.1 = p.1 ∧ lh.bucketIndex p0.1 ≠ sOld)) ∧
      (bNew.compact → (splitChain lh sOld c bOldPrevNil bNew bc).2.1.compact) := by
  induction c generalizing bOldPrevNil bNew bc with
  | nil =>
    refine ⟨fun h => h, Or.inl trivial, ?_, ?_, fun h => h⟩
    · intro p hp; simp [splitChain] at hp
    · intro p hp; exact Or.inl ⟨p, hp, rfl⟩
  | mk es next ih =>
    obtain ⟨e1, e2, e3, e4, e5⟩ := splitEntries_struct lh sOld es bNew bc
    have lift : ∀ (pn : Bool) (d : Int) (p : K × Option V),
        p ∈ (splitChain lh sOld next pn (splitEntries lh sOld es bNew bc).2.1 d).2.1.live →
        (∃ p0 ∈ bNew.live, p0.1 = p.1) ∨
          (∃ p0 ∈ (bucket.mk es next).live, p0.1 = p.1 ∧ lh.bucketIndex p0.1 ≠ sOld) := by
      intro pn d p hp
      rcases (ih pn (splitEntries lh sOld es bNew bc).2.1 d).2.2.2.1 p hp with
        ⟨p0, h1, h2⟩ | ⟨p0, h1, h2⟩
      · rcases e4 p0 h1 with ⟨p1, h3, h4⟩ | ⟨p1, h3, h4⟩
        · exact Or.inl ⟨p1, h3, by rw [h4, h2]⟩
        · exact Or.inr ⟨p1, by rw [live_mk]; exact List.mem_append_left _ h3,
            by rw [h4.1, h2], h4.2⟩
      · exact Or.inr ⟨p0, by rw [live_mk]; exact List.mem_append_right _ h1, h2⟩
    have dropped : ∀ (pn : Bool) (d : Int) (p : K × Option V),
        p ∈ (splitChain lh sOld next pn (splitEntries lh sOld es bNew bc).2.1 d).1.live →
        p ∈ (bucket.mk es next).live ∧ lh.bucketIndex p.1 = sOld := by
      intro pn d p hp
      obtain ⟨h1, h2⟩ := (ih pn (splitEntries lh sOld es bNew bc).2.1 d).2.2.1 p hp
      exact ⟨by rw [live_mk]; exact List.mem_append_right _ h1, h2⟩
    have kept : ∀ (pn : Bool) (d : Int) (p : K × Option V),
        p ∈ (bucket.mk (splitEntries lh sOld es bNew bc).1
          (splitChain lh sOld next pn (splitEntries lh sOld es bNew bc).2.1 d).1).live →
        p ∈ (bucket.mk es next).live ∧ lh.bucketIndex p.1 = sOld := by
      intro pn d p hp
      rw [live_mk, List.mem_append] at hp
      rcases hp with h | h
      · exact ⟨by rw [live_mk]; exact List.mem_append_left _ (e3 p h).1, (e3 p h).2⟩
      · exact dropped pn d p h
    cases hemp : (splitEntries lh sOld es bNew bc).2.2.2 with
    | true =>
      cases bOldPrevNil with
      | false =>
        obtain ⟨j1, j2, _, _, j5⟩ :=
          ih false (splitEntries lh sOld es bNew bc).2.1
            ((splitEntries lh sOld es bNew bc).2.2.1 - 1)
        simp only [splitChain, hemp, if_true, Bool.false_and, Bool.false_eq_true, if_false,
          Bool.not_false]
        refine ⟨fun h => j1 h.2, ?_, dropped _ _, lift _ _, fun h => j5 (e5 h)⟩
        rcases j2 with h | ⟨h, _⟩
        · exact Or.inl h
        · cases h
      | true =>
        cases hnx : next.isNil with
        | false =>
          obtain ⟨j1, j2, _, _, j5⟩ :=
            ih true (splitEntries lh sOld es bNew bc).2.1
              ((splitEntries lh sOld es bNew bc).2.2.1 - 1)
          simp only [splitChain, hemp, if_true, hnx, Bool.not_false, Bool.and_self]
          exact ⟨fun h => j1 h.2, by simpa using j2, dropped _ _, lift _ _, fun h => j5 (e5 h)⟩
        | true =>
          have hnil : next = .nil := by
            cases next with
            | nil => rfl
            | mk _ _ => simp [bucket.isNil] at hnx
          subst hnil
          obtain ⟨_, _, _, _, j5⟩ :=
            ih true (splitEntries lh sOld es bNew bc).2.1
              ((splitEntries lh sOld es bNew bc).2.2.1)
          simp only [splitChain, hemp, if_true, bucket.isNil, Bool.not_true, Bool.and_false,
            Bool.false_eq_true, if_false]
          refine ⟨fun h => ⟨by rw [e1]; exact h.1, trivial⟩, Or.inr ⟨trivial, _, rfl⟩, ?_, ?_,
            fun h => ?_⟩
          · intro p hp
            have := kept true ((splitEntries lh sOld es bNew bc).2.2.1) p
            simp only [splitChain] at this
            exact this hp
          · intro p hp
            have := lift true ((splitEntries lh sOld es bNew bc).2.2.1) p
            simp only [splitChain] at this
            exact this hp
          · have := j5 (e5 h)
            simp only [splitChain] at this
            exact this
    | false =>
      obtain ⟨j1, j2, _, _, j5⟩ :=
        ih false (splitEntries lh sOld es bNew bc).2.1
          ((splitEntries lh sOld es bNew bc).2.2.1)
      simp only [splitChain, hemp, Bool.false_eq_true, if_false]
      refine ⟨fun h => ⟨by rw [e1]; exact h.1, j1 h.2⟩, Or.inl ⟨?_, ?_⟩, kept _ _, lift _ _,
        fun h => j5 (e5 h)⟩
      · rw [e2] at hemp
        intro hnil
        rw [hnil] at hemp
        simp at hemp
      · rcases j2 with h | ⟨h, _⟩
        · exact h
        · cases h

end

section
variable [Hashable K]

/-! ## The shape of the chains of a reachable table -/

/-- The bucket array after `split`, whatever the table. -/
theorem split_unfold {t t1 : LHash K V} (h : t.split = some t1) :
    ∃ (c : bucket K V) (lh2 : LHash K V), t.buckets[t.splitIndex]? = some c ∧
      t1.buckets = ((t.buckets ++ [newBucket]).set t.splitIndex
          (splitChain lh2 t.splitIndex c true newBucket lh2.bucketCount).1).set
        (t.buckets.length + 1 - 1)
        (splitChain lh2 t.splitIndex c true newBucket lh2.bucketCount).2.1 := by
  cases hm : t.buckets[t.splitIndex]? with
  | none => simp [LHash.split, hm] at h
  | some c =>
    simp only [LHash.split, hm, Option.some.injEq] at h
    subst h
    by_cases hc : 2 * ((t.splitIndex + 1) % 2 ^ 64) % 2 ^ 64 =
        (t.buckets ++ [newBucket]).length % 2 ^ 64
    · rw [if_pos hc]
      simp only [List.length_append, List.length_singleton]
      exact ⟨c, _, rfl, rfl⟩
    · rw [if_neg hc]
      simp only [List.length_append, List.length_singleton]
      exact ⟨c, _, rfl, rfl⟩

omit [Hashable K] in
theorem compact_newBucket : (newBucket : bucket K V).compact :=
  ⟨⟨by simp, trivial⟩, Or.inr ⟨_, rfl⟩⟩

theorem split_compact {t t1 : LHash K V} (hc : ∀ b ∈ t.buckets, b.compact)
    (h : t.split = some t1) : ∀ b ∈ t1.buckets, b.compact := by
  obtain ⟨c, lh2, h1, h2⟩ := split_unfold h
  have hcc := hc c (mem_of_getElem? h1)
  obtain ⟨s1, s2, _, _, s5⟩ :=
    splitChain_struct lh2 t.splitIndex c true newBucket lh2.bucketCount
  intro b hb
  rw [h2] at hb
  rcases List.mem_or_eq_of_mem_set hb with hb | hb
  · rcases List.mem_or_eq_of_mem_set hb with hb | hb
    · rcases List.mem_append.1 hb with hb | hb
      · exact hc b hb
      · simp only [List.mem_singleton] at hb
        subst hb
        exact compact_newBucket
    · subst hb
      refine ⟨s1 hcc.1, ?_⟩
      rcases s2 with h3 | ⟨_, h3⟩
      · exact Or.inl h3
      · exact Or.inr h3
  · subst hb
    exact s5 compact_newBucket

/-- Every chain of a reachable table is well-shaped. -/
theorem reachable_compact {t : LHash K V} (hr : Reachable t) : ∀ b ∈ t.buckets, b.compact := by
  induction hr with
  | new =>
    intro b hb
    simp only [NewLHash, List.mem_cons, List.mem_singleton, List.not_mem_nil, or_false,
      or_self] at hb
    subst hb
    exact compact_newBucket
  | @put t t1 k v _ h ih =>
    cases hm : t.buckets[t.bucketIndex k]? with
    | none => simp [LHash.Put, hm] at h
    | some c =>
      have hstep : ∀ b ∈ t.buckets.set (t.bucketIndex k) (c.put k v).1, b.compact := by
        intro b hb
        rcases List.mem_or_eq_of_mem_set hb with hb | hb
        · exact ih b hb
        · subst hb
          exact put_compact k v c (ih c (mem_of_getElem? hm))
      rw [put_eq t k v c hm] at h
      by_cases hns : LHash.needsSplit { t with
            buckets := t.buckets.set (t.bucketIndex k) (c.put k v).1
            size := if (c.put k v).2.1 then t.size + 1 else t.size
            bucketCount := t.bucketCount + (c.put k v).2.2 } = true
      · rw [if_pos hns] at h
        exact split_compact hstep h
      · rw [if_neg hns] at h
        cases h
        exact hstep
  | @remove t t1 k _ h ih =>
    cases hm : t.buckets[t.bucketIndex k]? with
    | none => simp [LHash.Remove, hm] at h
    | some c =>
      simp only [LHash.Remove, hm, Option.some.injEq] at h
      subst h
      intro b hb
      rcases List.mem_or_eq_of_mem_set hb with hb | hb
      · exact ih b hb
      · subst hb
        exact remove_compact k c (ih c (mem_of_getElem? hm))

/-! ## Addressing and placement, independent of the key contract -/

theorem shape_index_lt {t : LHash K V} (hs : Shape t) (key : K) :
    t.bucketIndex key < t.buckets.length := by
  obtain ⟨j, _, h1, h2, h3, h4⟩ := hs.addr
  have hj := addr_j_le h4 hs.small
  rw [bucketIndex_mod t j (by omega) h1 h2, h4]
  have hpos : 0 < 2 ^ j := Nat.two_pow_pos j
  have hlt := Nat.mod_lt (Hashable.Hash key) hpos
  have hd := mod_double (Hashable.Hash key) (2 ^ j)
  have hp : 2 ^ (j + 1) = 2 * 2 ^ j := by rw [pow_succ]; omega
  rw [hp]
  split <;> omega

theorem shape_index_some {t : LHash K V} (hs : Shape t) (key : K) :
    ∃ b, t.buckets[t.bucketIndex key]? = some b := by
  have := shape_index_lt hs key
  exact ⟨t.buckets[t.bucketIndex key], by simp [this]⟩

theorem shape_split_lt {t : LHash K V} (hs : Shape t) : t.splitIndex < t.buckets.length := by
  obtain ⟨j, _, _, _, h3, h4⟩ := hs.addr
  omega

theorem shape_new : Shape (NewLHash : LHash K V) :=
  ⟨inv_new.addr, inv_new.small, inv_new.place⟩

theorem Inv.shape {t : LHash K V} (hinv : Inv t) : Shape t :=
  ⟨hinv.addr, hinv.small, hinv.place⟩

/-- Replacing one chain by a chain whose keys address it keeps the shape. -/
theorem shape_set {t : LHash K V} (hs : Shape t) (i : Nat) (c c1 : bucket K V)
    (hc : t.buckets[i]? = some c) (hplace : ∀ p ∈ c1.live, t.bucketIndex p.1 = i)
    (size1 bc1 : Int) :
    Shape { t with buckets := t.buckets.set i c1, size := size1, bucketCount := bc1 } where
  addr := by
    obtain ⟨j, h0, h1, h2, h3, h4⟩ := hs.addr
    exact ⟨j, h0, h1, h2, h3, by simpa using h4⟩
  small := by simpa using hs.small
  place := by
    intro n b hb1 p hp
    have hidx : ∀ key : K, LHash.bucketIndex
        { t with buckets := t.buckets.set i c1, size := size1, bucketCount := bc1 } key =
        t.bucketIndex key := fun key => rfl
    rw [hidx]
    simp only [List.getElem?_set] at hb1
    by_cases hin : i = n
    · subst hin
      simp only [if_true, getElem?_lt_length hc, Option.some.injEq] at hb1
      subst hb1
      exact hplace p hp
    · simp only [hin, if_false] at hb1
      exact hs.place n b hb1 p hp

/-- One split of a well-addressed table: it succeeds, and the result has the
addressing state of the next step and every key in the chain it addresses. -/
theorem shape_split {t : LHash K V} (hs : Shape t) (hlen : t.buckets.length < 2 ^ 63) :
    ∃ t1, t.split = some t1 ∧ Shape t1 ∧
      ((t.splitIndex = t.maskLow ∧ t1.splitIndex = 0 ∧ t1.maskLow = t.maskHigh ∧
          t1.maskHigh = 2 * t.maskHigh + 1) ∨
        (t.splitIndex < t.maskLow ∧ t1.splitIndex = t.splitIndex + 1 ∧
          t1.maskLow = t.maskLow ∧ t1.maskHigh = t.maskHigh)) ∧
      (∀ key, (t.bucketIndex key ≠ t.splitIndex → t1.bucketIndex key = t.bucketIndex key) ∧
        (t.bucketIndex key = t.splitIndex →
          t1.bucketIndex key = t.splitIndex ∨ t1.bucketIndex key = t.buckets.length)) := by
  obtain ⟨j, h0, h1, h2, h3, h4⟩ := hs.addr
  have hslt : t.splitIndex < t.buckets.length := by omega
  have hc : t.buckets[t.splitIndex]? = some t.buckets[t.splitIndex] := by simp [hslt]
  generalize t.buckets[t.splitIndex] = c at hc
  obtain ⟨t2, e1, e2, e3, hstep, heq⟩ := split_eq t j h3 h1 h2 h4 hlen c hc
  obtain ⟨_, _, r3, r4, _⟩ :=
    splitChain_struct t2 t.splitIndex c true newBucket t2.bucketCount
  have hB := set_set_append t.buckets t.splitIndex hslt
    (splitChain t2 t.splitIndex c true newBucket t2.bucketCount).1
    (splitChain t2 t.splitIndex c true newBucket t2.bucketCount).2.1 newBucket
  rw [e1] at heq
  rw [hB] at heq
  generalize splitChain t2 t.splitIndex c true newBucket t2.bucketCount = r at *
  have hst := index_step t t2 j h1 h2 h4 hlen hstep
  have hget : ∀ i, i < t.buckets.length →
      (t.buckets.set t.splitIndex r.1 ++ [r.2.1])[i]? =
        if t.splitIndex = i then some r.1 else t.buckets[i]? := by
    intro i hi
    rw [List.getElem?_append_left (by simpa using hi), List.getElem?_set]
    simp [hslt]
  have hlast : (t.buckets.set t.splitIndex r.1 ++ [r.2.1])[t.buckets.length]? =
      some r.2.1 := by
    rw [List.getElem?_append_right (by simp)]
    simp
  have hpos : 2 ≤ 2 ^ j := by
    calc 2 = 2 ^ 1 := rfl
      _ ≤ 2 ^ j := Nat.pow_le_pow_right (by norm_num) h0
  have hp1 : 2 ^ (j + 1) = 2 * 2 ^ j := by rw [pow_succ]; omega
  have hp2 : 2 ^ (j + 2) = 4 * 2 ^ j := by rw [pow_succ, pow_succ]; omega
  refine ⟨_, heq, ⟨?_, by simp; omega, ?_⟩, ?_, hst⟩
  · rcases hstep with ⟨s1, s2, s3, s4⟩ | ⟨s1, s2, s3, s4⟩
    · refine ⟨j + 1, by omega, s3, s4, ?_, ?_⟩
      · simp only [s2]; exact Nat.two_pow_pos _
      · simp only [s2, List.length_append, List.length_set, List.length_singleton]
        rw [pow_succ]; omega
    · refine ⟨j, h0, s3, s4, ?_, ?_⟩
      · simp only [s2]; omega
      · simp only [s2, List.length_append, List.length_set, List.length_singleton]
        omega
  · intro i b hb p hp
    have hidx : ∀ key : K, LHash.bucketIndex
        { t2 with buckets := t.buckets.set t.splitIndex r.1 ++ [r.2.1],
                  bucketCount := r.2.2 } key = t2.bucketIndex key := fun key => rfl
    rw [hidx]
    simp only at hb
    by_cases hi : i < t.buckets.length
    · rw [hget i hi] at hb
      by_cases hsi : t.splitIndex = i
      · simp only [hsi, if_true, Option.some.injEq] at hb
        subst hb
        rw [← hsi]
        exact (r3 p hp).2
      · simp only [hsi, if_false] at hb
        have hold := hs.place i b hb p hp
        rw [(hst p.1).1 (by rw [hold]; exact fun h => hsi h.symm), hold]
    · have hi2 : i = t.buckets.length := by
        have := getElem?_lt_length hb
        simp at this
        omega
      subst hi2
      rw [hlast] at hb
      simp only [Option.some.injEq] at hb
      subst hb
      rcases r4 p hp with ⟨p0, h5, _⟩ | ⟨p0, h5, h6, h7⟩
      · simp at h5
      · have hold := hs.place _ c hc p0 h5
        rw [← h6]
        rcases (hst p0.1).2 hold with h | h
        · exact absurd h h7
        · exact h
  · rcases hstep with ⟨s1, s2, s3, s4⟩ | ⟨s1, s2, s3, s4⟩
    · left
      refine ⟨by omega, s2, by rw [s3, h2], ?_⟩
      show t2.maskHigh = 2 * t.maskHigh + 1
      rw [s4, h2]; omega
    · right
      exact ⟨by omega, s2, by rw [s3, h1], by rw [s4, h2]⟩

/-- The table after the chain mutation of `Put` keeps the shape. -/
theorem shape_put_step {t : LHash K V} (hs : Shape t) (key : K) (value : Option V)
    (c : bucket K V) (hc : t.buckets[t.bucketIndex key]? = some c) :
    Shape { t with
      buckets := t.buckets.set (t.bucketIndex key) (c.put key value).1
      size := if (c.put key value).2.1 then t.size + 1 else t.size
      bucketCount := t.bucketCount + (c.put key value).2.2 } := by
  apply shape_set hs (t.bucketIndex key) c _ hc
  intro p hp
  rcases put_mem key value c p hp with h | ⟨p0, h1, h2⟩
  · rw [h]
  · rw [← h2]; exact hs.place _ c hc p0 h1

theorem shape_put {t t1 : LHash K V} (hs : Shape t) (key : K) (value : Option V)
    (h : t.Put key value = some t1) (hlen : t1.buckets.length ≤ 2 ^ 63) : Shape t1 := by
  obtain ⟨c, hc⟩ := shape_index_some hs key
  have hs1 := shape_put_step hs key value c hc
  rw [put_eq t key value c hc] at h
  by_cases hns : LHash.needsSplit { t with
        buckets := t.buckets.set (t.bucketIndex key) (c.put key value).1
        size := if (c.put key value).2.1 then t.size + 1 else t.size
        bucketCount := t.bucketCount + (c.put key value).2.2 } = true
  · rw [if_pos hns] at h
    have hl := split_length h
    simp only [List.length_set] at hl
    obtain ⟨t2, s1, s2, _⟩ := shape_split hs1 (by simp only [List.length_set]; omega)
    rw [s1] at h
    cases h
    exact s2
  · rw [if_neg hns] at h
    cases h
    exact hs1

theorem shape_remove {t t1 : LHash K V} (hs : Shape t) (key : K)
    (h : t.Remove key = some t1) : Shape t1 := by
  obtain ⟨c, hc⟩ := shape_index_some hs key
  simp only [LHash.Remove, hc, Option.some.injEq] at h
  subst h
  apply shape_set hs (t.bucketIndex key) c _ hc
  intro p hp
  exact hs.place _ c hc p (remove_mem key c p hp)

/-- Every reachable table within the slice bound is well-addressed. -/
theorem reachable_shape {t : LHash K V} (hr : Reachable t)
    (hlen : t.buckets.length ≤ 2 ^ 63) : Shape t := by
  induction hr with
  | new => exact shape_new
  | put k v _ h ih =>
    have hl := put_length h
    exact shape_put (ih (by omega)) k v h hlen
  | remove k _ h ih =>
    have hl := remove_length h
    exact shape_remove (ih (by omega)) k h

end

section
variable [Hashable K]

/-! ## `Put` in two parts, and the detail of `split` -/

theorem putMutate_eq (t : LHash K V) (key : K) (value : Option V) (c : bucket K V)
    (hc : t.buckets[t.bucketIndex key]? = some c) :
    t.putMutate key value = some { t with
      buckets := t.buckets.set (t.bucketIndex key) (c.put key value).1
      size := if (c.put key value).2.1 then t.size + 1 else t.size
      bucketCount := t.bucketCount + (c.put key value).2.2 } := by
  simp only [LHash.putMutate, hc]

/-- `Put` is its first part followed by the split test. -/
theorem put_eq_mutate (t : LHash K V) (key : K) (value : Option V) :
    t.Put key value =
      (t.putMutate key value).bind (fun ta => if ta.needsSplit = true then ta.split else some ta) := by
  cases hm : t.buckets[t.bucketIndex key]? with
  | none => simp [LHash.Put, LHash.putMutate, hm]
  | some c => rw [put_eq t key value c hm, putMutate_eq t key value c hm]; rfl

/-- What a `Put` does to the addressing state of a well-addressed table. -/
theorem put_addr {t t1 : LHash K V} (hs : Shape t) (hlen : t.buckets.length < 2 ^ 63) (key : K)
    (value : Option V) (h : t.Put key value = some t1) :
    (t1.buckets.length = t.buckets.length ∧ t1.splitIndex = t.splitIndex ∧
        t1.maskLow = t.maskLow ∧ t1.maskHigh = t.maskHigh) ∨
      (t1.buckets.length = t.buckets.length + 1 ∧
        ((t.splitIndex = t.maskLow ∧ t1.splitIndex = 0 ∧ t1.maskLow = t.maskHigh ∧
            t1.maskHigh = 2 * t.maskHigh + 1) ∨
          (t.splitIndex < t.maskLow ∧ t1.splitIndex = t.splitIndex + 1 ∧
            t1.maskLow = t.maskLow ∧ t1.maskHigh = t.maskHigh))) := by
  obtain ⟨c, hc⟩ := shape_index_some hs key
  have hs1 := shape_put_step hs key value c hc
  rw [put_eq t key value c hc] at h
  by_cases hns : LHash.needsSplit { t with
        buckets := t.buckets.set (t.bucketIndex key) (c.put key value).1
        size := if (c.put key value).2.1 then t.size + 1 else t.size
        bucketCount := t.bucketCount + (c.put key value).2.2 } = true
  · rw [if_pos hns] at h
    have hl := split_length h
    simp only [List.length_set] at hl
    obtain ⟨t2, s1, _, s3, _⟩ := shape_split hs1 (by simp only [List.length_set]; omega)
    rw [s1] at h
    cases h
    exact Or.inr ⟨hl, s3⟩
  · rw [if_neg hns] at h
    cases h
    exact Or.inl ⟨by simp, rfl, rfl, rfl⟩

/-- The two chains that `split` produces from the chain at `splitIndex`. -/
theorem split_detail (hK : LawfulHashable K) {t : LHash K V} (hinv : Inv t)
    (hlen : t.buckets.length < 2 ^ 63) :
    ∃ t1 c cs cn, t.split = some t1 ∧ t.buckets[t.splitIndex]? = some c ∧
      t1.buckets = t.buckets.set t.splitIndex cs ++ [cn] ∧
      cs.live = c.live.filter (fun p => decide (t1.bucketIndex p.1 = t.splitIndex)) ∧
      cn.live.Perm
        (c.live.filter (fun p => !decide (t1.bucketIndex p.1 = t.splitIndex))) := by
  obtain ⟨j, h0, h1, h2, h3, h4⟩ := hinv.addr
  have hslt : t.splitIndex < t.buckets.length := by omega
  have hc : t.buckets[t.splitIndex]? = some t.buckets[t.splitIndex] := by simp [hslt]
  generalize t.buckets[t.splitIndex] = c at hc
  obtain ⟨t2, e1, e2, e3, hstep, heq⟩ := split_eq t j h3 h1 h2 h4 hlen c hc
  have hn := hinv.nodup c (mem_of_getElem? hc)
  obtain ⟨r1, r2, _⟩ := splitChain_spec hK t2 t.splitIndex c true newBucket t2.bucketCount
    (by simpa using hn)
  simp only [live_newBucket, List.append_nil] at r2
  have hB := set_set_append t.buckets t.splitIndex hslt
    (splitChain t2 t.splitIndex c true newBucket t2.bucketCount).1
    (splitChain t2 t.splitIndex c true newBucket t2.bucketCount).2.1 newBucket
  rw [e1] at heq
  rw [hB] at heq
  exact ⟨_, c, _, _, heq, hc, rfl, r1, r2⟩

end

section
variable [Hashable K]

/-- C12. Addressing-state invariant: in every reachable table (bucket array
of at most `2 ^ 63` buckets, so that the masks do not wrap),
`maskHigh = 2 * maskLow + 1` and `0 ≤ splitIndex ≤ len(buckets) / 2`. -/
theorem addressing_state (t : LHash K V) (hr : Reachable t)
    (hlen : t.buckets.length ≤ 2 ^ 63) :
    t.maskHigh = 2 * t.maskLow + 1 ∧ 0 ≤ t.splitIndex ∧
      t.splitIndex ≤ t.buckets.length / 2 := by
  obtain ⟨j, h0, h1, h2, h3, h4⟩ := (reachable_shape hr hlen).addr
  have hpos : 0 < 2 ^ j := Nat.two_pow_pos j
  have hp1 : 2 ^ (j + 1) = 2 * 2 ^ j := by rw [pow_succ]; omega
  refine ⟨by omega, Nat.zero_le _, by omega⟩

theorem addressing_state_witness :
    Reachable (NewLHash : LHash Nat Nat) ∧ (NewLHash : LHash Nat Nat).buckets.length ≤ 2 ^ 63 ∧
      ((NewLHash : LHash Nat Nat).maskHigh = 2 * (NewLHash : LHash Nat Nat).maskLow + 1 ∧
        0 ≤ (NewLHash : LHash Nat Nat).splitIndex ∧
        (NewLHash : LHash Nat Nat).splitIndex ≤ (NewLHash : LHash Nat Nat).buckets.length / 2) :=
  ⟨Reachable.new, by decide, addressing_state NewLHash Reachable.new (by decide)⟩

/-- C13. Split trigger, as the code has it: on every reachable table `Put`
succeeds; with `ta` the table after the chain mutation and the counter
update, `Put` returns `ta.split` (one split, the bucket array one bucket
longer) when the `float32` load test `needsSplit` holds on `ta`, and returns
`ta` itself (bucket array, `splitIndex`, `maskLow` and `maskHigh` unchanged)
when it does not; the array never grows by more than one; and for a table
below `2 ^ 24` entries and `2 ^ 19` nodes, where the `float32` computation is
exact, the load test is `size > 48 * bucketCount`. -/
theorem put_split_trigger (t : LHash K V) (hr : Reachable t)
    (hlen : t.buckets.length < 2 ^ 63) (k : K) (v : Option V) :
    ∃ ta t1, t.putMutate k v = some ta ∧ t.Put k v = some t1 ∧
      (ta.needsSplit = true → ta.split = some t1 ∧
        t1.buckets.length = t.buckets.length + 1) ∧
      (ta.needsSplit = false → t1 = ta ∧ t1.buckets.length = t.buckets.length ∧
        t1.splitIndex = t.splitIndex ∧ t1.maskLow = t.maskLow ∧ t1.maskHigh = t.maskHigh) ∧
      t1.buckets.length ≤ t.buckets.length + 1 ∧
      (0 ≤ ta.size → ta.size < 2 ^ 24 → 0 ≤ ta.bucketCount → ta.bucketCount < 2 ^ 19 →
        (ta.needsSplit = true ↔ 48 * ta.bucketCount < ta.size)) := by
  have hs := reachable_shape hr (by omega)
  obtain ⟨c, hc⟩ := shape_index_some hs k
  have hs1 := shape_put_step hs k v c hc
  have hput := put_eq t k v c hc
  by_cases hns : LHash.needsSplit { t with
        buckets := t.buckets.set (t.bucketIndex k) (c.put k v).1
        size := if (c.put k v).2.1 then t.size + 1 else t.size
        bucketCount := t.bucketCount + (c.put k v).2.2 } = true
  · obtain ⟨t2, s1, _⟩ := shape_split hs1 (by simp only [List.length_set]; omega)
    have hl := split_length s1
    simp only [List.length_set] at hl
    rw [if_pos hns, s1] at hput
    refine ⟨_, t2, putMutate_eq t k v c hc, hput, fun _ => ⟨s1, hl⟩, fun h => ?_, by omega, ?_⟩
    · rw [hns] at h; cases h
    · intro n0 n1 n2 n3
      rw [needsSplit_exact_wide _ n0 n1 n2 n3]
      simp
  · rw [if_neg hns] at hput
    refine ⟨_, _, putMutate_eq t k v c hc, hput, fun h => absurd h hns,
      fun _ => ⟨rfl, by simp, rfl, rfl, rfl⟩, by simp, ?_⟩
    intro n0 n1 n2 n3
    rw [needsSplit_exact_wide _ n0 n1 n2 n3]
    simp

theorem put_split_trigger_witness :
    Reachable (NewLHash : LHash Nat Nat) ∧ (NewLHash : LHash Nat Nat).buckets.length < 2 ^ 63 ∧
      ∃ ta t1, (NewLHash : LHash Nat Nat).putMutate 3 (some 7) = some ta ∧
        (NewLHash : LHash Nat Nat).Put 3 (some 7) = some t1 ∧
        (ta.needsSplit = true → ta.split = some t1 ∧
          t1.buckets.length = (NewLHash : LHash Nat Nat).buckets.length + 1) ∧
        (ta.needsSplit = false → t1 = ta ∧
          t1.buckets.length = (NewLHash : LHash Nat Nat).buckets.length ∧
          t1.splitIndex = (NewLHash : LHash Nat Nat).splitIndex ∧
          t1.maskLow = (NewLHash : LHash Nat Nat).maskLow ∧
          t1.maskHigh = (NewLHash : LHash Nat Nat).maskHigh) ∧
        t1.buckets.length ≤ (NewLHash : LHash Nat Nat).buckets.length + 1 ∧
        (0 ≤ ta.size → ta.size < 2 ^ 24 → 0 ≤ ta.bucketCount → ta.bucketCount < 2 ^ 19 →
          (ta.needsSplit = true ↔ 48 * ta.bucketCount < ta.size)) :=
  ⟨Reachable.new, by decide, put_split_trigger NewLHash Reachable.new (by decide) 3 (some 7)⟩

/-- C14. Split preserves contents: on every reachable table `split` succeeds
and changes neither `Length()` nor the result of `Find` for any key; the
chain at the old `splitIndex` keeps exactly its live entries whose recomputed
bucket index is that index, the chain of the appended last bucket holds
exactly the others, and every other chain is untouched. -/
theorem split_preserves_contents (hK : LawfulHashable K) (t : LHash K V) (hr : Reachable t)
    (hlen : t.buckets.length < 2 ^ 63) :
    ∃ t1 c cs cn, t.split = some t1 ∧ t1.Length = t.Length ∧
      (∀ k, t1.Find k = t.Find k) ∧
      t.buckets[t.splitIndex]? = some c ∧
      t1.buckets = t.buckets.set t.splitIndex cs ++ [cn] ∧
      cs.live = c.live.filter (fun p => decide (t1.bucketIndex p.1 = t.splitIndex)) ∧
      cn.live.Perm
        (c.live.filter (fun p => !decide (t1.bucketIndex p.1 = t.splitIndex))) ∧
      (∀ i, i < t.buckets.length → i ≠ t.splitIndex → t1.buckets[i]? = t.buckets[i]?) := by
  have hinv := reachable_inv hK hr (by omega)
  obtain ⟨t1, c, cs, cn, d1, d2, d3, d4, d5⟩ := split_detail hK hinv hlen
  obtain ⟨t2, s1, s2, s3, _, s5⟩ := split_spec hK hinv hlen
  rw [d1] at s1
  cases s1
  refine ⟨t1, c, cs, cn, d1, s3, ?_, d2, d3, d4, d5, ?_⟩
  · intro k
    rw [find_eq_look s2, find_eq_look hinv, s5]
  · intro i hi hne
    rw [d3, List.getElem?_append_left (by simpa using hi), List.getElem?_set,
      if_neg (fun h => hne h.symm)]

theorem split_preserves_contents_witness :
    LawfulHashable Nat ∧ Reachable (NewLHash : LHash Nat Nat) ∧
      (NewLHash : LHash Nat Nat).buckets.length < 2 ^ 63 ∧
      ∃ t1 c cs cn, (NewLHash : LHash Nat Nat).split = some t1 ∧
        t1.Length = (NewLHash : LHash Nat Nat).Length ∧
        (∀ k, t1.Find k = (NewLHash : LHash Nat Nat).Find k) ∧
        (NewLHash : LHash Nat Nat).buckets[(NewLHash : LHash Nat Nat).splitIndex]? = some c ∧
        t1.buckets =
          (NewLHash : LHash Nat Nat).buckets.set (NewLHash : LHash Nat Nat).splitIndex cs ++
            [cn] ∧
        cs.live = c.live.filter
          (fun p => decide (t1.bucketIndex p.1 = (NewLHash : LHash Nat Nat).splitIndex)) ∧
        cn.live.Perm (c.live.filter
          (fun p => !decide (t1.bucketIndex p.1 = (NewLHash : LHash Nat Nat).splitIndex))) ∧
        (∀ i, i < (NewLHash : LHash Nat Nat).buckets.length →
          i ≠ (NewLHash : LHash Nat Nat).splitIndex →
          t1.buckets[i]? = (NewLHash : LHash Nat Nat).buckets[i]?) :=
  ⟨lawful_uint, Reachable.new, by decide,
    split_preserves_contents lawful_uint NewLHash Reachable.new (by decide)⟩

/-- C15. Chain put accounting: for a chain (possibly nil) without two live
slots of equal keys, `put` returns `added = true` exactly when no live slot
of the chain held the key, the number of live slots grows by one when
`added` and stays otherwise, and the number of nodes grows by the returned
`chainDelta`. -/
theorem put_accounting (hK : LawfulHashable K) (c : bucket K V) (hn : NoDupKeys c.live)
    (key : K) (value : Option V) :
    ((c.put key value).2.1 = true ↔ ∀ p ∈ c.live, Hashable.Equals p.1 key = false) ∧
      (c.put key value).1.live.length =
        c.live.length + (if (c.put key value).2.1 then 1 else 0) ∧
      ((c.put key value).1.nodes : Int) = c.nodes + (c.put key value).2.2 := by
  obtain ⟨k1, _, _, p3, p4, p5⟩ := put_spec hK key value c hn
  have hl := length_filter_not_match hK key c.live hn
  have hlen := p3.length_eq
  simp only [List.length_cons] at hlen
  refine ⟨?_, ?_, p5⟩
  · rw [p4, ← alook_eq_none_iff]
    cases alook key c.live <;> simp
  · rw [p4, hlen]
    cases hs : (alook key c.live).isSome
    · rw [hs] at hl
      simp only [Bool.false_eq_true, if_false] at hl
      simp only [Bool.not_false, if_true]
      omega
    · rw [hs] at hl
      simp only [if_true] at hl
      simp only [Bool.not_true, Bool.false_eq_true, if_false]
      omega

theorem put_accounting_witness :
    LawfulHashable Nat ∧ NoDupKeys holeChain.live ∧
      (((holeChain.put 4 (some 9)).2.1 = true ↔
          ∀ p ∈ holeChain.live, Hashable.Equals p.1 4 = false) ∧
        (holeChain.put 4 (some 9)).1.live.length =
          holeChain.live.length + (if (holeChain.put 4 (some 9)).2.1 then 1 else 0) ∧
        ((holeChain.put 4 (some 9)).1.nodes : Int) =
          holeChain.nodes + (holeChain.put 4 (some 9)).2.2) :=
  ⟨lawful_uint, by unfold NoDupKeys; decide,
    put_accounting lawful_uint holeChain (by unfold NoDupKeys; decide) 4 (some 9)⟩

end

section
variable [Hashable K]

/-- C17. Index in range: in every reachable table with at most `2 ^ 63`
buckets, `bucketIndex(key)` and `splitIndex` are below `len(buckets)`, so
`Find` and `Remove` do not panic, and neither do `Put` and `split` while the
bucket array can still take one more bucket. -/
theorem index_in_range (t : LHash K V) (hr : Reachable t) (hlen : t.buckets.length ≤ 2 ^ 63)
    (key : K) :
    t.bucketIndex key < t.buckets.length ∧ t.splitIndex < t.buckets.length ∧
      t.Find key ≠ none ∧ t.Remove key ≠ none ∧
      (t.buckets.length < 2 ^ 63 → t.split ≠ none ∧ ∀ v, t.Put key v ≠ none) := by
  have hs := reachable_shape hr hlen
  obtain ⟨c, hc⟩ := shape_index_some hs key
  refine ⟨shape_index_lt hs key, shape_split_lt hs, by simp [LHash.Find, hc], by simp [LHash.Remove, hc],
    fun hlt => ⟨?_, fun v => ?_⟩⟩
  · obtain ⟨t1, h1, _⟩ := shape_split hs hlt
    rw [h1]; simp
  · have hs1 := shape_put_step hs key v c hc
    rw [put_eq t key v c hc]
    by_cases hns : LHash.needsSplit { t with
          buckets := t.buckets.set (t.bucketIndex key) (c.put key v).1
          size := if (c.put key v).2.1 then t.size + 1 else t.size
          bucketCount := t.bucketCount + (c.put key v).2.2 } = true
    · obtain ⟨t1, h1, _⟩ := shape_split hs1 (by simpa using hlt)
      rw [if_pos hns, h1]; simp
    · rw [if_neg hns]; simp

theorem index_in_range_witness :
    Reachable (NewLHash : LHash Nat Nat) ∧ (NewLHash : LHash Nat Nat).buckets.length ≤ 2 ^ 63 ∧
      ((NewLHash : LHash Nat Nat).bucketIndex 5 < (NewLHash : LHash Nat Nat).buckets.length ∧
        (NewLHash : LHash Nat Nat).splitIndex < (NewLHash : LHash Nat Nat).buckets.length ∧
        (NewLHash : LHash Nat Nat).Find 5 ≠ none ∧ (NewLHash : LHash Nat Nat).Remove 5 ≠ none ∧
        ((NewLHash : LHash Nat Nat).buckets.length < 2 ^ 63 →
          (NewLHash : LHash Nat Nat).split ≠ none ∧
            ∀ v, (NewLHash : LHash Nat Nat).Put 5 v ≠ none)) :=
  ⟨Reachable.new, by decide, index_in_range NewLHash Reachable.new (by decide) 5⟩

/-- C18. Array-length invariant: in every reachable table with at most
`2 ^ 63` buckets, `len(buckets) = maskLow + 1 + splitIndex`, `maskLow + 1` is
a power of two, at least 2, and `splitIndex ≤ maskLow`; and when a `Put`
splits the table (the bucket array grows by one), the mask window slides
(`maskLow` becomes the old `maskHigh`, `splitIndex` becomes 0, `maskHigh`
becomes `2 * maskHigh + 1`) exactly when the new length is twice the old
`maskLow + 1`; otherwise the masks stay and `splitIndex` advances by one. -/
theorem array_length_invariant (t : LHash K V) (hr : Reachable t)
    (hlen : t.buckets.length ≤ 2 ^ 63) :
    t.buckets.length = t.maskLow + 1 + t.splitIndex ∧
      (∃ j, 1 ≤ j ∧ t.maskLow + 1 = 2 ^ j) ∧ t.splitIndex ≤ t.maskLow ∧
      ∀ (k : K) (v : Option V) (t1 : LHash K V), t.Put k v = some t1 →
        t1.buckets.length = t.buckets.length + 1 → t1.buckets.length ≤ 2 ^ 63 →
        ((t1.maskLow = t.maskHigh ∧ t1.splitIndex = 0) ↔
            t1.buckets.length = 2 * (t.maskLow + 1)) ∧
          (t1.buckets.length = 2 * (t.maskLow + 1) → t1.maskHigh = 2 * t.maskHigh + 1) ∧
          (t1.buckets.length ≠ 2 * (t.maskLow + 1) →
            t1.maskLow = t.maskLow ∧ t1.maskHigh = t.maskHigh ∧
              t1.splitIndex = t.splitIndex + 1) := by
  have hs := reachable_shape hr hlen
  obtain ⟨j, h0, h1, h2, h3, h4⟩ := hs.addr
  have hpos : 2 ≤ 2 ^ j := by
    calc 2 = 2 ^ 1 := rfl
      _ ≤ 2 ^ j := Nat.pow_le_pow_right (by norm_num) h0
  have hp1 : 2 ^ (j + 1) = 2 * 2 ^ j := by rw [pow_succ]; omega
  refine ⟨by omega, ⟨j, h0, by omega⟩, by omega, ?_⟩
  intro k v t1 hput hgrow hsmall
  rcases put_addr hs (by omega) k v hput with ⟨a1, _⟩ | ⟨_, ⟨b1, b2, b3, b4⟩ | ⟨b1, b2, b3, b4⟩⟩
  · omega
  · refine ⟨⟨fun _ => by omega, fun _ => ⟨b3, b2⟩⟩, fun _ => b4, fun h => ?_⟩
    exact absurd (by omega) h
  · refine ⟨⟨fun h => ?_, fun h => ?_⟩, fun h => ?_, fun _ => ⟨b3, b4, b2⟩⟩
    · have := h.2; omega
    · omega
    · omega

theorem array_length_invariant_witness :
    Reachable (NewLHash : LHash Nat Nat) ∧ (NewLHash : LHash Nat Nat).buckets.length ≤ 2 ^ 63 ∧
      ((NewLHash : LHash Nat Nat).buckets.length =
          (NewLHash : LHash Nat Nat).maskLow + 1 + (NewLHash : LHash Nat Nat).splitIndex ∧
        (∃ j, 1 ≤ j ∧ (NewLHash : LHash Nat Nat).maskLow + 1 = 2 ^ j) ∧
        (NewLHash : LHash Nat Nat).splitIndex ≤ (NewLHash : LHash Nat Nat).maskLow ∧
        ∀ (k : Nat) (v : Option Nat) (t1 : LHash Nat Nat),
          (NewLHash : LHash Nat Nat).Put k v = some t1 →
          t1.buckets.length = (NewLHash : LHash Nat Nat).buckets.length + 1 →
          t1.buckets.length ≤ 2 ^ 63 →
          ((t1.maskLow = (NewLHash : LHash Nat Nat).maskHigh ∧ t1.splitIndex = 0) ↔
              t1.buckets.length = 2 * ((NewLHash : LHash Nat Nat).maskLow + 1)) ∧
            (t1.buckets.length = 2 * ((NewLHash : LHash Nat Nat).maskLow + 1) →
              t1.maskHigh = 2 * (NewLHash : LHash Nat Nat).maskHigh + 1) ∧
            (t1.buckets.length ≠ 2 * ((NewLHash : LHash Nat Nat).maskLow + 1) →
              t1.maskLow = (NewLHash : LHash Nat Nat).maskLow ∧
                t1.maskHigh = (NewLHash : LHash Nat Nat).maskHigh ∧
                t1.splitIndex = (NewLHash : LHash Nat Nat).splitIndex + 1)) :=
  ⟨Reachable.new, by decide, array_length_invariant NewLHash Reachable.new (by decide)⟩

/-- C19. Placement invariant: in every reachable table with at most `2 ^ 63`
buckets, every live entry of the chain at index `i` has
`bucketIndex(entry.key) = i` under the current addressing state; and when the
table is split, every live entry of the chain at the old `splitIndex` whose
recomputed bucket index is not that index, the entries that `split` moves,
has the index of the appended bucket as its recomputed index. -/
theorem placement_invariant (t : LHash K V) (hr : Reachable t)
    (hlen : t.buckets.length ≤ 2 ^ 63) :
    (∀ (i : Nat) (b : bucket K V), t.buckets[i]? = some b →
        ∀ p ∈ b.live, t.bucketIndex p.1 = i) ∧
      (t.buckets.length < 2 ^ 63 →
        ∃ t1 c, t.split = some t1 ∧ t.buckets[t.splitIndex]? = some c ∧
          t1.buckets.length = t.buckets.length + 1 ∧
          ∀ p ∈ c.live, t1.bucketIndex p.1 ≠ t.splitIndex →
            t1.bucketIndex p.1 = t.buckets.length) := by
  have hs := reachable_shape hr hlen
  refine ⟨hs.place, fun hlt => ?_⟩
  obtain ⟨t1, h1, _, _, h4⟩ := shape_split hs hlt
  have hslt := shape_split_lt hs
  refine ⟨t1, t.buckets[t.splitIndex], h1, by simp [hslt], split_length h1, ?_⟩
  intro p hp hne
  have hold := hs.place t.splitIndex t.buckets[t.splitIndex] (by simp [hslt]) p hp
  rcases (h4 p.1).2 hold with h | h
  · exact absurd h hne
  · exact h

theorem placement_invariant_witness :
    Reachable (NewLHash : LHash Nat Nat) ∧ (NewLHash : LHash Nat Nat).buckets.length ≤ 2 ^ 63 ∧
      ((∀ (i : Nat) (b : bucket Nat Nat), (NewLHash : LHash Nat Nat).buckets[i]? = some b →
          ∀ p ∈ b.live, (NewLHash : LHash Nat Nat).bucketIndex p.1 = i) ∧
        ((NewLHash : LHash Nat Nat).buckets.length < 2 ^ 63 →
          ∃ t1 c, (NewLHash : LHash Nat Nat).split = some t1 ∧
            (NewLHash : LHash Nat Nat).buckets[(NewLHash : LHash Nat Nat).splitIndex]? =
              some c ∧
            t1.buckets.length = (NewLHash : LHash Nat Nat).buckets.length + 1 ∧
            ∀ p ∈ c.live, t1.bucketIndex p.1 ≠ (NewLHash : LHash Nat Nat).splitIndex →
              t1.bucketIndex p.1 = (NewLHash : LHash Nat Nat).buckets.length)) :=
  ⟨Reachable.new, by decide, placement_invariant NewLHash Reachable.new (by decide)⟩

/-- C20. No empty overflow nodes: in every reachable table every node of
every chain holds at least one live entry, except possibly a head node
without successor; every node has its `bucketCapacity` slots. -/
theorem no_empty_overflow_nodes (t : LHash K V) (hr : Reachable t) :
    ∀ b ∈ t.buckets, b.capacityOk ∧ (b.noEmpty ∨ ∃ es, b = bucket.mk es bucket.nil) :=
  fun b hb => reachable_compact hr b hb

theorem no_empty_overflow_nodes_witness :
    Reachable (NewLHash : LHash Nat Nat) ∧
      ∀ b ∈ (NewLHash : LHash Nat Nat).buckets,
        b.capacityOk ∧ (b.noEmpty ∨ ∃ es, b = bucket.mk es bucket.nil) :=
  ⟨Reachable.new, no_empty_overflow_nodes NewLHash Reachable.new⟩

end

section
variable [Hashable K]

/-! ## Filling the head node of bucket 0 -/

omit [Hashable K] in
theorem liveE_entryOf (l : List (K × V)) :
    liveE (l.map entryOf) = l.map (fun kv => (kv.1, some kv.2)) := by
  induction l with
  | nil => rfl
  | cons p l ih =>
    rw [List.map_cons, List.map_cons, liveE_cons_some _ _ p.1 rfl, ih]
    rfl

omit [Hashable K] in
theorem liveE_fill (l : List (K × V)) (m : Nat) :
    liveE (l.map entryOf ++ List.replicate m emptyEntry) =
      l.map (fun kv => (kv.1, some kv.2)) := by
  rw [liveE, List.filterMap_append]
  have h1 := liveE_entryOf l
  have h2 := liveE_replicate_empty (K := K) (V := V) m
  rw [liveE] at h1 h2
  rw [h1, h2, List.append_nil]

/-- The slot loop of `put` on a node whose first slots hold other keys and
whose remaining slots are holes. -/
theorem putScan_fill (key : K) (value : Option V) (l : List (K × V)) (m idx : Nat)
    (h : ∀ p ∈ l, Hashable.Equals p.1 key = false) :
    putScan key value (l.map entryOf ++ List.replicate m emptyEntry) idx none =
      .noMatch (if m = 0 then none else some (idx + l.length)) := by
  induction l generalizing idx with
  | nil =>
    cases m with
    | zero => rfl
    | succ m =>
      obtain ⟨s1, h1, h2, _⟩ := putScan_absent key value
        (List.replicate m (emptyEntry : entry K V)) (idx + 1) (some idx)
        (by rw [liveE_replicate_empty]; rfl)
      have := h2 idx rfl
      subst this
      simp [List.replicate_succ, putScan, emptyEntry, scanResult.cons] at h1 ⊢
      rw [h1]
  | cons p l ih =>
    have hp : Hashable.Equals p.1 key = false := h p (List.mem_cons_self _ _)
    have := ih (idx + 1) (fun q hq => h q (List.mem_cons_of_mem _ hq))
    have e : putScan key value
        (entryOf p :: (l.map entryOf ++ List.replicate m emptyEntry)) idx none =
        (putScan key value (l.map entryOf ++ List.replicate m emptyEntry) (idx + 1) none).cons
          (entryOf p) := by
      rw [putScan]
      simp [entryOf, hp]
    rw [List.map_cons, List.cons_append, e, this]
    simp only [scanResult.cons, List.length_cons]
    congr 1
    split
    · rfl
    · congr 1; omega

omit [Hashable K] in
theorem set_fill (l : List (K × V)) (m : Nat) (kv : K × V) :
    (l.map entryOf ++ List.replicate (m + 1) emptyEntry).set l.length (entryOf kv) =
      (l ++ [kv]).map entryOf ++ List.replicate m emptyEntry := by
  induction l with
  | nil => simp [List.replicate_succ]
  | cons p l ih =>
    simp only [List.map_cons, List.cons_append, List.length_cons, List.set_cons_succ, ih]

omit [Hashable K] in
theorem headTable_nil : (headTable [] : LHash K V) = NewLHash := rfl

theorem headTable_index (l : List (K × V)) (key : K) :
    (headTable l).bucketIndex key = (NewLHash : LHash K V).bucketIndex key := rfl

/-- One more `Put` into a head that still has a hole. -/
theorem headTable_put (l : List (K × V)) (kv : K × V) (hl : l.length < 64)
    (hd : ∀ p ∈ l, Hashable.Equals p.1 kv.1 = false)
    (ha : (NewLHash : LHash K V).bucketIndex kv.1 = 0) :
    (headTable l).Put kv.1 (some kv.2) = some (headTable (l ++ [kv])) := by
  have hidx : (headTable l).bucketIndex kv.1 = 0 := by rw [headTable_index, ha]
  have hm : bucketCapacity - l.length = (63 - l.length) + 1 := by
    simp only [bucketCapacity]; omega
  have hc : (headTable l).buckets[(headTable l).bucketIndex kv.1]? =
      some (.mk (l.map entryOf ++ List.replicate ((63 - l.length) + 1) emptyEntry) .nil) := by
    rw [hidx]
    simp only [headTable, hm, List.getElem?_cons_zero]
  have hscan := putScan_fill kv.1 (some kv.2) l ((63 - l.length) + 1) 0 hd
  simp only [Nat.add_one_ne_zero, if_false, Nat.zero_add] at hscan
  have hput : (bucket.mk (l.map entryOf ++
        List.replicate ((63 - l.length) + 1) emptyEntry) bucket.nil).put kv.1 (some kv.2) =
      (.mk ((l ++ [kv]).map entryOf ++ List.replicate (63 - l.length) emptyEntry) .nil,
        true, 0) := by
    simp only [bucket.put, hscan, bucket.remove, Bool.not_false]
    rw [← set_fill l (63 - l.length) kv]
    rfl
  have hm2 : bucketCapacity - (l.length + 1) = 63 - l.length := by
    simp only [bucketCapacity]; omega
  rw [put_eq _ _ _ _ hc, hput]
  have hns : LHash.needsSplit
      { headTable l with
        buckets := (headTable l).buckets.set ((headTable l).bucketIndex kv.1)
          (.mk ((l ++ [kv]).map entryOf ++ List.replicate (63 - l.length) emptyEntry) .nil)
        size := if true = true then (headTable l).size + 1 else (headTable l).size
        bucketCount := (headTable l).bucketCount + 0 } = false := by
    rw [needsSplit_exact]
    · simp only [headTable, if_true]
      simp only [decide_eq_false_iff_not]
      omega
    all_goals simp only [headTable, if_true]
    all_goals omega
  simp only at hns ⊢
  rw [hns]
  simp only [Bool.false_eq_true, if_false, Option.some.injEq]
  rw [hidx]
  simp only [headTable, hm, hm2, List.set_cons_zero, if_true, List.length_append,
    List.length_singleton, Nat.cast_add, Nat.cast_one, add_zero]

theorem runOps_append (a b : List (Op K V)) (t : LHash K V) :
    runOps (a ++ b) t = (runOps a t).bind (runOps b) := by
  induction a generalizing t with
  | nil => rfl
  | cons op a ih =>
    simp only [List.cons_append, runOps]
    cases applyOp op t with
    | none => rfl
    | some t1 => simp [ih]

theorem bucketLengths_append (a b : List (Op K V)) (t t1 : LHash K V)
    (h : runOps a t = some t1) :
    bucketLengths (a ++ b) t = bucketLengths a t ++ bucketLengths b t1 := by
  induction a generalizing t with
  | nil =>
    simp only [runOps, Option.some.injEq] at h
    subst h
    rfl
  | cons op a ih =>
    simp only [runOps] at h
    cases hop : applyOp op t with
    | none => rw [hop] at h; cases h
    | some t2 =>
      rw [hop] at h
      rw [List.cons_append, bucketLengths, bucketLengths]
      simp only [hop]
      rw [ih t2 h, List.cons_append]

/-- Successive `Put`s of distinct keys that address bucket 0 fill the head
node slot by slot, without a split. -/
theorem runOps_headTable (rest done : List (K × V)) (hlen : done.length + rest.length ≤ 64)
    (hd : (done ++ rest).Pairwise (fun a b => Hashable.Equals a.1 b.1 = false))
    (ha : ∀ kv ∈ rest, (NewLHash : LHash K V).bucketIndex kv.1 = 0) :
    runOps (putAll rest) (headTable done) = some (headTable (done ++ rest)) ∧
      bucketLengths (putAll rest) (headTable done) = List.replicate rest.length 2 := by
  induction rest generalizing done with
  | nil => simp [putAll, runOps, bucketLengths]
  | cons kv rest ih =>
    simp only [List.length_cons] at hlen
    have hstep := headTable_put done kv (by omega)
      (fun p hp => (List.pairwise_append.1 hd).2.2 p hp kv (List.mem_cons_self _ _))
      (ha kv (List.mem_cons_self _ _))
    have hassoc : done ++ kv :: rest = (done ++ [kv]) ++ rest := by simp
    obtain ⟨i1, i2⟩ := ih (done ++ [kv]) (by simp; omega) (by rw [← hassoc]; exact hd)
      (fun q hq => ha q (List.mem_cons_of_mem _ hq))
    constructor
    · simp only [putAll, List.map_cons, runOps, applyOp, hstep, Option.bind_some]
      rw [hassoc]
      exact i1
    · simp only [putAll, List.map_cons, bucketLengths, applyOp, hstep, List.length_cons,
        List.replicate_succ]
      congr 1

/-- One more `Put` into a full head: the key goes to a new overflow node and
the table is not split. -/
theorem headTable_put_full (l : List (K × V)) (kv : K × V) (hl : l.length = 64)
    (hd : ∀ p ∈ l, Hashable.Equals p.1 kv.1 = false)
    (ha : (NewLHash : LHash K V).bucketIndex kv.1 = 0) :
    (headTable l).Put kv.1 (some kv.2) = some
      { buckets := [.mk (l.map entryOf)
            (.mk ((List.replicate bucketCapacity emptyEntry).set 0 ⟨some kv.1, some kv.2⟩) .nil),
          newBucket]
        size := 65
        bucketCount := 3
        splitIndex := 0
        maskHigh := 3
        maskLow := 1 } := by
  have hidx : (headTable l).bucketIndex kv.1 = 0 := by rw [headTable_index, ha]
  have hm : bucketCapacity - l.length = 0 := by simp only [bucketCapacity]; omega
  have hc : (headTable l).buckets[(headTable l).bucketIndex kv.1]? =
      some (.mk (l.map entryOf ++ List.replicate 0 emptyEntry) .nil) := by
    rw [hidx]
    simp only [headTable, hm, List.getElem?_cons_zero]
  have hscan := putScan_fill kv.1 (some kv.2) l 0 0 hd
  simp only [if_true] at hscan
  have hput : (bucket.mk (l.map entryOf ++ List.replicate 0 emptyEntry) bucket.nil).put kv.1
        (some kv.2) =
      (.mk (l.map entryOf ++ List.replicate 0 emptyEntry)
        (.mk ((List.replicate bucketCapacity emptyEntry).set 0 ⟨some kv.1, some kv.2⟩) .nil),
        true, 1) := by
    simp only [bucket.put, hscan]
  rw [put_eq _ _ _ _ hc, hput]
  have hns : LHash.needsSplit
      { headTable l with
        buckets := (headTable l).buckets.set ((headTable l).bucketIndex kv.1)
          (.mk (l.map entryOf ++ List.replicate 0 emptyEntry)
            (.mk ((List.replicate bucketCapacity emptyEntry).set 0 ⟨some kv.1, some kv.2⟩)
              .nil))
        size := if true = true then (headTable l).size + 1 else (headTable l).size
        bucketCount := (headTable l).bucketCount + 1 } = false := by
    rw [needsSplit_exact]
    · simp only [headTable, if_true]
      simp only [decide_eq_false_iff_not]
      omega
    all_goals simp only [headTable, if_true]
    all_goals omega
  simp only at hns ⊢
  rw [hns]
  simp only [Bool.false_eq_true, if_false, Option.some.injEq]
  rw [hidx]
  simp only [headTable, hm, List.set_cons_zero, if_true, List.replicate_zero, List.append_nil,
    hl]
  norm_num

end

section
variable [Hashable K]

set_option maxRecDepth 1000000 in
/-- C11, as stated, fails: the 65 even keys 0, 2, ..., 128 are distinct and
all address bucket 0 of a new table, and after each of the 65 puts,
the 65th included, the bucket array still has 2 buckets; the table ends with
65 entries in 3 nodes. -/
theorem sixty_fifth_key_counterexample :
    (List.range 65).all (fun i => decide ((NewLHash : LHash Nat String).bucketIndex (2 * i) = 0))
        = true ∧
      bucketLengths (evenOps 65) NewLHash = List.replicate 65 2 ∧
      (runOps (evenOps 65) NewLHash).map (fun t => (t.buckets.length, t.size, t.bucketCount)) =
        some (2, 65, 3) := by
  refine ⟨?_, ?_, ?_⟩ <;> decide!

/-- C11, amended: for 65 distinct keys that all address bucket 0 of a new
table, putting the first 64 places them in the single head node of bucket 0
with no split; putting the 65th allocates one overflow node in that chain
(3 nodes, load factor 65 / 192) and triggers no split either (the bucket
array has 2 buckets after each of the 65 puts), and `Find` then returns the
stored value for all 65 keys. -/
theorem fill_bucket0 (hK : LawfulHashable K) (kvs : List (K × V)) (hlen : kvs.length = 65)
    (hdist : kvs.Pairwise (fun a b => Hashable.Equals a.1 b.1 = false))
    (haddr : ∀ kv ∈ kvs, (NewLHash : LHash K V).bucketIndex kv.1 = 0) :
    runOps (putAll (kvs.take 64)) NewLHash = some (headTable (kvs.take 64)) ∧
      bucketLengths (putAll kvs) NewLHash = List.replicate 65 2 ∧
      ∃ t65, runOps (putAll kvs) NewLHash = some t65 ∧
        t65.buckets.map bucket.nodes = [2, 1] ∧ t65.size = 65 ∧ t65.bucketCount = 3 ∧
        t65.needsSplit = false ∧
        ∀ kv ∈ kvs, t65.Find kv.1 = some (some kv.2) := by
  have hsplit := List.take_append_drop 64 kvs
  have hlt : (kvs.take 64).length = 64 := by rw [List.length_take]; omega
  have hld : (kvs.drop 64).length = 1 := by rw [List.length_drop]; omega
  obtain ⟨kv, hkv⟩ := List.length_eq_one.1 hld
  rw [hkv] at hsplit
  generalize kvs.take 64 = l at hsplit hlt
  subst hsplit
  have hpw := List.pairwise_append.1 hdist
  obtain ⟨r1, r2⟩ := runOps_headTable l [] (by simp [hlt]) (by simpa using hpw.1)
    (fun q hq => haddr q (List.mem_append_left _ hq))
  rw [headTable_nil] at r1 r2
  simp only [List.nil_append] at r1
  have hfull := headTable_put_full l kv hlt
    (fun p hp => hpw.2.2 p hp kv (List.mem_singleton_self _))
    (haddr kv (List.mem_append_right _ (List.mem_singleton_self _)))
  have hops : putAll (l ++ [kv]) = putAll l ++ [Op.put kv.1 kv.2] := by
    simp [putAll]
  have hrun : runOps (putAll (l ++ [kv])) (NewLHash : LHash K V) = some
      { buckets := [.mk (l.map entryOf)
            (.mk ((List.replicate bucketCapacity emptyEntry).set 0 ⟨some kv.1, some kv.2⟩) .nil),
          newBucket]
        size := 65
        bucketCount := 3
        splitIndex := 0
        maskHigh := 3
        maskLow := 1 } := by
    rw [hops, runOps_append, r1]
    simp only [Option.bind_some, Option.some_bind, runOps, applyOp, hfull]
  refine ⟨r1, ?_, _, hrun, rfl, rfl, rfl, ?_, ?_⟩
  · rw [hops, bucketLengths_append _ _ _ _ r1, r2, hlt]
    simp only [bucketLengths, applyOp, hfull]
    rfl
  · rw [needsSplit_exact] <;> simp
  · intro q hq
    have hidx : LHash.bucketIndex
        ({ buckets := [.mk (l.map entryOf)
              (.mk ((List.replicate bucketCapacity emptyEntry).set 0 ⟨some kv.1, some kv.2⟩)
                .nil), newBucket]
           size := 65
           bucketCount := 3
           splitIndex := 0
           maskHigh := 3
           maskLow := 1 } : LHash K V) q.1 = 0 := haddr q hq
    have hlive : (bucket.mk (l.map entryOf)
        (.mk ((List.replicate bucketCapacity (emptyEntry : entry K V)).set 0
          ⟨some kv.1, some kv.2⟩) .nil)).live =
        (l ++ [kv]).map (fun p => (p.1, some p.2)) := by
      simp only [live_mk, live_nil, List.append_nil, liveE_entryOf, liveE_newBucket_set,
        List.map_append, List.map_cons, List.map_nil]
    have hnd : NoDupKeys ((l ++ [kv]).map (fun p : K × V => (p.1, some p.2))) := by
      unfold NoDupKeys
      rw [List.pairwise_map]
      exact hdist
    have hmem : (q.1, some q.2) ∈ (l ++ [kv]).map (fun p : K × V => (p.1, some p.2)) :=
      List.mem_map.2 ⟨q, hq, rfl⟩
    simp only [LHash.Find, hidx, List.getElem?_cons_zero, find_eq, hlive]
    rw [alook_of_mem hK q.1 hnd hmem (hK.refl q.1)]
    rfl

set_option maxRecDepth 1000000 in
theorem fill_bucket0_witness :
    LawfulHashable Nat ∧ evenPairs.length = 65 ∧
      evenPairs.Pairwise (fun a b => Hashable.Equals a.1 b.1 = false) ∧
      (∀ kv ∈ evenPairs, (NewLHash : LHash Nat Nat).bucketIndex kv.1 = 0) ∧
      (runOps (putAll (evenPairs.take 64)) NewLHash = some (headTable (evenPairs.take 64)) ∧
        bucketLengths (putAll evenPairs) NewLHash = List.replicate 65 2 ∧
        ∃ t65, runOps (putAll evenPairs) NewLHash = some t65 ∧
          t65.buckets.map bucket.nodes = [2, 1] ∧ t65.size = 65 ∧ t65.bucketCount = 3 ∧
          t65.needsSplit = false ∧
          ∀ kv ∈ evenPairs, t65.Find kv.1 = some (some kv.2)) :=
  ⟨lawful_uint, by decide!, by decide!, by decide!,
    fill_bucket0 lawful_uint evenPairs (by decide!) (by decide!) (by decide!)⟩

set_option maxRecDepth 1000000 in
/-- C16, on the code: putting the 64 even keys 0, 2, ..., 126 into
`NewLHash()` causes no split (2 buckets after each put) and fills the head
node of bucket 0 exactly: the table ends with 64 entries, `bucketCount = 2`,
one node in each chain and no overflow node, and every key is found. -/
theorem even_keys_fill_head :
    bucketLengths (evenOps 64) NewLHash = List.replicate 64 2 ∧
      (runOps (evenOps 64) NewLHash).map
          (fun t => (t.size, t.bucketCount, t.buckets.map bucket.nodes, t.keys.map List.length)) =
        some (64, 2, [1, 1], [64, 0]) ∧
      (runOps (evenOps 64) NewLHash).map (fun t =>
          (List.range 64).all (fun i => decide (t.Find (2 * i) = some (some (hello (2 * i)))))) =
        some true := by
  refine ⟨?_, ?_, ?_⟩ <;> decide!

end

section
variable [Hashable K]

/-! ## Chains packed with keys that all address bucket 0 -/

theorem farKey_index {W : Type} (t : LHash Nat W) (j i : Nat) (hj : j < 32)
    (h1 : t.maskLow = 2 ^ j - 1) (h2 : t.maskHigh = 2 ^ (j + 1) - 1) :
    t.bucketIndex (farKey i) = 0 := by
  have hh : Hashable.Hash (farKey i) % 2 ^ 64 = (i * 2 ^ 32) % 2 ^ 64 := rfl
  have hd : ∀ e : Nat, e ≤ 32 → (i * 2 ^ 32) % 2 ^ 64 % 2 ^ e = 0 := fun e he => by
    rw [Nat.mod_mod_of_dvd _ (pow_dvd_pow 2 (by omega : e ≤ 64))]
    exact Nat.mod_eq_zero_of_dvd (Dvd.dvd.mul_left (pow_dvd_pow 2 he) i)
  simp only [LHash.bucketIndex, h1, h2, Nat.and_pow_two_sub_one_eq_mod, hh,
    hd j (by omega), hd (j + 1) (by omega)]
  simp

theorem farKey_ne (a b : Nat) (h : a ≠ b) : Hashable.Equals (farKey a) (farKey b) = false := by
  show decide (a * 2 ^ 32 = b * 2 ^ 32) = false
  simp only [decide_eq_false_iff_not]
  omega

theorem farPairs_length (s len : Nat) : (farPairs s len).length = len := by
  simp [farPairs]

theorem farPairs_succ (s len : Nat) :
    farPairs s (len + 1) = farPairs s len ++ [(farKey (s + len), 0)] := by
  simp [farPairs, List.range_succ]

theorem farPairs_ne (s len x : Nat) (hx : s + len ≤ x) :
    ∀ p ∈ farPairs s len, Hashable.Equals p.1 (farKey x) = false := by
  intro p hp
  simp only [farPairs, List.mem_map, List.mem_range] at hp
  obtain ⟨i, hi, rfl⟩ := hp
  exact farKey_ne _ _ (by omega)

/-- `put` of a new key into a sole node that still has a hole. -/
theorem fillNode_put (l : List (K × V)) (kv : K × V) (hl : l.length < 64)
    (hd : ∀ p ∈ l, Hashable.Equals p.1 kv.1 = false) :
    (bucket.mk (fillNode l) .nil).put kv.1 (some kv.2) =
      (.mk (fillNode (l ++ [kv])) .nil, true, 0) := by
  have hm : bucketCapacity - l.length = (63 - l.length) + 1 := by
    simp only [bucketCapacity]; omega
  have hm2 : bucketCapacity - (l ++ [kv]).length = 63 - l.length := by
    simp only [bucketCapacity, List.length_append, List.length_singleton]; omega
  have hscan := putScan_fill kv.1 (some kv.2) l ((63 - l.length) + 1) 0 hd
  simp only [Nat.add_one_ne_zero, if_false, Nat.zero_add] at hscan
  simp only [fillNode, hm, hm2, bucket.put, hscan, bucket.remove, Bool.not_false]
  rw [← set_fill l (63 - l.length) kv]
  rfl

/-- `put` of a new key walks past a full node. -/
theorem fillNode_put_full (l : List (K × V)) (key : K) (value : Option V) (next : bucket K V)
    (hl : l.length = 64) (hd : ∀ p ∈ l, Hashable.Equals p.1 key = false) :
    (bucket.mk (fillNode l) next).put key value =
      (.mk (fillNode l) (next.put key value).1, (next.put key value).2.1,
        (next.put key value).2.2) := by
  have hm : bucketCapacity - l.length = 0 := by simp only [bucketCapacity]; omega
  have hscan := putScan_fill key value l 0 0 hd
  simp only [if_true] at hscan
  simp only [fillNode, hm, bucket.put, hscan]

omit [Hashable K] in
theorem fillNode_single (kv : K × V) :
    (List.replicate bucketCapacity emptyEntry).set 0 ⟨some kv.1, some kv.2⟩ =
      fillNode [kv] := by
  simp [fillNode, bucketCapacity, List.replicate_succ, entryOf]

theorem packedChain_put_lt (q s r : Nat) (hr : r < 64) :
    (packedChain q s r).put (farKey (s + 64 * q + r)) (some 0) =
      (packedChain q s (r + 1), true, 0) := by
  induction q generalizing s with
  | zero =>
    have h := fillNode_put (farPairs s r) (farKey (s + r), 0)
      (by rw [farPairs_length]; exact hr) (farPairs_ne s r (s + r) (le_refl _))
    simp only [packedChain, Nat.mul_zero, Nat.add_zero, farPairs_succ]
    exact h
  | succ q ih =>
    have e : s + 64 * (q + 1) + r = (s + 64) + 64 * q + r := by omega
    rw [e, packedChain, fillNode_put_full _ _ _ _ (farPairs_length s 64)
      (farPairs_ne s 64 _ (by omega)), ih (s + 64)]
    rfl

theorem packedChain_put_full (q s : Nat) :
    (packedChain q s 64).put (farKey (s + 64 * q + 64)) (some 0) =
      (packedChain (q + 1) s 1, true, 1) := by
  induction q generalizing s with
  | zero =>
    simp only [packedChain, Nat.mul_zero, Nat.add_zero]
    rw [fillNode_put_full _ _ _ _ (farPairs_length s 64) (farPairs_ne s 64 _ (by omega))]
    simp only [bucket.put]
    rw [fillNode_single (farKey (s + 64), 0)]
    rfl
  | succ q ih =>
    have e : s + 64 * (q + 1) + 64 = (s + 64) + 64 * q + 64 := by omega
    rw [e, packedChain, fillNode_put_full _ _ _ _ (farPairs_length s 64)
      (farPairs_ne s 64 _ (by omega)), ih (s + 64)]
    rfl

/-- The chain of `n` packed keys after `put` of the next key. -/
theorem packedChain_put (n : Nat) :
    (packedChain ((n - 1) / 64) 0 (n - 64 * ((n - 1) / 64))).put (farKey n) (some 0) =
      (packedChain (n / 64) 0 (n + 1 - 64 * (n / 64)), true,
        ((n / 64 : Nat) : Int) - (((n - 1) / 64 : Nat) : Int)) := by
  by_cases hr : n - 64 * ((n - 1) / 64) < 64
  · have h := packedChain_put_lt ((n - 1) / 64) 0 (n - 64 * ((n - 1) / 64)) hr
    have e1 : 0 + 64 * ((n - 1) / 64) + (n - 64 * ((n - 1) / 64)) = n := by omega
    have e2 : n / 64 = (n - 1) / 64 := by omega
    have e3 : n + 1 - 64 * ((n - 1) / 64) = n - 64 * ((n - 1) / 64) + 1 := by omega
    rw [e1] at h
    rw [h, e2, e3]
    simp
  · have e0 : n - 64 * ((n - 1) / 64) = 64 := by omega
    have h := packedChain_put_full ((n - 1) / 64) 0
    have e1 : 0 + 64 * ((n - 1) / 64) + 64 = n := by omega
    have e2 : n / 64 = (n - 1) / 64 + 1 := by omega
    have e3 : n + 1 - 64 * ((n - 1) / 64 + 1) = 1 := by omega
    rw [e1] at h
    rw [e0, h, e2, e3]
    simp

/-! ## Splitting a table whose keys all stay in bucket 0 -/

/-- The slot loop of `split` on a node whose keys all stay: nothing moves. -/
theorem splitEntries_stay (lh : LHash K V) (sOld : Nat) (l : List (K × V)) (m : Nat)
    (bNew : bucket K V) (bc : Int) (h : ∀ p ∈ l, lh.bucketIndex p.1 = sOld) :
    splitEntries lh sOld (l.map entryOf ++ List.replicate m emptyEntry) bNew bc =
      (l.map entryOf ++ List.replicate m emptyEntry, bNew, bc, l.isEmpty) := by
  induction l with
  | nil =>
    induction m with
    | zero => rfl
    | succ m ih =>
      simp only [List.map_nil, List.nil_append, List.isEmpty_nil] at ih ⊢
      rw [List.replicate_succ, splitEntries]
      simp only [emptyEntry] at ih ⊢
      rw [ih]
  | cons p l ih =>
    have hp := h p (List.mem_cons_self _ _)
    have := ih (fun q hq => h q (List.mem_cons_of_mem _ hq))
    rw [List.map_cons, List.cons_append, splitEntries]
    simp only [entryOf, hp, if_true, List.isEmpty_cons]
    simp only [entryOf] at this
    rw [this]

theorem splitChain_newBucket (lh : LHash K V) (sOld : Nat) (bNew : bucket K V) (bc : Int) :
    splitChain lh sOld newBucket true bNew bc = (newBucket, bNew, bc) := by
  have h := splitEntries_stay lh sOld [] bucketCapacity bNew bc (fun p hp => by cases hp)
  simp only [List.map_nil, List.nil_append, List.isEmpty_nil] at h
  simp only [newBucket, splitChain, h, bucket.isNil]
  rfl

theorem splitChain_packed (lh : LHash Nat Nat) (hidx : ∀ i, lh.bucketIndex (farKey i) = 0)
    (q s r : Nat) (hr : 1 ≤ r) ( f : Bool) (bNew : bucket Nat Nat) (bc : Int) :
    splitChain lh 0 (packedChain q s r) f bNew bc = (packedChain q s r, bNew, bc) := by
  have hall : ∀ len, ∀ p ∈ farPairs s len, lh.bucketIndex p.1 = 0 := by
    intro len p hp
    simp only [farPairs, List.mem_map, List.mem_range] at hp
    obtain ⟨i, _, rfl⟩ := hp
    exact hidx _
  induction q generalizing s f with
  | zero =>
    have h := splitEntries_stay lh 0 (farPairs s r)
      (bucketCapacity - (farPairs s r).length) bNew bc (hall r)
    have hne : (farPairs s r).isEmpty = false := by
      cases hl : farPairs s r with
      | nil =>
        have := farPairs_length s r
        rw [hl] at this
        simp at this
        omega
      | cons _ _ => rfl
    rw [hne] at h
    simp only [packedChain, fillNode, splitChain, h]
    rfl
  | succ q ih =>
    have h := splitEntries_stay lh 0 (farPairs s 64)
      (bucketCapacity - (farPairs s 64).length) bNew bc (hall 64)
    have hne : (farPairs s 64).isEmpty = false := by
      cases hl : farPairs s 64 with
      | nil =>
        have := farPairs_length s 64
        rw [hl] at this
        simp at this
      | cons _ _ => rfl
    rw [hne] at h
    have hi := ih (s + 64) false (by
      intro len p hp
      simp only [farPairs, List.mem_map, List.mem_range] at hp
      obtain ⟨i, _, rfl⟩ := hp
      exact hidx _)
    simp only [packedChain, fillNode, splitChain, h]
    simp only [fillNode] at hi
    simp [hi]

/-! ## The packed table under `Put` and `split` -/

omit [Hashable K] in
theorem set_same {α : Type} (l : List α) (i : Nat) (a : α) (h : l[i]? = some a) :
    l.set i a = l := by
  induction l generalizing i with
  | nil => rfl
  | cons b l ih =>
    cases i with
    | zero =>
      simp only [List.getElem?_cons_zero, Option.some.injEq] at h
      rw [h, List.set_cons_zero]
    | succ i =>
      simp only [List.getElem?_cons_succ] at h
      rw [List.set_cons_succ, ih i h]

theorem packedTable_index (n j s i : Nat) (hj : j < 32) :
    (packedTable n j s).bucketIndex (farKey i) = 0 :=
  farKey_index _ j i hj rfl rfl

/-- The first part of `Put` of the next key into the packed table: the chain
of bucket 0 takes the key. -/
theorem packedTable_putMutate (n j s : Nat) (hj : j < 32) :
    (packedTable n j s).putMutate (farKey n) (some 0) = some (packedTable (n + 1) j s) := by
  have hidx := packedTable_index n j s n hj
  have hc : (packedTable n j s).buckets[(packedTable n j s).bucketIndex (farKey n)]? =
      some (packedChain ((n - 1) / 64) 0 (n - 64 * ((n - 1) / 64))) := by
    rw [hidx]
    simp only [packedTable, List.getElem?_cons_zero]
  rw [putMutate_eq _ _ _ _ hc, hidx, packedChain_put n]
  simp only [packedTable, List.set_cons_zero, if_true, Nat.add_sub_cancel, LHash.mk.injEq,
    true_and, and_true, Option.some.injEq]
  refine ⟨?_, ?_⟩
  · push_cast
    rfl
  · push_cast
    omega

/-- `Put` of the next key into the packed table: the chain of bucket 0 takes
the key, then the split test runs on the packed table of one more key. -/
theorem packedTable_put (n j s : Nat) (hj : j < 32) :
    (packedTable n j s).Put (farKey n) (some 0) =
      if (packedTable (n + 1) j s).needsSplit = true then (packedTable (n + 1) j s).split
      else some (packedTable (n + 1) j s) := by
  rw [put_eq_mutate, packedTable_putMutate n j s hj, Option.some_bind]

/-- One split of the packed table: no key leaves bucket 0, an empty bucket is
appended. -/
theorem packedTable_split (n j s j1 s1 : Nat) (hn : 1 ≤ n) (hj : j < 31) (hs : s < 2 ^ j)
    (hnext : (s + 1 = 2 ^ j ∧ j1 = j + 1 ∧ s1 = 0) ∨ (s + 1 < 2 ^ j ∧ j1 = j ∧ s1 = s + 1)) :
    (packedTable n j s).split = some (packedTable n j1 s1) := by
  have hpos : 0 < 2 ^ j := Nat.two_pow_pos j
  have hp1 : 2 ^ (j + 1) = 2 * 2 ^ j := by rw [pow_succ]; omega
  have hp63 : 2 ^ (j + 1) ≤ 2 ^ 31 := Nat.pow_le_pow_right (by decide) (by omega)
  have hlen : (packedTable n j s).buckets.length = 2 ^ j + s := by
    simp only [packedTable, List.length_cons, List.length_replicate]
    omega
  have hr : 1 ≤ n - 64 * ((n - 1) / 64) := by omega
  -- the chain at `splitIndex`
  obtain ⟨c, hc, hsc⟩ : ∃ c, (packedTable n j s).buckets[(packedTable n j s).splitIndex]? =
      some c ∧ ∀ (lh : LHash Nat Nat), (∀ i, lh.bucketIndex (farKey i) = 0) →
        ∀ bc, splitChain lh (packedTable n j s).splitIndex c true newBucket bc =
          (c, newBucket, bc) := by
    cases s with
    | zero =>
      exact ⟨packedChain ((n - 1) / 64) 0 (n - 64 * ((n - 1) / 64)),
        by simp only [packedTable, List.getElem?_cons_zero],
        fun lh hidx bc => splitChain_packed lh hidx _ _ _ hr true newBucket bc⟩
    | succ s =>
      refine ⟨newBucket, ?_, fun lh _ bc => splitChain_newBucket lh _ newBucket bc⟩
      simp only [packedTable, List.getElem?_cons_succ]
      rw [List.getElem?_replicate, if_pos (by omega)]
  obtain ⟨t2, e1, e2, e3, e4, heq⟩ := split_eq (packedTable n j s) j hs rfl rfl hlen
    (by rw [hlen]; omega) c hc
  have hidx2 : ∀ i, t2.bucketIndex (farKey i) = 0 := by
    intro i
    rcases e4 with ⟨_, _, m1, m2⟩ | ⟨_, _, m1, m2⟩
    · exact farKey_index t2 (j + 1) i (by omega) m1 m2
    · exact farKey_index t2 j i (by omega) m1 m2
  rw [heq, hsc t2 hidx2, e1]
  have hB := set_set_append (packedTable n j s).buckets (packedTable n j s).splitIndex
    (by rw [hlen]; show s < 2 ^ j + s; omega) c newBucket newBucket
  rw [hB, set_same _ _ _ hc]
  obtain ⟨b2, sz2, bc2, si2, mh2, ml2⟩ := t2
  simp only at e1 e2 e3 e4 ⊢
  have hrep : ∀ M : Nat, 1 ≤ M →
      List.replicate (M - 1) (newBucket : bucket Nat Nat) ++ [newBucket] =
        List.replicate (M + 1 - 1) newBucket := by
    intro M hM
    obtain ⟨M, rfl⟩ : ∃ M1, M = M1 + 1 := ⟨M - 1, by omega⟩
    simp only [Nat.add_sub_cancel]
    exact (List.replicate_succ' M newBucket).symm
  rcases hnext with ⟨n1, hj1, hs1⟩ | ⟨n1, hj1, hs1⟩
  · rw [hj1, hs1]
    rcases e4 with ⟨_, m0, m1, m2⟩ | ⟨m, _⟩
    · subst e2 e3 m0 m1 m2
      have hl : 2 ^ (j + 1) + 0 = 2 ^ j + s + 1 := by omega
      have hbc : (((n - 1) / 64 + 2 ^ j + s : Nat) : Int) + 1 =
          (((n - 1) / 64 + 2 ^ (j + 1) + 0 : Nat) : Int) := by
        have : (n - 1) / 64 + 2 ^ (j + 1) + 0 = ((n - 1) / 64 + 2 ^ j + s) + 1 := by omega
        rw [this, Nat.cast_succ]
      simp only [packedTable, List.cons_append, hrep (2 ^ j + s) (by omega), hl, hbc]
    · simp only [packedTable] at m
      omega
  · rw [hj1, hs1]
    rcases e4 with ⟨m, _⟩ | ⟨_, m0, m1, m2⟩
    · simp only [packedTable] at m
      omega
    · subst e2 e3 m1 m2
      simp only [packedTable] at m0
      subst m0
      have hl : 2 ^ j + (s + 1) = 2 ^ j + s + 1 := by omega
      have hbc : (((n - 1) / 64 + 2 ^ j + s : Nat) : Int) + 1 =
          (((n - 1) / 64 + 2 ^ j + (s + 1) : Nat) : Int) := by
        have : (n - 1) / 64 + 2 ^ j + (s + 1) = ((n - 1) / 64 + 2 ^ j + s) + 1 := by omega
        rw [this, Nat.cast_succ]
      simp only [packedTable, List.cons_append, hrep (2 ^ j + s) (by omega), hl, hbc]

/-! ## Runs of `Put` on the packed table -/

theorem packedTable_zero : packedTable 0 1 0 = NewLHash := by
  have h1 : (0 - 1) / 64 = 0 := rfl
  have h2 : farPairs 0 0 = [] := rfl
  simp only [packedTable, h1, packedChain, fillNode, h2, NewLHash, newBucket]
  rfl

theorem farOps_add (a k l : Nat) : farOps a (k + l) = farOps a k ++ farOps (a + k) l := by
  simp only [farOps, List.range_add, List.map_append, List.map_map]
  refine congrArg _ (List.map_congr_left fun i _ => ?_)
  simp only [Function.comp, Nat.add_assoc]

theorem farOps_one (a : Nat) : farOps a 1 = [Op.put (farKey a) 0] := rfl

theorem runOps_put_one (t : LHash Nat Nat) (k v : Nat) :
    runOps [Op.put k v] t = t.Put k (some v) := by
  simp only [runOps, applyOp]
  cases t.Put k (some v) <;> rfl

theorem packedTable_counters (n j s : Nat) :
    (packedTable n j s).size = (n : Int) ∧
      (packedTable n j s).bucketCount = (((n - 1) / 64 + 2 ^ j + s : Nat) : Int) ∧
      (packedTable n j s).buckets.length = 2 ^ j + s := by
  have hpos : 0 < 2 ^ j := Nat.two_pow_pos j
  refine ⟨rfl, rfl, ?_⟩
  simp only [packedTable, List.length_cons, List.length_replicate]
  omega

/-- A run of `Put`s during which the load stays at or below the threshold:
no split. -/
theorem run_nosplit (a k j s : Nat) (hj : j < 32)
    (hns : ∀ i, i < k → (packedTable (a + i + 1) j s).needsSplit = false) :
    runOps (farOps a k) (packedTable a j s) = some (packedTable (a + k) j s) := by
  induction k with
  | zero => rfl
  | succ k ih =>
    rw [farOps_add, runOps_append, ih (fun i hi => hns i (by omega)), Option.some_bind,
      farOps_one, runOps_put_one, packedTable_put _ _ _ hj, hns k (by omega)]
    simp only [Bool.false_eq_true, if_false]
    rfl

/-- The sequential run of the keys `i * 2 ^ 32`: with `m` buckets the table
reaches `192 * m - 144` entries in `4 * m - 3` nodes, a load factor of
exactly `0.75`. -/
theorem far_reach (m : Nat) (h2 : 2 ≤ m) (hm : m ≤ 87383) :
    ∃ j s, 2 ^ j + s = m ∧ s < 2 ^ j ∧
      runOps (farOps 0 (192 * m - 144)) NewLHash = some (packedTable (192 * m - 144) j s) := by
  induction m, h2 using Nat.le_induction with
  | base =>
    refine ⟨1, 0, rfl, by decide, ?_⟩
    have h := run_nosplit 0 240 1 0 (by decide) (fun i hi => by
      obtain ⟨c1, c2, _⟩ := packedTable_counters (0 + i + 1) 1 0
      apply needsSplit_false_nat _ _ _ c1 c2 <;> omega)
    rw [packedTable_zero] at h
    exact h
  | succ m h2 ih =>
    obtain ⟨j, s, e, hs, hrun⟩ := ih (by omega)
    have hpos : 0 < 2 ^ j := Nat.two_pow_pos j
    have hp1 : 2 ^ (j + 1) = 2 * 2 ^ j := by rw [pow_succ]; omega
    have hj : j < 17 := by
      by_contra hc
      have : 2 ^ 17 ≤ 2 ^ j := Nat.pow_le_pow_right (by decide) (by omega)
      omega
    obtain ⟨j1, s1, hnext, e1, hs1, hj1⟩ : ∃ j1 s1,
        ((s + 1 = 2 ^ j ∧ j1 = j + 1 ∧ s1 = 0) ∨ (s + 1 < 2 ^ j ∧ j1 = j ∧ s1 = s + 1)) ∧
        2 ^ j1 + s1 = m + 1 ∧ s1 < 2 ^ j1 ∧ j1 < 32 := by
      by_cases hc : s + 1 = 2 ^ j
      · exact ⟨j + 1, 0, Or.inl ⟨hc, rfl, rfl⟩, by omega, by omega, by omega⟩
      · exact ⟨j, s + 1, Or.inr ⟨by omega, rfl, rfl⟩, by omega, by omega, by omega⟩
    refine ⟨j1, s1, e1, hs1, ?_⟩
    have hsplit : 192 * (m + 1) - 144 = (192 * m - 144) + (1 + 191) := by omega
    have hstep : (packedTable (192 * m - 144) j s).Put (farKey (192 * m - 144)) (some 0) =
        some (packedTable (192 * m - 144 + 1) j1 s1) := by
      obtain ⟨c1, c2, _⟩ := packedTable_counters (192 * m - 144 + 1) j s
      rw [packedTable_put _ _ _ (by omega), if_pos, packedTable_split _ _ _ _ _ (by omega)
        (by omega) hs hnext]
      apply needsSplit_true_nat _ _ _ c1 c2 <;> omega
    have hrest := run_nosplit (192 * m - 144 + 1) 191 j1 s1 hj1 (fun i hi => by
      obtain ⟨c1, c2, _⟩ := packedTable_counters (192 * m - 144 + 1 + i + 1) j1 s1
      apply needsSplit_false_nat _ _ _ c1 c2 <;> omega)
    rw [hsplit, farOps_add, runOps_append, hrun, Option.some_bind, farOps_add, runOps_append,
      Nat.zero_add, farOps_one, runOps_put_one, hstep, Option.some_bind, hrest]

theorem runOps_reachable (ops : List (Op K V)) (t t1 : LHash K V) (hr : Reachable t)
    (h : runOps ops t = some t1) : Reachable t1 := by
  induction ops generalizing t with
  | nil =>
    simp only [runOps, Option.some.injEq] at h
    subst h
    exact hr
  | cons op ops ih =>
    simp only [runOps] at h
    cases hop : applyOp op t with
    | none => rw [hop] at h; cases h
    | some t2 =>
      rw [hop, Option.some_bind] at h
      cases op with
      | put k v => exact ih t2 (Reachable.put k (some v) hr hop) h
      | remove k => exact ih t2 (Reachable.remove k hr hop) h

/-- C13, counterexample. The sequential run `Put(i * 2 ^ 32, 0)` for
`i = 0, 1, ..., 16777391` on `NewLHash()` (all keys address bucket 0) reaches
a table of 87383 buckets; the next `Put`, of the key `16777392 * 2 ^ 32`,
leaves 16777393 entries in 349529 nodes, so that `size > 48 * nodeCount`
(the load factor exceeds 0.75), and still performs no split: `float32(size)`
rounds 16777393 down to 16777392 and the quotient is exactly `0.75`. -/
theorem split_trigger_counterexample :
    ∃ t t1 : LHash Nat Nat,
      runOps (farOps 0 16777392) NewLHash = some t ∧ Reachable t ∧
      t.buckets.length = 87383 ∧
      t.putMutate (farKey 16777392) (some 0) = some t1 ∧
      t.Put (farKey 16777392) (some 0) = some t1 ∧
      t1.size = 16777393 ∧ t1.bucketCount = 349529 ∧ (t1.nodes : Int) = 349529 ∧
      48 * t1.bucketCount < t1.size ∧
      t1.needsSplit = false ∧ t1.buckets.length = t.buckets.length := by
  obtain ⟨j, s, e, hs, hrun⟩ := far_reach 87383 (by decide) (le_refl _)
  have hpos : 0 < 2 ^ j := Nat.two_pow_pos j
  have hj : j < 17 := by
    by_contra hc
    have : 2 ^ 17 ≤ 2 ^ j := Nat.pow_le_pow_right (by decide) (by omega)
    omega
  have hn : 192 * 87383 - 144 = 16777392 := by decide
  rw [hn] at hrun
  obtain ⟨c1, c2, c3⟩ := packedTable_counters (16777392 + 1) j s
  obtain ⟨_, _, d3⟩ := packedTable_counters 16777392 j s
  have hbc : (16777392 + 1 - 1) / 64 + 2 ^ j + s = 349529 := by omega
  rw [hbc] at c2
  have hns : (packedTable (16777392 + 1) j s).needsSplit = false := by
    apply needsSplit_rounded <;> omega
  have hput := packedTable_put 16777392 j s (by omega)
  rw [hns] at hput
  simp only [Bool.false_eq_true, if_false] at hput
  have hmut := packedTable_putMutate 16777392 j s (by omega)
  have hr : Reachable (packedTable 16777392 j s) :=
    runOps_reachable _ _ _ Reachable.new hrun
  have hr1 : Reachable (packedTable (16777392 + 1) j s) := Reachable.put _ _ hr hput
  have hinv := reachable_inv lawful_uint hr1 (by rw [c3]; omega)
  have hcount := hinv.count_eq
  refine ⟨_, _, hrun, hr, by rw [d3]; exact e, hmut, hput, by rw [c1]; rfl, c2, ?_, ?_, hns, ?_⟩
  · simp only [LHash.nodes]
    omega
  · omega
  · rw [c3, d3]

end

end linearhash
